import Mathlib

/-!
Verification of the aurelia-i18n-tools localization toolchain.

This file gives a shallow embedding of the core data model and algorithms of
the toolchain (the `t`-attribute codec, the locale tree, the translation
database with its JSON v2 serialization, key justification, prefix derivation
and the project reconciliation pipeline) and proves or refutes the frozen
specification claims about them.

Modelling conventions:
* JS strings are modelled as `List Char` (`Str`); JS `Map`s as insertion
  ordered association lists (`JsMap`) whose operations mirror the ECMAScript
  `Map` semantics (set replaces in place, otherwise appends).
* Timestamps (`Date.now()` values) are natural numbers of milliseconds and are
  passed explicitly as a `now` argument where the source calls `Date.now()`.
* Platform primitives that are external to the repository (the `JSON` codec,
  `Date.prototype.toISOString` / `Date.parse`, `node:path`) are modelled by
  small concrete functions that keep exactly the algebra the repository relies
  on; everything written in the repository itself is translated line by line.
-/

namespace I18nTools

/-- JS strings, modelled as lists of unicode scalar characters. -/
abbrev Str := List Char

/-- Insertion ordered association list modelling a JS `Map`. -/
abbrev JsMap (α β : Type) := List (α × β)

namespace JsMap

variable {α β : Type} [DecidableEq α]

/-- Model of `Map.prototype.get`: value of the first (and by the `Map`
invariant only) entry with the given key. -/
def get (m : JsMap α β) (k : α) : Option β :=
  match m with
  | [] => none
  | (k0, v0) :: rest => if k0 = k then some v0 else get rest k

/-- Model of `Map.prototype.has`. -/
def hasKey (m : JsMap α β) (k : α) : Bool :=
  (get m k).isSome

/-- Model of `Map.prototype.set`: replace the value in place when the key is
present, otherwise append a new entry at the end. -/
def set (m : JsMap α β) (k : α) (v : β) : JsMap α β :=
  match m with
  | [] => [(k, v)]
  | (k0, v0) :: rest => if k0 = k then (k0, v) :: rest else (k0, v0) :: set rest k v

/-- Model of `Map.prototype.delete` (only the removal effect). -/
def del (m : JsMap α β) (k : α) : JsMap α β :=
  match m with
  | [] => []
  | (k0, v0) :: rest => if k0 = k then rest else (k0, v0) :: del rest k

/-- Keys of the map in iteration order. -/
def keyList (m : JsMap α β) : List α :=
  m.map Prod.fst

theorem get_set_eq (m : JsMap α β) (k : α) (v : β) : get (set m k v) k = some v := by
  induction m with
  | nil => simp [get, set]
  | cons hd tl ih =>
    obtain ⟨k0, v0⟩ := hd
    by_cases h : k0 = k <;> simp [get, set, h, ih]

theorem get_set_ne (m : JsMap α β) (k k' : α) (v : β) (h : k ≠ k') :
    get (set m k v) k' = get m k' := by
  induction m with
  | nil => simp [get, set, h]
  | cons hd tl ih =>
    obtain ⟨k0, v0⟩ := hd
    by_cases h0 : k0 = k
    · subst h0
      simp [get, set, h]
    · simp only [set, if_neg h0]
      by_cases h1 : k0 = k' <;> simp [get, h1, ih]

theorem set_get_self (m : JsMap α β) (k : α) (v : β) (h : get m k = some v) :
    set m k v = m := by
  induction m with
  | nil => simp [get] at h
  | cons hd tl ih =>
    obtain ⟨k0, v0⟩ := hd
    by_cases h0 : k0 = k
    · subst h0
      simp [get] at h
      simp [set, h]
    · simp [get, h0] at h
      simp [set, h0, ih h]

end JsMap

/-! ## Locale tree (`src/locale-data.ts`)

`LocaleData` in the source is a plain object whose values are either strings
(leaves) or nested locale data objects.  We model one node as `LocaleNode` and
a locale data object as the ordered list of its properties. -/

/-- A value stored in a locale data object: a string leaf or a subtree. -/
inductive LocaleNode : Type
  | str (s : Str)
  | obj (entries : List (Str × LocaleNode))

/-- A locale data object: ordered properties of the root object. -/
abbrev LocaleData := JsMap Str LocaleNode

/-- Model of the JS `String.prototype.split` with a single character
separator: `"" → [""]`, and a separator at either end yields empty parts. -/
def jsSplit (sep : Char) : Str → List Str
  | [] => [[]]
  | c :: rest =>
    if c = sep then [] :: jsSplit sep rest
    else
      match jsSplit sep rest with
      | [] => [[c]]
      | h :: t => (c :: h) :: t

theorem jsSplit_ne_nil (sep : Char) (s : Str) : jsSplit sep s ≠ [] := by
  cases s with
  | nil => simp [jsSplit]
  | cons c rest =>
    simp only [jsSplit]
    by_cases h : c = sep
    · simp [h]
    · simp only [if_neg h]
      cases jsSplit sep rest <;> simp

namespace LocaleData

/-- Core of `LocaleData.set`, walking the already split key parts.  The source
mutates the tree while walking: every subtree that is entered or freshly
created is updated in place even when a later part fails, so the returned
entries reflect the partial mutation faithfully.  Returns the `false`/`true`
result flag of the source together with the resulting object. -/
def setParts : LocaleData → List Str → Str → Bool × LocaleData
  | entries, [], _ => (false, entries)
  | entries, [last], content =>
    match JsMap.get entries last with
    | none => (true, JsMap.set entries last (.str content))
    | some _ => (false, entries)
  | entries, p :: q :: rest, content =>
    match JsMap.get entries p with
    | some (.str _) => (false, entries)
    | some (.obj sub) =>
      let r := setParts sub (q :: rest) content
      (r.1, JsMap.set entries p (.obj r.2))
    | none =>
      let r := setParts [] (q :: rest) content
      (r.1, JsMap.set entries p (.obj r.2))

/-- Model of `LocaleData.set` from `src/locale-data.ts`: split the key on `.`,
walk or create subtrees, fail if an intermediate is a string leaf or the final
segment already exists. -/
def set (data : LocaleData) (key : Str) (content : Str) : Bool × LocaleData :=
  setParts data (jsSplit '.' key) content

/-- Lookup of a key path in a locale data object (returns the leaf content). -/
def lookupPath : LocaleData → List Str → Option Str
  | _, [] => none
  | entries, [last] =>
    match JsMap.get entries last with
    | some (.str s) => some s
    | _ => none
  | entries, p :: q :: rest =>
    match JsMap.get entries p with
    | some (.obj sub) => lookupPath sub (q :: rest)
    | _ => none

/-- On an empty object, walking a nonempty path always succeeds: every
intermediate is freshly created, so nothing can collide. -/
theorem setParts_nil_ok (parts : List Str) (content : Str) (h : parts ≠ []) :
    (setParts [] parts content).1 = true := by
  match parts with
  | [] => exact absurd rfl h
  | [last] => simp [setParts, JsMap.get]
  | p :: q :: rest =>
    simp only [setParts, JsMap.get]
    exact setParts_nil_ok (q :: rest) content (by simp)

/-- Failure of `setParts` leaves the object exactly as it was. -/
theorem setParts_fail (entries : LocaleData) (parts : List Str) (content : Str)
    (h : (setParts entries parts content).1 = false) :
    (setParts entries parts content).2 = entries := by
  match parts with
  | [] => rfl
  | [last] =>
    simp only [setParts] at h ⊢
    cases hg : JsMap.get entries last with
    | none => rw [hg] at h; simp at h
    | some v => simp
  | p :: q :: rest =>
    simp only [setParts] at h ⊢
    cases hg : JsMap.get entries p with
    | none =>
      rw [hg] at h
      simp only [setParts_nil_ok (q :: rest) content (by simp)] at h
      exact absurd h (by decide)
    | some node =>
      cases node with
      | str s => simp
      | obj sub =>
        rw [hg] at h
        simp only at h ⊢
        have hsub := setParts_fail sub (q :: rest) content h
        rw [hsub]
        exact JsMap.set_get_self entries p (.obj sub) hg

/-- Success of `setParts` makes the path resolve to the new content. -/
theorem setParts_ok_lookup (entries : LocaleData) (parts : List Str) (content : Str)
    (h : (setParts entries parts content).1 = true) :
    lookupPath (setParts entries parts content).2 parts = some content := by
  match parts with
  | [] => simp [setParts] at h
  | [last] =>
    simp only [setParts] at h ⊢
    cases hg : JsMap.get entries last with
    | none =>
      simp only [lookupPath]
      rw [JsMap.get_set_eq]
    | some v => rw [hg] at h; simp at h
  | p :: q :: rest =>
    simp only [setParts] at h ⊢
    cases hg : JsMap.get entries p with
    | none =>
      rw [hg] at h
      simp only [lookupPath]
      rw [JsMap.get_set_eq]
      exact setParts_ok_lookup [] (q :: rest) content h
    | some node =>
      cases node with
      | str s => rw [hg] at h; simp at h
      | obj sub =>
        rw [hg] at h
        simp only [lookupPath]
        rw [JsMap.get_set_eq]
        exact setParts_ok_lookup sub (q :: rest) content h

end LocaleData

/-- Claim C10: `LocaleData.set(data, key, content)` is atomic on failure: if it
returns `false` (a proper dotted path segment hits a string leaf, or the final
segment already exists) the tree is left exactly as it was, with no
intermediate subtrees created; if it returns `true`, looking the dotted key
path up afterwards yields `content`. -/
theorem c10_localeData_set_atomic (data : LocaleData) (key content : Str) :
    ((LocaleData.set data key content).1 = false →
      (LocaleData.set data key content).2 = data) ∧
    ((LocaleData.set data key content).1 = true →
      LocaleData.lookupPath (LocaleData.set data key content).2 (jsSplit '.' key)
        = some content) :=
  ⟨LocaleData.setParts_fail data (jsSplit '.' key) content,
   LocaleData.setParts_ok_lookup data (jsSplit '.' key) content⟩

/-- Witness for C10 at concrete inputs: setting `a.b` fails (and changes
nothing) on a tree where `a` is a leaf, and succeeds with a correct lookup on
an empty tree. -/
theorem c10_localeData_set_atomic_witness :
    ((LocaleData.set [("a".data, .str "x".data)] "a.b".data "y".data).2
      = [("a".data, .str "x".data)]) ∧
    (LocaleData.lookupPath (LocaleData.set [] "a.b".data "y".data).2
      (jsSplit '.' "a.b".data) = some "y".data) :=
  ⟨(c10_localeData_set_atomic [("a".data, .str "x".data)] "a.b".data "y".data).1 (by decide),
   (c10_localeData_set_atomic [] "a.b".data "y".data).2 (by decide)⟩

/-! ## The `t`-attribute codec (`src/aurelia-i18n-attribute.ts`)

The parser repeatedly applies the regular expression
`\s*(?:\[([a-z0-9\s_,.-]+)\])?\s*([a-z0-9_.-]+)\s*(?:;\s*)?` (case
insensitive, global) via `exec`, which scans forward from `lastIndex` for the
leftmost match.  The pattern is deterministic (no character class overlaps a
required delimiter), so it is modelled by a direct functional matcher plus a
character-by-character scan. -/

/-- Model of the JS `\s` character class (ASCII part, which is all the
sources ever contain). -/
def isSpaceChar (c : Char) : Bool :=
  c = ' ' || c = '\t' || c = '\n' || c = '\r' || c.toNat = 11 || c.toNat = 12

/-- Characters allowed in a bracketed name list: `[a-z0-9\s_,.-]` with the
`i` flag. -/
def isNameChar (c : Char) : Bool :=
  (97 ≤ c.toNat && c.toNat ≤ 122) || (65 ≤ c.toNat && c.toNat ≤ 90) ||
  (48 ≤ c.toNat && c.toNat ≤ 57) || isSpaceChar c ||
  c = '_' || c = ',' || c = '.' || c = '-'

/-- Characters allowed in a key: `[a-z0-9_.-]` with the `i` flag. -/
def isKeyChar (c : Char) : Bool :=
  (97 ≤ c.toNat && c.toNat ≤ 122) || (65 ≤ c.toNat && c.toNat ≤ 90) ||
  (48 ≤ c.toNat && c.toNat ≤ 57) || c = '_' || c = '.' || c = '-'

/-- Model of `String.prototype.trim` (whitespace at both ends). -/
def trimStr (s : Str) : Str :=
  ((s.dropWhile isSpaceChar).reverse.dropWhile isSpaceChar).reverse

/-- The optional bracket group `(?:\[([a-z0-9\s_,.-]+)\])?` at the start of
`s1`.  If the group cannot match (no closing bracket or empty name list) the
optional group matches the empty string and the input is left untouched. -/
def matchGroup (s1 : Str) : Option Str × Str :=
  match s1 with
  | '[' :: t =>
    let names := t.takeWhile isNameChar
    if names = [] then (none, s1)
    else
      match t.dropWhile isNameChar with
      | ']' :: u => (some names, u)
      | _ => (none, s1)
  | _ => (none, s1)

/-- The trailing `\s*(?:;\s*)?` after the key. -/
def matchTail (s4 : Str) : Str :=
  match s4.dropWhile isSpaceChar with
  | ';' :: u => u.dropWhile isSpaceChar
  | s5 => s5

/-- Attempt to match `NAMES_KEY_PAIR` at the start of `s`.  Returns the
optional bracket group, the key, and the rest of the input after the match. -/
def tryMatchPair (s : Str) : Option (Option Str × Str × Str) :=
  let gs2 := matchGroup (s.dropWhile isSpaceChar)
  let s3 := gs2.2.dropWhile isSpaceChar
  let key := s3.takeWhile isKeyChar
  if key = [] then none
  else some (gs2.1, key, matchTail (s3.dropWhile isKeyChar))

theorem length_dropWhile_le (p : Char → Bool) (s : Str) :
    (s.dropWhile p).length ≤ s.length := by
  have h := congrArg List.length (List.takeWhile_append_dropWhile (p := p) (l := s))
  simp only [List.length_append] at h
  omega

theorem length_dropWhile_lt (p : Char → Bool) (s : Str)
    (h : s.takeWhile p ≠ []) : (s.dropWhile p).length < s.length := by
  have hl := congrArg List.length (List.takeWhile_append_dropWhile (p := p) (l := s))
  simp only [List.length_append] at hl
  have : 0 < (s.takeWhile p).length := List.length_pos.mpr h
  omega

theorem matchGroup_length (s1 : Str) : (matchGroup s1).2.length ≤ s1.length := by
  match s1 with
  | [] => simp [matchGroup]
  | c :: t =>
    by_cases hc : c = '['
    · subst hc
      simp only [matchGroup]
      by_cases hn : t.takeWhile isNameChar = []
      · simp [hn]
      · simp only [hn, if_neg, reduceIte]
        cases hd : t.dropWhile isNameChar with
        | nil => simp
        | cons a u =>
          by_cases ha : a = ']'
          · subst ha
            simp only
            have := length_dropWhile_le isNameChar t
            rw [hd] at this
            simp at this ⊢
            omega
          · have : (match a :: u with
                | ']' :: u => (some (t.takeWhile isNameChar), u)
                | _ => (none, '[' :: t)) = (none, '[' :: t) := by
              cases a <;> simp_all
            rw [this]
    · have : matchGroup (c :: t) = (none, c :: t) := by
        unfold matchGroup
        cases c <;> simp_all
      rw [this]

theorem matchTail_length (s4 : Str) : (matchTail s4).length ≤ s4.length := by
  unfold matchTail
  have h1 := length_dropWhile_le isSpaceChar s4
  cases h : s4.dropWhile isSpaceChar with
  | nil => simpa [h] using h1
  | cons a u =>
    by_cases ha : a = ';'
    · subst ha
      simp only
      have h2 := length_dropWhile_le isSpaceChar u
      rw [h] at h1
      simp at h1
      omega
    · have : (match a :: u with
          | ';' :: u => u.dropWhile isSpaceChar
          | s5 => s5) = a :: u := by
        cases a <;> simp_all
      rw [this, ← h]
      exact h1

theorem tryMatchPair_length (s : Str) (g : Option Str) (key rest : Str)
    (h : tryMatchPair s = some (g, key, rest)) : rest.length < s.length := by
  unfold tryMatchPair at h
  by_cases hkey :
      ((matchGroup (s.dropWhile isSpaceChar)).2.dropWhile isSpaceChar).takeWhile isKeyChar = []
  · simp [hkey] at h
  · simp only [hkey, if_neg, reduceIte, Option.some.injEq, Prod.mk.injEq] at h
    obtain ⟨-, -, hr⟩ := h
    have h1 := matchTail_length
      (((matchGroup (s.dropWhile isSpaceChar)).2.dropWhile isSpaceChar).dropWhile isKeyChar)
    have h2 := length_dropWhile_lt isKeyChar
      ((matchGroup (s.dropWhile isSpaceChar)).2.dropWhile isSpaceChar) hkey
    have h3 := length_dropWhile_le isSpaceChar (matchGroup (s.dropWhile isSpaceChar)).2
    have h4 := matchGroup_length (s.dropWhile isSpaceChar)
    have h5 := length_dropWhile_le isSpaceChar s
    rw [← hr]
    omega

/-- Model of `regex.exec` with the `g` flag: scan forward from the current
position for the leftmost match of `NAMES_KEY_PAIR`. -/
def execPair : Str → Option (Option Str × Str × Str)
  | [] => tryMatchPair []
  | c :: t =>
    match tryMatchPair (c :: t) with
    | some r => some r
    | none => execPair t

theorem execPair_length (s : Str) (g : Option Str) (key rest : Str)
    (h : execPair s = some (g, key, rest)) : rest.length < s.length := by
  match s with
  | [] =>
    simp only [execPair, tryMatchPair, matchGroup, List.dropWhile, List.takeWhile] at h
    simp at h
  | c :: t =>
    simp only [execPair] at h
    cases hm : tryMatchPair (c :: t) with
    | some r =>
      rw [hm] at h
      obtain rfl : r = (g, key, rest) := by simpa using h
      exact tryMatchPair_length _ _ _ _ hm
    | none =>
      rw [hm] at h
      simp only at h
      have := execPair_length t g key rest h
      simp
      omega

/-- The main loop of `AureliaI18nAttribute.parse`: while the scan position is
inside the value, `exec` the pair pattern; a failed `exec` throws.  Collects
the raw `(bracket group, key)` pairs in match order.  The loop terminates
because every match consumes at least one character (`execPair_length`); the
recursion is fuelled so that it evaluates, `parsePairsGo_fuel` shows any
sufficient fuel gives the same result, and the fuel-exhaustion branch is dead
code for the fuel used by `parsePairList`. -/
def parsePairsGo : Nat → Str → Except Unit (List (Option Str × Str))
  | 0, _ => .error ()
  | _ + 1, [] => .ok []
  | fuel + 1, c :: t =>
    match execPair (c :: t) with
    | none => .error ()
    | some (g, key, rest) =>
      match parsePairsGo fuel rest with
      | .error e => .error e
      | .ok ps => .ok ((g, key) :: ps)

theorem parsePairsGo_fuel (fuel1 : Nat) (s : Str) (fuel2 : Nat)
    (h1 : s.length < fuel1) (h2 : s.length < fuel2) :
    parsePairsGo fuel1 s = parsePairsGo fuel2 s := by
  induction fuel1 generalizing s fuel2 with
  | zero => omega
  | succ f1 ih =>
    match fuel2, h2 with
    | f2 + 1, h2 =>
      cases s with
      | nil => rfl
      | cons c t =>
        simp only [parsePairsGo]
        cases he : execPair (c :: t) with
        | none => rfl
        | some r =>
          obtain ⟨g, key, rest⟩ := r
          have hlen : rest.length < t.length + 1 := by
            simpa using execPair_length _ _ _ _ he
          have h1l : t.length + 1 < f1 + 1 := by simpa using h1
          have h2l : t.length + 1 < f2 + 1 := by simpa using h2
          dsimp only
          rw [ih rest f2 (by omega) (by omega)]

/-- The regex loop of `AureliaI18nAttribute.parse` with sufficient fuel. -/
def parsePairList (s : Str) : Except Unit (List (Option Str × Str)) :=
  parsePairsGo (s.length + 1) s

/-- A raw bracket group expanded to its target names: `undefined` (and, via
the JS `||`, an empty group) reads as `text`; otherwise the group is split on
commas, each part trimmed, empty parts dropped. -/
def expandNames (g : Option Str) : List Str :=
  let raw :=
    match g with
    | none => "text".data
    | some n => if n = [] then "text".data else n
  ((jsSplit ',' raw).map trimStr).filter (fun n => n ≠ [])

/-- The `text` target name. -/
def textS : Str := "text".data

/-- The `html` target name. -/
def htmlS : Str := "html".data

/-- Model of `AureliaI18nAttribute.set`: bind `name → key`, enforcing the
`text`/`html` exclusivity (setting one deletes the other). -/
def attrSet (m : JsMap Str Str) (name key : Str) : JsMap Str Str :=
  let m1 := JsMap.set m name key
  if name = textS then JsMap.del m1 htmlS
  else if name = htmlS then JsMap.del m1 textS
  else m1

/-- Bind all names of one pair in order, throwing on a name that is already
present in the attribute. -/
def addPairNames (m : JsMap Str Str) (names : List Str) (key : Str) :
    Except Unit (JsMap Str Str) :=
  match names with
  | [] => .ok m
  | n :: rest =>
    if JsMap.hasKey m n then .error ()
    else addPairNames (attrSet m n key) rest key

/-- Fold the parsed pairs into the attribute map. -/
def buildAttr (m : JsMap Str Str) : List (Option Str × Str) → Except Unit (JsMap Str Str)
  | [] => .ok m
  | (g, key) :: rest =>
    match addPairNames m (expandNames g) key with
    | .error e => .error e
    | .ok m2 => buildAttr m2 rest

/-- Model of `AureliaI18nAttribute.parse`: run the regex loop, then bind every
expanded name, throwing a `TypeError` (modelled as `.error ()`) on a failed
match or a duplicate name. -/
def attrParse (value : Str) : Except Unit (JsMap Str Str) :=
  match parsePairList value with
  | .error e => .error e
  | .ok ps => buildAttr [] ps

/-- The multiset of target names of an attribute value, after expanding
bracketed name lists and reading a bare key as target `text` (empty when the
regex loop fails). -/
def targetNamesOf (value : Str) : List Str :=
  match parsePairList value with
  | .error _ => []
  | .ok ps => ps.flatMap (fun p => expandNames p.1)

theorem get_del_ne {α β : Type} [DecidableEq α] (m : JsMap α β) (k k' : α) (h : k' ≠ k) :
    JsMap.get (JsMap.del m k) k' = JsMap.get m k' := by
  induction m with
  | nil => rfl
  | cons hd tl ih =>
    obtain ⟨k0, v0⟩ := hd
    simp only [JsMap.del]
    by_cases h0 : k0 = k
    · rw [if_pos h0]
      have hne : k0 ≠ k' := fun hh => h (hh.symm.trans h0)
      simp only [JsMap.get, if_neg hne]
    · rw [if_neg h0]
      simp only [JsMap.get]
      by_cases h1 : k0 = k' <;> simp [h1, ih]

theorem hasKey_attrSet (m : JsMap Str Str) (name key n : Str)
    (hnt : n ≠ textS) (hnh : n ≠ htmlS) :
    JsMap.hasKey (attrSet m name key) n = true ↔
      (name = n ∨ JsMap.hasKey m n = true) := by
  have hgoal : JsMap.get (attrSet m name key) n
      = if name = n then some key else JsMap.get m n := by
    simp only [attrSet]
    by_cases h1 : name = textS
    · rw [if_pos h1, get_del_ne _ _ _ hnh]
      by_cases h : name = n
      · rw [if_pos h, ← h, JsMap.get_set_eq]
      · rw [if_neg h, JsMap.get_set_ne m name n key h]
    · rw [if_neg h1]
      by_cases h2 : name = htmlS
      · rw [if_pos h2, get_del_ne _ _ _ hnt]
        by_cases h : name = n
        · rw [if_pos h, ← h, JsMap.get_set_eq]
        · rw [if_neg h, JsMap.get_set_ne m name n key h]
      · rw [if_neg h2]
        by_cases h : name = n
        · rw [if_pos h, ← h, JsMap.get_set_eq]
        · rw [if_neg h, JsMap.get_set_ne m name n key h]
  unfold JsMap.hasKey
  rw [hgoal]
  by_cases h : name = n <;> simp [h]

theorem addPairNames_preserve (names : List Str) (m m2 : JsMap Str Str) (key n : Str)
    (hnt : n ≠ textS) (hnh : n ≠ htmlS) (hmem : JsMap.hasKey m n = true)
    (h : addPairNames m names key = .ok m2) : JsMap.hasKey m2 n = true := by
  induction names generalizing m with
  | nil => simp only [addPairNames] at h; exact Except.ok.inj h ▸ hmem
  | cons n0 rest ih =>
    simp only [addPairNames] at h
    by_cases hk : JsMap.hasKey m n0 = true
    · simp [hk] at h
    · rw [if_neg hk] at h
      exact ih (attrSet m n0 key) ((hasKey_attrSet m n0 key n hnt hnh).mpr (Or.inr hmem)) h

theorem addPairNames_mem_error (names : List Str) (m : JsMap Str Str) (key n : Str)
    (hnt : n ≠ textS) (hnh : n ≠ htmlS) (hmem : JsMap.hasKey m n = true)
    (hin : n ∈ names) : addPairNames m names key = .error () := by
  induction names generalizing m with
  | nil => simp at hin
  | cons n0 rest ih =>
    simp only [addPairNames]
    by_cases hk : JsMap.hasKey m n0 = true
    · simp [hk]
    · rw [if_neg hk]
      have hne : n0 ≠ n := by
        intro hh
        rw [hh, hmem] at hk
        exact hk rfl
      have hrest : n ∈ rest := by
        cases hin with
        | head => exact absurd rfl hne
        | tail _ ht => exact ht
      exact ih (attrSet m n0 key) ((hasKey_attrSet m n0 key n hnt hnh).mpr (Or.inr hmem)) hrest

theorem addPairNames_adds (names : List Str) (m m2 : JsMap Str Str) (key n : Str)
    (hnt : n ≠ textS) (hnh : n ≠ htmlS) (hin : n ∈ names)
    (h : addPairNames m names key = .ok m2) : JsMap.hasKey m2 n = true := by
  induction names generalizing m with
  | nil => simp at hin
  | cons n0 rest ih =>
    simp only [addPairNames] at h
    by_cases hk : JsMap.hasKey m n0 = true
    · simp [hk] at h
    · rw [if_neg hk] at h
      by_cases hn0 : n0 = n
      · exact addPairNames_preserve rest _ _ key n hnt hnh
          ((hasKey_attrSet m n0 key n hnt hnh).mpr (Or.inl hn0)) h
      · have hrest : n ∈ rest := by
          cases hin with
          | head => exact absurd rfl hn0
          | tail _ ht => exact ht
        exact ih (attrSet m n0 key) hrest h

theorem addPairNames_dup_error (names : List Str) (m : JsMap Str Str) (key n : Str)
    (hnt : n ≠ textS) (hnh : n ≠ htmlS) (hdup : 2 ≤ names.count n) :
    addPairNames m names key = .error () := by
  induction names generalizing m with
  | nil => simp [List.count] at hdup
  | cons n0 rest ih =>
    simp only [addPairNames]
    by_cases hk : JsMap.hasKey m n0 = true
    · simp [hk]
    · rw [if_neg hk]
      by_cases hn0 : n0 = n
      · have hmem2 : n ∈ rest := by
          rw [List.count_cons] at hdup
          simp [hn0] at hdup
          exact hdup
        exact addPairNames_mem_error rest _ key n hnt hnh
          ((hasKey_attrSet m n0 key n hnt hnh).mpr (Or.inl hn0)) hmem2
      · have hc2 : 2 ≤ rest.count n := by
          rw [List.count_cons] at hdup
          simp [hn0] at hdup
          omega
        exact ih (attrSet m n0 key) hc2

theorem buildAttr_mem_error (ps : List (Option Str × Str)) (m : JsMap Str Str) (n : Str)
    (hnt : n ≠ textS) (hnh : n ≠ htmlS) (hmem : JsMap.hasKey m n = true)
    (hin : n ∈ ps.flatMap (fun p => expandNames p.1)) :
    buildAttr m ps = .error () := by
  induction ps generalizing m with
  | nil => simp at hin
  | cons p rest ih =>
    obtain ⟨g, key⟩ := p
    simp only [buildAttr]
    cases hadd : addPairNames m (expandNames g) key with
    | error e => rfl
    | ok m2 =>
      simp only [List.flatMap_cons, List.mem_append] at hin
      cases hin with
      | inl hg =>
        rw [addPairNames_mem_error (expandNames g) m key n hnt hnh hmem hg] at hadd
        exact absurd hadd (by simp)
      | inr hr => exact ih m2 (addPairNames_preserve (expandNames g) m m2 key n hnt hnh hmem hadd) hr

theorem buildAttr_dup_error (ps : List (Option Str × Str)) (m : JsMap Str Str) (n : Str)
    (hnt : n ≠ textS) (hnh : n ≠ htmlS)
    (hdup : 2 ≤ (ps.flatMap (fun p => expandNames p.1)).count n) :
    buildAttr m ps = .error () := by
  induction ps generalizing m with
  | nil => simp [List.count] at hdup
  | cons p rest ih =>
    obtain ⟨g, key⟩ := p
    simp only [buildAttr]
    cases hadd : addPairNames m (expandNames g) key with
    | error e => rfl
    | ok m2 =>
      simp only [List.flatMap_cons, List.count_append] at hdup
      by_cases h2 : 2 ≤ (expandNames g).count n
      · rw [addPairNames_dup_error (expandNames g) m key n hnt hnh h2] at hadd
        exact absurd hadd (by simp)
      · by_cases h1 : 1 ≤ (expandNames g).count n
        · have hr : 1 ≤ (rest.flatMap (fun p => expandNames p.1)).count n := by omega
          exact buildAttr_mem_error rest m2 n hnt hnh
            (addPairNames_adds (expandNames g) m m2 key n hnt hnh
              (List.count_pos_iff.mp (by omega)) hadd)
            (List.count_pos_iff.mp (by omega))
        · have hc2 : 2 ≤ (rest.flatMap (fun p => expandNames p.1)).count n := by omega
          exact ih m2 hc2

/-- Counterexample to claim C4: in the value `a;[html]b;c` the target name
`text` occurs twice (both bare keys read as target `text`), yet
`AureliaI18nAttribute.parse` succeeds — binding `html` in between removed
the first `text` binding, so the duplicate check does not fire. -/
theorem c4_counterexample_duplicate_text_accepted :
    2 ≤ (targetNamesOf "a;[html]b;c".data).count "text".data ∧
    (attrParse "a;[html]b;c".data).isOk = true := by
  constructor
  · decide
  · decide

/-- Claim C4, amended: a target name that occurs more than once fails with a
`TypeError` (reported as `InvalidTAttribute`) whenever the name is neither
`text` nor `html`; a duplicated `text` (resp. `html`) target throws only if
the earlier binding was not removed in between by the `text`/`html`
exclusivity rule of `AureliaI18nAttribute.set`. -/
theorem c4_amended_duplicate_name_throws (value n : Str)
    (hnt : n ≠ textS) (hnh : n ≠ htmlS)
    (hdup : 2 ≤ (targetNamesOf value).count n) :
    attrParse value = .error () := by
  unfold targetNamesOf at hdup
  unfold attrParse
  cases hp : parsePairList value with
  | error e => rfl
  | ok ps =>
    rw [hp] at hdup
    exact buildAttr_dup_error ps [] n hnt hnh hdup

/-- Witness for the amended C4 at a concrete input: `[x]k;[x]k2` repeats the
target `x` and parsing throws. -/
theorem c4_amended_duplicate_name_throws_witness :
    attrParse "[x]k;[x]k2".data = .error () :=
  c4_amended_duplicate_name_throws "[x]k;[x]k2".data "x".data
    (by decide) (by decide) (by decide)

/-! ## Prefix derivation (`Project.getPrefix`)

`getPrefix` takes the file's basename without extension (or, for an `index`
file below the source root, the parent directory's basename), sanitizes it and
appends it to `config.prefix` with a trailing dot.  The sanitizer is

    value.replace(/([a-z0-9])([A-Z])/g, "$1-$2")
         .replace(/[^a-zA-Z0-9\.]+/, "-")
         .toLowerCase()

note that the second `replace` has no `g` flag, so only the first run of
characters outside `[A-Za-z0-9.]` is replaced.  Filenames are modelled by
their directory segments below `config.src` plus the basename, which is what
the `node:path` calls of the source compute for a file inside `config.src`. -/

/-- ASCII lowercase letter. -/
def isAsciiLower (c : Char) : Bool := 97 ≤ c.toNat && c.toNat ≤ 122

/-- ASCII uppercase letter. -/
def isAsciiUpper (c : Char) : Bool := 65 ≤ c.toNat && c.toNat ≤ 90

/-- ASCII digit. -/
def isAsciiDigit (c : Char) : Bool := 48 ≤ c.toNat && c.toNat ≤ 57

/-- A character kept by the sanitizer: `[a-zA-Z0-9.]`. -/
def isSanitizeKeep (c : Char) : Bool :=
  isAsciiLower c || isAsciiUpper c || isAsciiDigit c || c = '.'

/-- Model of `String.prototype.toLowerCase` (ASCII part). -/
def toLowerChar (c : Char) : Char :=
  if isAsciiUpper c then Char.ofNat (c.toNat + 32) else c

/-- The global camel-case step `replace(/([a-z0-9])([A-Z])/g, "$1-$2")`:
non-overlapping matches, scanning resumes after each replaced pair. -/
def camelStep : Str → Str
  | [] => []
  | [c] => [c]
  | a :: b :: rest =>
    if (isAsciiLower a || isAsciiDigit a) && isAsciiUpper b then a :: '-' :: b :: camelStep rest
    else a :: camelStep (b :: rest)

/-- The non-global step `replace(/[^a-zA-Z0-9\.]+/, "-")`: only the first
maximal run of disallowed characters is replaced by a single dash; everything
after it is kept verbatim. -/
def replaceFirstRun : Str → Str
  | [] => []
  | c :: rest =>
    if isSanitizeKeep c then c :: replaceFirstRun rest
    else '-' :: rest.dropWhile (fun x => !isSanitizeKeep x)

/-- The `sanitizeName` helper of `Project.getPrefix`. -/
def sanitizeName (value : Str) : Str :=
  (replaceFirstRun (camelStep value)).map toLowerChar

/-- Model of `path.basename(filename, path.extname(filename))`: strip the
extension after the last dot, unless that dot is the first character. -/
def stripExt (s : Str) : Str :=
  match s.reverse.dropWhile (fun c => c ≠ '.') with
  | [] => s
  | _ :: pre => if pre = [] then s else pre.reverse

/-- Model of `Project.getPrefix` for a file inside `config.src`, given the
directory segments between `config.src` and the file.  The
`dirname.length > config.src.length` check of the source holds exactly when
the segment list is nonempty. -/
def getPrefix (pfx : Str) (dirSegments : List Str) (base : Str) : Str :=
  let name := stripExt base
  match dirSegments.reverse with
  | d :: _ => if name = "index".data then pfx ++ sanitizeName d ++ ['.']
              else pfx ++ sanitizeName name ++ ['.']
  | [] => pfx ++ sanitizeName name ++ ['.']

/-- Sanitizer as claim C1 words it (stated for comparison only): every run of
disallowed characters becomes a single dash.  Equivalent formulation: map
every disallowed character to a dash, then collapse adjacent dashes. -/
def collapseDashes : Str → Str
  | [] => []
  | [a] => [a]
  | a :: b :: rest =>
    if a = '-' && b = '-' then collapseDashes (b :: rest)
    else a :: collapseDashes (b :: rest)

/-- The sanitize transformation that claim C1 describes. -/
def claimSanitize (value : Str) : Str :=
  (collapseDashes ((camelStep value).map
    (fun c => if isSanitizeKeep c then c else '-'))).map toLowerChar

/-- Counterexample to claim C1: for the basename `a b c.html` the code keeps
the second space (the sanitize regex has no `g` flag), while the claim
demands every run of disallowed characters be replaced. -/
theorem c1_counterexample_second_run_kept :
    getPrefix "app.".data [] "a b c.html".data = "app.a-b c.".data ∧
    "app.".data ++ claimSanitize (stripExt "a b c.html".data) ++ ['.']
      = "app.a-b-c.".data ∧
    getPrefix "app.".data [] "a b c.html".data
      ≠ "app.".data ++ claimSanitize (stripExt "a b c.html".data) ++ ['.'] := by
  refine ⟨by decide, by decide, by decide⟩

/-- First-run replacement, written independently as a take/drop split: the
prefix of kept characters, one dash for the first disallowed run, and the
untouched remainder. -/
def firstRunSplit (s : Str) : Str :=
  if s.dropWhile isSanitizeKeep = [] then s
  else s.takeWhile isSanitizeKeep
    ++ '-' :: (s.dropWhile isSanitizeKeep).dropWhile (fun x => !isSanitizeKeep x)

theorem replaceFirstRun_eq_firstRunSplit (s : Str) :
    replaceFirstRun s = firstRunSplit s := by
  induction s with
  | nil => rfl
  | cons c rest ih =>
    simp only [replaceFirstRun]
    by_cases hc : isSanitizeKeep c = true
    · rw [if_pos hc, ih]
      unfold firstRunSplit
      simp only [List.takeWhile_cons, List.dropWhile_cons, hc, if_pos]
      cases hd : rest.dropWhile isSanitizeKeep with
      | nil => simp [hd]
      | cons a b => simp [hd]
    · rw [if_neg hc]
      rw [Bool.not_eq_true] at hc
      unfold firstRunSplit
      simp [List.takeWhile_cons, List.dropWhile_cons, hc]

/-- Claim C1, amended: `getPrefix` returns `config.prefix + sanitized + "."`
where `sanitized` is the basename without extension (or the parent
directory's basename for an `index` file below the source root) with a dash
inserted between a lowercase letter or digit and a following uppercase
letter, then only the FIRST run of characters outside `[A-Za-z0-9.]` replaced
by a single dash (the replace has no global flag), then lowercased. -/
theorem c1_amended_getPrefix (pfx : Str) (dirSegments : List Str) (base : Str)
    (hidx : stripExt base = "index".data → dirSegments ≠ []) :
    getPrefix pfx dirSegments base =
      pfx ++ (firstRunSplit (camelStep
        (match dirSegments.reverse with
         | d :: _ => if stripExt base = "index".data then d else stripExt base
         | [] => stripExt base))).map toLowerChar ++ ['.'] := by
  simp only [getPrefix, sanitizeName, replaceFirstRun_eq_firstRunSplit]
  cases hrev : dirSegments.reverse with
  | nil => simp
  | cons d t =>
    by_cases hn : stripExt base = "index".data
    · simp [hn]
    · simp [hn]

/-- Witness for the amended C1: the test-suite example `src/fooBar.html`
(directly in the source root) yields `app.foo-bar.`. -/
theorem c1_amended_getPrefix_witness :
    getPrefix "app.".data [] "fooBar.html".data =
      "app.".data ++ (firstRunSplit (camelStep
        (match ([] : List Str).reverse with
         | d :: _ => if stripExt "fooBar.html".data = "index".data then d
                     else stripExt "fooBar.html".data
         | [] => stripExt "fooBar.html".data))).map toLowerChar ++ ['.'] :=
  c1_amended_getPrefix "app.".data [] "fooBar.html".data (by decide)

/-! ## Translation database (`src/translation-data.ts`)

Timestamps are milliseconds (`Nat`); every operation that calls `Date.now()`
in the source takes the current time as an explicit `now` argument. -/

/-- A translation value: content, modification time, spell-check ignores. -/
structure Translation where
  content : Str
  lastModified : Nat
  ignoreSpelling : List Str
deriving DecidableEq

/-- A translation set: the source-language value plus per-locale values. -/
structure TranslationSet where
  source : Translation
  translations : JsMap Str Translation
deriving DecidableEq

/-- A file record of the translation database. -/
structure TDFile where
  content : JsMap Str TranslationSet
deriving DecidableEq

/-- An entry of the obsolete ledger. -/
structure ObsoleteTranslation where
  content : Str
  translations : JsMap Str Str
deriving DecidableEq

/-- The translation database. -/
structure TranslationData where
  files : JsMap Str TDFile
  obsolete : List ObsoleteTranslation
  parsedVersion : Nat
deriving DecidableEq

namespace TranslationData

/-- Model of `TranslationData.cloneTranslation`. -/
def cloneTranslation (v : Translation) : Translation :=
  { content := v.content, lastModified := v.lastModified,
    ignoreSpelling := v.ignoreSpelling }

/-- Model of `TranslationData.cloneTranslationSet`: deep clone; when
`markAsOutdated` the clone's source `lastModified` becomes the current time. -/
def cloneTranslationSet (now : Nat) (v : TranslationSet) (markAsOutdated : Bool) :
    TranslationSet :=
  let src := cloneTranslation v.source
  { source := if markAsOutdated then { src with lastModified := now } else src,
    translations := v.translations.map (fun lt => (lt.1, cloneTranslation lt.2)) }

/-- The hint scan of `copyTranslations`: first hint file whose record holds
`oldKey` with at least one translation. -/
def findHintSet (d : TranslationData) (oldKey : Str) : List Str → Option TranslationSet
  | [] => none
  | f :: rest =>
    match JsMap.get d.files f with
    | some oldFile =>
      match JsMap.get oldFile.content oldKey with
      | some tr =>
        if 0 < tr.translations.length then some tr else findHintSet d oldKey rest
      | none => findHintSet d oldKey rest
    | none => findHintSet d oldKey rest

/-- Store a cloned translation set under `newKey` in `filename`'s record. -/
def storeClone (d : TranslationData) (filename : Str) (file : TDFile)
    (newKey : Str) (tr : TranslationSet) (now : Nat) : TranslationData :=
  { d with files := (JsMap.set d.files filename
      ⟨JsMap.set file.content newKey (cloneTranslationSet now tr true)⟩) }

/-- Model of `TranslationData.copyTranslations`.  Mirrors the source exactly:
when `filename` has no record at all the function returns `false`
immediately — the hint filenames are only scanned from inside the
`if (file)` branch. -/
def copyTranslations (d : TranslationData) (filename oldKey newKey : Str)
    (hintFilenames : Option (List Str)) (now : Nat) : Bool × TranslationData :=
  match JsMap.get d.files filename with
  | none => (false, d)
  | some file =>
    let hintScan : Bool × TranslationData :=
      match hintFilenames with
      | none => (false, d)
      | some hs =>
        match findHintSet d oldKey hs with
        | some tr => (true, storeClone d filename file newKey tr now)
        | none => (false, d)
    match JsMap.get file.content oldKey with
    | some tr =>
      if 0 < tr.translations.length then (true, storeClone d filename file newKey tr now)
      else hintScan
    | none => hintScan

/-- Model of `TranslationData.pushObsoleteSet`: append sets that carry at
least one translation to the obsolete ledger. -/
def pushObsoleteSet (obsolete : List ObsoleteTranslation) (ts : TranslationSet) :
    List ObsoleteTranslation :=
  if 0 < ts.translations.length then
    obsolete ++ [⟨ts.source.content, ts.translations.map (fun lt => (lt.1, lt.2.content))⟩]
  else obsolete

/-- One upsert step of `updateKeys` for an extracted `(key, content)` pair. -/
def updateKeysStep (now : Nat) (acc : Bool × JsMap Str TranslationSet)
    (kc : Str × Str) : Bool × JsMap Str TranslationSet :=
  match JsMap.get acc.2 kc.1 with
  | some tr =>
    if tr.source.content ≠ kc.2 then
      (true, JsMap.set acc.2 kc.1
        { tr with source := { tr.source with content := kc.2, lastModified := now } })
    else acc
  | none => (true, JsMap.set acc.2 kc.1 ⟨⟨kc.2, now, []⟩, []⟩)

/-- Model of `TranslationData.updateKeys`: upsert every extracted key, then
remove every record key absent from the extraction, pushing removed sets with
translations to the obsolete ledger.  A missing record is only created when
the extraction is nonempty. -/
def updateKeys (d : TranslationData) (filename : Str) (keys : JsMap Str Str)
    (now : Nat) : Bool × TranslationData :=
  let file0 : TDFile := (JsMap.get d.files filename).getD ⟨[]⟩
  let mc1 := keys.foldl (updateKeysStep now) (false, file0.content)
  let obsolete2 := mc1.2.foldl
    (fun obs kts => if JsMap.hasKey keys kts.1 then obs else pushObsoleteSet obs kts.2)
    d.obsolete
  let content2 := mc1.2.filter (fun kts => JsMap.hasKey keys kts.1)
  let modified := mc1.1 || mc1.2.any (fun kts => !JsMap.hasKey keys kts.1)
  let files2 :=
    if (JsMap.get d.files filename).isSome || !keys.isEmpty then
      JsMap.set d.files filename ⟨content2⟩
    else d.files
  (modified, { d with files := files2, obsolete := obsolete2 })

/-- Model of `TranslationData.deleteFile`: drop the record and push all its
translation sets through `pushObsoleteSet`. -/
def deleteFile (d : TranslationData) (filename : Str) : TranslationData :=
  match JsMap.get d.files filename with
  | none => d
  | some file =>
    { d with
      files := (JsMap.del d.files filename)
      obsolete := (file.content.foldl (fun obs kts => pushObsoleteSet obs kts.2) d.obsolete) }

/-- The translated set a file holds for `oldKey`, provided it has at least
one translation (the condition the spec's hint scan looks for). -/
def translatedSetAt (d : TranslationData) (oldKey f : Str) : Option TranslationSet :=
  match JsMap.get d.files f with
  | some file =>
    match JsMap.get file.content oldKey with
    | some tr => if 0 < tr.translations.length then some tr else none
    | none => none
  | none => none

theorem findHintSet_eq_find (d : TranslationData) (oldKey : Str) (hs : List Str) :
    findHintSet d oldKey hs =
      (hs.find? (fun f => (translatedSetAt d oldKey f).isSome)).bind
        (translatedSetAt d oldKey) := by
  induction hs with
  | nil => rfl
  | cons f rest ih =>
    simp only [findHintSet, List.find?]
    cases hf : JsMap.get d.files f with
    | none =>
      have : translatedSetAt d oldKey f = none := by simp [translatedSetAt, hf]
      simp [this, ih]
    | some file =>
      cases hk : JsMap.get file.content oldKey with
      | none =>
        have hat : translatedSetAt d oldKey f = none := by simp [translatedSetAt, hf, hk]
        simp [hat, ih, hk]
      | some tr =>
        by_cases hl : 0 < tr.translations.length
        · have hat : translatedSetAt d oldKey f = some tr := by
            simp [translatedSetAt, hf, hk, hl]
          simp [hat, hk, hl]
        · have hat : translatedSetAt d oldKey f = none := by
            simp [translatedSetAt, hf, hk, hl]
          simp [hat, ih, hk, hl]

end TranslationData

/-- Concrete translation set with one (German) translation, used by the C3
counterexample. -/
def c3exSet : TranslationSet :=
  ⟨⟨"x".data, 10, []⟩, [("de".data, ⟨"y".data, 20, []⟩)]⟩

/-- Concrete database where only file `g` holds the key `k`. -/
def c3exDb : TranslationData :=
  ⟨[("g".data, ⟨[("k".data, c3exSet)]⟩)], [], 2⟩

/-- Counterexample to claim C3: `filename` (`f`) has no record, a hint file
(`g`) holds `oldKey` with one translation, yet `copyTranslations` returns
`false` and copies nothing — the hint scan only runs when `filename` has a
record. -/
theorem c3_counterexample_no_record_skips_hints :
    TranslationData.copyTranslations c3exDb "f".data "k".data "k2".data
      (some ["g".data]) 99 = (false, c3exDb) ∧
    JsMap.get c3exDb.files "g".data = some ⟨[("k".data, c3exSet)]⟩ ∧
    0 < c3exSet.translations.length := by
  refine ⟨by decide, by decide, by decide⟩

/-- Claim C3, amended: when `filename` has no record at all the call returns
`false` without scanning the hints; otherwise, if the record holds `oldKey`
with at least one translation, a deep clone (source `lastModified` set to
`now`) is stored under `newKey` in `filename`'s record, else the hints are
scanned in iteration order for the first file holding `oldKey` with at least
one translation and its set is cloned the same way; the call returns `true`
iff a copy happened. -/
theorem c3_amended_copyTranslations (d : TranslationData)
    (filename oldKey newKey : Str) (hs : List Str) (now : Nat) :
    TranslationData.copyTranslations d filename oldKey newKey (some hs) now =
      match JsMap.get d.files filename with
      | none => (false, d)
      | some file =>
        match TranslationData.translatedSetAt d oldKey filename with
        | some tr => (true, TranslationData.storeClone d filename file newKey tr now)
        | none =>
          match (hs.find? (fun f => (TranslationData.translatedSetAt d oldKey f).isSome)).bind
              (TranslationData.translatedSetAt d oldKey) with
          | some tr => (true, TranslationData.storeClone d filename file newKey tr now)
          | none => (false, d) := by
  unfold TranslationData.copyTranslations
  cases hf : JsMap.get d.files filename with
  | none => rfl
  | some file =>
    rw [← TranslationData.findHintSet_eq_find]
    cases hk : JsMap.get file.content oldKey with
    | none =>
      have hat : TranslationData.translatedSetAt d oldKey filename = none := by
        simp [TranslationData.translatedSetAt, hf, hk]
      simp [hat, hk]
    | some tr =>
      by_cases hl : 0 < tr.translations.length
      · have hat : TranslationData.translatedSetAt d oldKey filename = some tr := by
          simp [TranslationData.translatedSetAt, hf, hk, hl]
        simp [hat, hk, hl]
      · have hat : TranslationData.translatedSetAt d oldKey filename = none := by
          simp [TranslationData.translatedSetAt, hf, hk, hl]
        simp [hat, hk, hl]

/-! ## Claim C8: the obsolete ledger

Every translation set that leaves the live database through `updateKeys` (key
no longer extracted) or `deleteFile` carries its `{content, translations →
content}` projection to the obsolete ledger iff it has at least one
translation. -/

namespace TranslationData

/-- The obsolete-ledger projection of a translation set. -/
def toObsolete (ts : TranslationSet) : ObsoleteTranslation :=
  ⟨ts.source.content, ts.translations.map (fun lt => (lt.1, lt.2.content))⟩

/-- Ledger entries generated by removing the given sets, in order: exactly
the sets with at least one translation, projected. -/
def obsOf (sets : List TranslationSet) : List ObsoleteTranslation :=
  (sets.filter (fun ts => 0 < ts.translations.length)).map toObsolete

/-- A database mutation: one `updateKeys` or one `deleteFile` call. -/
inductive DbOp : Type
  | update (filename : Str) (keys : JsMap Str Str) (now : Nat)
  | delete (filename : Str)

/-- Apply one mutation. -/
def applyOp (d : TranslationData) : DbOp → TranslationData
  | .update f keys now => (updateKeys d f keys now).2
  | .delete f => deleteFile d f

/-- Apply a sequence of mutations in order. -/
def applyOps (d : TranslationData) : List DbOp → TranslationData
  | [] => d
  | op :: rest => applyOps (applyOp d op) rest

/-- The translation sets an operation removes from the live database, in
record order: for `updateKeys` the record entries whose key is absent from
the extraction, for `deleteFile` all entries of the record. -/
def removedByOp (d : TranslationData) : DbOp → List TranslationSet
  | .update f keys _ =>
    ((((JsMap.get d.files f).getD ⟨[]⟩).content.filter
      (fun kts => !JsMap.hasKey keys kts.1)).map Prod.snd)
  | .delete f => (((JsMap.get d.files f).getD ⟨[]⟩).content.map Prod.snd)

/-- The ledger entries a sequence of mutations must append. -/
def obsAppendix (d : TranslationData) : List DbOp → List ObsoleteTranslation
  | [] => []
  | op :: rest => obsOf (removedByOp d op) ++ obsAppendix (applyOp d op) rest

theorem pushObsoleteSet_eq (obs : List ObsoleteTranslation) (ts : TranslationSet) :
    pushObsoleteSet obs ts = obs ++ obsOf [ts] := by
  unfold pushObsoleteSet obsOf
  by_cases h : 0 < ts.translations.length
  · simp [h, toObsolete]
  · simp [h]

theorem obsOf_append (a b : List TranslationSet) :
    obsOf (a ++ b) = obsOf a ++ obsOf b := by
  simp [obsOf]

theorem foldl_pushObs (content : JsMap Str TranslationSet) (P : Str → Bool)
    (obs0 : List ObsoleteTranslation) :
    content.foldl (fun obs kts => if P kts.1 then obs else pushObsoleteSet obs kts.2) obs0
      = obs0 ++ obsOf ((content.filter (fun kts => !P kts.1)).map Prod.snd) := by
  induction content generalizing obs0 with
  | nil => simp [obsOf]
  | cons kts rest ih =>
    simp only [List.foldl_cons]
    by_cases hp : P kts.1 = true
    · rw [if_pos hp, ih]
      simp [List.filter_cons, hp]
    · rw [if_neg (by simp [hp]), ih, pushObsoleteSet_eq]
      simp only [List.filter_cons, Bool.not_eq_true] at hp ⊢
      rw [hp]
      simp only [Bool.not_false, if_pos, List.map_cons, List.append_assoc]
      rw [show (kts.2 :: List.map Prod.snd (List.filter (fun kts => !P kts.1) rest))
          = [kts.2] ++ List.map Prod.snd (List.filter (fun kts => !P kts.1) rest) from rfl]
      rw [obsOf_append]

theorem foldl_pushObs_all (content : JsMap Str TranslationSet)
    (obs0 : List ObsoleteTranslation) :
    content.foldl (fun obs kts => pushObsoleteSet obs kts.2) obs0
      = obs0 ++ obsOf (content.map Prod.snd) := by
  induction content generalizing obs0 with
  | nil => simp [obsOf]
  | cons kts rest ih =>
    simp only [List.foldl_cons]
    rw [ih, pushObsoleteSet_eq]
    simp only [List.map_cons, List.append_assoc]
    rw [show (kts.2 :: List.map Prod.snd rest) = [kts.2] ++ List.map Prod.snd rest from rfl]
    rw [obsOf_append]

theorem filter_set_out {β : Type} (m : JsMap Str β) (k : Str) (v : β)
    (P : Str → Bool) (hP : P k = false) :
    (JsMap.set m k v).filter (fun kts => P kts.1) = m.filter (fun kts => P kts.1) := by
  induction m with
  | nil => simp [JsMap.set, List.filter_cons, hP]
  | cons hd tl ih =>
    obtain ⟨k0, v0⟩ := hd
    by_cases h0 : k0 = k
    · subst h0
      simp [JsMap.set, List.filter_cons, hP]
    · simp [JsMap.set, h0, List.filter_cons, ih]

theorem foldl_step_filter (now : Nat) (ks : List (Str × Str)) (keys : JsMap Str Str)
    (acc : Bool × JsMap Str TranslationSet)
    (hks : ∀ kc ∈ ks, JsMap.hasKey keys kc.1 = true) :
    ((ks.foldl (updateKeysStep now) acc).2).filter (fun kts => !JsMap.hasKey keys kts.1)
      = acc.2.filter (fun kts => !JsMap.hasKey keys kts.1) := by
  induction ks generalizing acc with
  | nil => rfl
  | cons kc rest ih =>
    simp only [List.foldl_cons]
    rw [ih _ (fun x hx => hks x (List.mem_cons_of_mem kc hx))]
    have hk : JsMap.hasKey keys kc.1 = true := hks kc (List.mem_cons_self kc rest)
    unfold updateKeysStep
    cases hg : JsMap.get acc.2 kc.1 with
    | some tr =>
      dsimp only
      by_cases hc : tr.source.content ≠ kc.2
      · rw [if_pos hc]
        exact filter_set_out _ _ _ (fun s => !JsMap.hasKey keys s) (by simp [hk])
      · rw [if_neg hc]
    | none =>
      dsimp only
      exact filter_set_out _ _ _ (fun s => !JsMap.hasKey keys s) (by simp [hk])

theorem updateKeys_obsolete (d : TranslationData) (f : Str) (keys : JsMap Str Str)
    (now : Nat) :
    (updateKeys d f keys now).2.obsolete
      = d.obsolete ++ obsOf (removedByOp d (.update f keys now)) := by
  unfold updateKeys
  simp only
  rw [foldl_pushObs]
  rw [foldl_step_filter now keys keys (false, ((JsMap.get d.files f).getD ⟨[]⟩).content
    ) (fun kc hkc => by
      unfold JsMap.hasKey
      induction keys with
      | nil => simp at hkc
      | cons hd tl ih =>
        cases hkc with
        | head => simp [JsMap.get]
        | tail _ hmem =>
          simp only [JsMap.get]
          by_cases he : hd.1 = kc.1
          · simp [he]
          · obtain ⟨a, b⟩ := hd
            simp only at he
            simp [JsMap.get, he, ih hmem])]
  rfl

theorem deleteFile_obsolete (d : TranslationData) (f : Str) :
    (deleteFile d f).obsolete = d.obsolete ++ obsOf (removedByOp d (.delete f)) := by
  unfold deleteFile
  cases hf : JsMap.get d.files f with
  | none => simp [removedByOp, hf, obsOf]
  | some file => simp [removedByOp, hf, foldl_pushObs_all]

end TranslationData

/-- Claim C8: for every sequence of `updateKeys` and `deleteFile` operations,
the obsolete ledger afterwards is the ledger before followed by exactly one
projected entry for each removed translation set with at least one
translation, in removal order; sets with no translations are never
appended. -/
theorem c8_obsolete_on_loss (d : TranslationData) (ops : List TranslationData.DbOp) :
    (TranslationData.applyOps d ops).obsolete
      = d.obsolete ++ TranslationData.obsAppendix d ops := by
  induction ops generalizing d with
  | nil => simp [TranslationData.applyOps, TranslationData.obsAppendix]
  | cons op rest ih =>
    simp only [TranslationData.applyOps, TranslationData.obsAppendix]
    rw [ih]
    cases op with
    | update f keys now =>
      rw [show TranslationData.applyOp d (.update f keys now)
          = (TranslationData.updateKeys d f keys now).2 from rfl]
      rw [TranslationData.updateKeys_obsolete]
      simp [TranslationData.applyOp, List.append_assoc]
    | delete f =>
      rw [show TranslationData.applyOp d (.delete f) = TranslationData.deleteFile d f from rfl]
      rw [TranslationData.deleteFile_obsolete]
      simp [TranslationData.applyOp, List.append_assoc]

/-! ## Compilation (`TranslationData.compile`) — claim C7 -/

/-- Diagnostics reported by `compile`, in report order.  `localeId` of
`unknownLocale` is optional because `config.locales[0]` is `undefined` for an
empty locale list. -/
inductive CompileDiag : Type
  | unknownLocale (filename key : Str) (localeId : Option Str)
  | duplicateKey (filename key : Str)
  | outdatedTranslation (filename key localeId : Str)
  | missingTranslation (filename key localeId : Str)
deriving DecidableEq

/-- Compilation state: the locale trees and the reported diagnostics. -/
abbrev CState := JsMap Str LocaleData × List CompileDiag

namespace TranslationData

/-- The inner `setKey` helper of `compile`: look the locale up, report
`UnknownLocale` if it is not configured, otherwise set into its tree and
report `DuplicateKey` on collision. -/
def setKeyM (st : CState) (filename key : Str) (lidOpt : Option Str)
    (content : Str) : CState :=
  match lidOpt with
  | none => (st.1, st.2 ++ [.unknownLocale filename key none])
  | some lid =>
    match JsMap.get st.1 lid with
    | none => (st.1, st.2 ++ [.unknownLocale filename key (some lid)])
    | some tree =>
      let r := LocaleData.set tree key content
      (JsMap.set st.1 lid r.2,
        if r.1 then st.2 else st.2 ++ [.duplicateKey filename key])

/-- Compile one translation set: set the source content into the source
locale, then every translation that is current; outdated translations are
reported instead. -/
def compileEntry (locales : List Str) (filename key : Str) (ts : TranslationSet)
    (st : CState) : CState :=
  let st1 := setKeyM st filename key locales.head? ts.source.content
  ts.translations.foldl (fun st lt =>
    if ts.source.lastModified ≤ lt.2.lastModified then
      setKeyM st filename key (some lt.1) lt.2.content
    else (st.1, st.2 ++ [.outdatedTranslation filename key lt.1])) st1

/-- First pass of `compile` over all files and keys. -/
def compilePass1 (locales : List Str) (files : JsMap Str TDFile) (st : CState) :
    CState :=
  files.foldl (fun st ff =>
    ff.2.content.foldl (fun st kts => compileEntry locales ff.1 kts.1 kts.2 st) st) st

/-- Second pass: report `MissingTranslation` for every configured non-source
locale absent from a key's translations. -/
def compilePass2 (locales : List Str) (files : JsMap Str TDFile) (st : CState) :
    CState :=
  files.foldl (fun st ff =>
    ff.2.content.foldl (fun st kts =>
      locales.foldl (fun st lid =>
        if some lid ≠ locales.head? ∧ ¬ JsMap.hasKey kts.2.translations lid then
          (st.1, st.2 ++ [.missingTranslation ff.1 kts.1 lid])
        else st) st) st) st

/-- Model of `TranslationData.compile`: initialize one empty tree per
configured locale, run both passes. -/
def compile (d : TranslationData) (locales : List Str) : CState :=
  let init : CState := (locales.foldl (fun m l => JsMap.set m l []) [], [])
  compilePass2 locales d.files (compilePass1 locales d.files init)

end TranslationData

/-- Database for the C7 counterexample: one file `f`, one key `k`, source
content modified at time 10, an outdated (time 5) translation under the
unconfigured locale `xx`. -/
def c7exDb : TranslationData :=
  ⟨[("f".data, ⟨[("k".data,
    ⟨⟨"x".data, 10, []⟩, [("xx".data, ⟨"y".data, 5, []⟩)]⟩)]⟩)], [], 2⟩

/-- Counterexample to claim C7: the translation under the unconfigured locale
`xx` is outdated, and `compile` reports `OutdatedTranslation` — not the
`UnknownLocale` the claim demands for translations under unconfigured
locales (the currency test runs before the locale lookup). -/
theorem c7_counterexample_outdated_before_unknown :
    (TranslationData.compile c7exDb ["en".data]).2
      = [.outdatedTranslation "f".data "k".data "xx".data] ∧
    ¬ ("xx".data ∈ ["en".data]) := by
  refine ⟨by decide, by decide⟩

namespace TranslationData

/-- Apply one `(key, content)` pair to a locale tree (collisions keep the
tree of the failed partial walk, as in the source). -/
def applyPair (t : LocaleData) (kc : Str × Str) : LocaleData :=
  (LocaleData.set t kc.1 kc.2).2

/-- The `(key, content)` pairs one translation set contributes to locale `l`:
the source content when `l` is the source locale, then every current
translation under `l`, in map order. -/
def entryPairs (locales : List Str) (l k : Str) (ts : TranslationSet) :
    List (Str × Str) :=
  (if locales.head? = some l then [(k, ts.source.content)] else []) ++
  ((ts.translations.filter (fun lt =>
    decide (lt.1 = l ∧ ts.source.lastModified ≤ lt.2.lastModified))).map
      (fun lt => (k, lt.2.content)))

/-- All pairs the database contributes to locale `l`, in compile order. -/
def allPairs (locales : List Str) (l : Str) (files : JsMap Str TDFile) :
    List (Str × Str) :=
  files.flatMap (fun ff => ff.2.content.flatMap (fun kts =>
    entryPairs locales l kts.1 kts.2))

theorem setKeyM_tree (st : CState) (f k : Str) (lidOpt : Option Str) (c : Str)
    (l : Str) :
    JsMap.get (setKeyM st f k lidOpt c).1 l =
      if lidOpt = some l then (JsMap.get st.1 l).map (fun t => applyPair t (k, c))
      else JsMap.get st.1 l := by
  unfold setKeyM
  cases lidOpt with
  | none => simp
  | some lid =>
    cases hg : JsMap.get st.1 lid with
    | none =>
      by_cases h : lid = l
      · subst h
        simp [hg]
      · simp [hg, h]
    | some tree =>
      by_cases h : lid = l
      · subst h
        simp [hg, JsMap.get_set_eq, applyPair]
      · simp [hg, JsMap.get_set_ne st.1 lid l _ h, h]

theorem transFold_tree (f k : Str) (srcLM : Nat) (lts : List (Str × Translation))
    (st : CState) (l : Str) :
    JsMap.get ((lts.foldl (fun st lt =>
      if srcLM ≤ lt.2.lastModified then setKeyM st f k (some lt.1) lt.2.content
      else (st.1, st.2 ++ [.outdatedTranslation f k lt.1])) st).1) l
    = (JsMap.get st.1 l).map (fun t =>
        ((lts.filter (fun lt => decide (lt.1 = l ∧ srcLM ≤ lt.2.lastModified))).map
          (fun lt => (k, lt.2.content))).foldl applyPair t) := by
  induction lts generalizing st with
  | nil =>
    simp only [List.foldl_nil, List.filter_nil, List.map_nil]
    cases hx : JsMap.get st.1 l <;> simp
  | cons lt rest ih =>
    obtain ⟨lid, tr⟩ := lt
    simp only [List.foldl_cons]
    by_cases hcur : srcLM ≤ tr.lastModified
    · rw [if_pos hcur, ih, setKeyM_tree]
      by_cases hl : lid = l
      · subst hl
        simp only [if_pos rfl, List.filter_cons]
        cases hx : JsMap.get st.1 lid <;> simp [hx, hcur]
      · simp [List.filter_cons, hl]
    · rw [if_neg hcur, ih]
      simp [List.filter_cons, hcur]

theorem compileEntry_tree (locales : List Str) (f k : Str) (ts : TranslationSet)
    (st : CState) (l : Str) :
    JsMap.get (compileEntry locales f k ts st).1 l
      = (JsMap.get st.1 l).map (fun t =>
          (entryPairs locales l k ts).foldl applyPair t) := by
  unfold compileEntry
  rw [transFold_tree, setKeyM_tree]
  unfold entryPairs
  by_cases hh : locales.head? = some l
  · rw [if_pos hh, if_pos hh]
    cases JsMap.get st.1 l <;> simp
  · rw [if_neg hh, if_neg hh]
    cases JsMap.get st.1 l <;> simp

theorem contentFold_tree (locales : List Str) (fname : Str)
    (content : JsMap Str TranslationSet) (st : CState) (l : Str) :
    JsMap.get ((content.foldl (fun st kts =>
        compileEntry locales fname kts.1 kts.2 st) st).1) l
      = (JsMap.get st.1 l).map (fun t =>
          (content.flatMap (fun kts => entryPairs locales l kts.1 kts.2)).foldl
            applyPair t) := by
  induction content generalizing st with
  | nil =>
    simp only [List.foldl_nil, List.flatMap_nil]
    cases hx : JsMap.get st.1 l <;> simp [hx]
  | cons kts rest ih =>
    simp only [List.foldl_cons, List.flatMap_cons]
    rw [ih, compileEntry_tree]
    cases hx : JsMap.get st.1 l <;> simp [hx, List.foldl_append]

theorem pass1_tree (locales : List Str) (files : JsMap Str TDFile) (st : CState)
    (l : Str) :
    JsMap.get (compilePass1 locales files st).1 l
      = (JsMap.get st.1 l).map (fun t => (allPairs locales l files).foldl applyPair t) := by
  unfold compilePass1 allPairs
  induction files generalizing st with
  | nil =>
    simp only [List.foldl_nil, List.flatMap_nil]
    cases hx : JsMap.get st.1 l <;> simp [hx]
  | cons ff rest ih =>
    simp only [List.foldl_cons, List.flatMap_cons]
    rw [ih, contentFold_tree]
    cases hx : JsMap.get st.1 l <;> simp [hx, List.foldl_append]

theorem foldl_fst_invariant {γ : Type} (step : CState → γ → CState)
    (hstep : ∀ st x, (step st x).1 = st.1) (xs : List γ) (st : CState) :
    (xs.foldl step st).1 = st.1 := by
  induction xs generalizing st with
  | nil => rfl
  | cons x rest ih => rw [List.foldl_cons, ih, hstep]

theorem pass2_tree (locales : List Str) (files : JsMap Str TDFile) (st : CState) :
    (compilePass2 locales files st).1 = st.1 := by
  unfold compilePass2
  refine foldl_fst_invariant _ (fun st1 ff => ?_) files st
  refine foldl_fst_invariant _ (fun st2 kts => ?_) _ st1
  refine foldl_fst_invariant _ (fun st3 lid => ?_) _ st2
  split
  · rfl
  · rfl

theorem init_get (locales : List Str) (m : JsMap Str LocaleData) (l : Str) :
    JsMap.get (locales.foldl (fun m l => JsMap.set m l []) m) l
      = if l ∈ locales then some [] else JsMap.get m l := by
  induction locales generalizing m with
  | nil => simp
  | cons l1 rest ih =>
    simp only [List.foldl_cons]
    rw [ih]
    by_cases hr : l ∈ rest
    · simp [hr]
    · by_cases h1 : l1 = l
      · subst h1
        simp [hr, JsMap.get_set_eq]
      · have h2 : ¬ l = l1 := fun hh => h1 hh.symm
        simp [hr, h2, JsMap.get_set_ne m l1 l _ h1]

theorem countD_append_one (l : List CompileDiag) (y x : CompileDiag) :
    (l ++ [y]).count x = l.count x + (if y = x then 1 else 0) := by
  rw [List.count_append, List.count_singleton']

theorem foldl_count_invariant {γ : Type} (step : CState → γ → CState)
    (x : CompileDiag) (hstep : ∀ st y, ((step st y).2).count x = st.2.count x)
    (xs : List γ) (st : CState) :
    ((xs.foldl step st).2).count x = st.2.count x := by
  induction xs generalizing st with
  | nil => rfl
  | cons y rest ih => rw [List.foldl_cons, ih, hstep]

theorem setKeyM_count_outdated (st : CState) (f k : Str) (lidOpt : Option Str)
    (c : Str) (f0 k0 l0 : Str) :
    ((setKeyM st f k lidOpt c).2).count (.outdatedTranslation f0 k0 l0)
      = st.2.count (.outdatedTranslation f0 k0 l0) := by
  unfold setKeyM
  cases lidOpt with
  | none => simp [countD_append_one]
  | some lid =>
    cases hg : JsMap.get st.1 lid with
    | none => simp [hg, countD_append_one]
    | some tree =>
      simp only [hg]
      by_cases hr : (LocaleData.set tree k c).1 = true
      · simp [hr]
      · simp [hr, countD_append_one]

theorem transFold_count_outdated (f k : Str) (srcLM : Nat)
    (lts : List (Str × Translation)) (st : CState) (f0 k0 l0 : Str) :
    ((lts.foldl (fun st lt =>
      if srcLM ≤ lt.2.lastModified then setKeyM st f k (some lt.1) lt.2.content
      else (st.1, st.2 ++ [.outdatedTranslation f k lt.1])) st).2).count
        (.outdatedTranslation f0 k0 l0)
      = st.2.count (.outdatedTranslation f0 k0 l0)
        + (lts.filter (fun lt => decide (f = f0 ∧ k = k0 ∧ lt.1 = l0 ∧
            lt.2.lastModified < srcLM))).length := by
  induction lts generalizing st with
  | nil => simp
  | cons lt rest ih =>
    obtain ⟨lid, tr⟩ := lt
    simp only [List.foldl_cons, List.filter_cons]
    by_cases hcur : srcLM ≤ tr.lastModified
    · rw [if_pos hcur, ih, setKeyM_count_outdated]
      have hnl : ¬ tr.lastModified < srcLM := by omega
      simp [hnl]
    · rw [if_neg hcur, ih, countD_append_one]
      have hl : tr.lastModified < srcLM := by omega
      by_cases hm : f = f0 ∧ k = k0 ∧ lid = l0
      · obtain ⟨h1, h2, h3⟩ := hm
        subst h1
        subst h2
        subst h3
        simp [hl]
        omega
      · have hne : CompileDiag.outdatedTranslation f k lid
            ≠ CompileDiag.outdatedTranslation f0 k0 l0 := by
          intro hh
          injection hh with a b c
          exact hm ⟨a, b, c⟩
        have hd : decide (f = f0 ∧ k = k0 ∧ lid = l0 ∧ tr.lastModified < srcLM) = false := by
          simp only [decide_eq_false_iff_not]
          exact fun hh => hm ⟨hh.1, hh.2.1, hh.2.2.1⟩
        rw [if_neg hne, hd]
        simp

theorem compileEntry_count_outdated (locales : List Str) (f k : Str)
    (ts : TranslationSet) (st : CState) (f0 k0 l0 : Str) :
    ((compileEntry locales f k ts st).2).count (.outdatedTranslation f0 k0 l0)
      = st.2.count (.outdatedTranslation f0 k0 l0)
        + (ts.translations.filter (fun lt => decide (f = f0 ∧ k = k0 ∧ lt.1 = l0 ∧
            lt.2.lastModified < ts.source.lastModified))).length := by
  unfold compileEntry
  rw [transFold_count_outdated, setKeyM_count_outdated]

/-- The number of outdated-translation occurrences at `(f0, k0, l0)` in the
database, claim-side formulation. -/
def outdatedCount (files : JsMap Str TDFile) (f0 k0 l0 : Str) : Nat :=
  (files.flatMap (fun ff => ff.2.content.flatMap (fun kts =>
    kts.2.translations.filter (fun lt => decide (ff.1 = f0 ∧ kts.1 = k0 ∧ lt.1 = l0 ∧
      lt.2.lastModified < kts.2.source.lastModified))))).length

theorem contentFold_count_outdated (locales : List Str) (fname : Str)
    (content : JsMap Str TranslationSet) (st : CState) (f0 k0 l0 : Str) :
    ((content.foldl (fun st kts => compileEntry locales fname kts.1 kts.2 st) st).2).count
        (.outdatedTranslation f0 k0 l0)
      = st.2.count (.outdatedTranslation f0 k0 l0)
        + (content.flatMap (fun kts => kts.2.translations.filter (fun lt =>
            decide (fname = f0 ∧ kts.1 = k0 ∧ lt.1 = l0 ∧
              lt.2.lastModified < kts.2.source.lastModified)))).length := by
  induction content generalizing st with
  | nil => simp
  | cons kts rest ih =>
    simp only [List.foldl_cons, List.flatMap_cons]
    rw [ih, compileEntry_count_outdated]
    simp [List.length_append]
    omega

theorem pass1_count_outdated (locales : List Str) (files : JsMap Str TDFile)
    (st : CState) (f0 k0 l0 : Str) :
    ((compilePass1 locales files st).2).count (.outdatedTranslation f0 k0 l0)
      = st.2.count (.outdatedTranslation f0 k0 l0) + outdatedCount files f0 k0 l0 := by
  unfold compilePass1 outdatedCount
  induction files generalizing st with
  | nil => simp
  | cons ff rest ih =>
    simp only [List.foldl_cons, List.flatMap_cons]
    rw [ih, contentFold_count_outdated]
    simp [List.length_append]
    omega

theorem pass2_count_not_missing (locales : List Str) (files : JsMap Str TDFile)
    (st : CState) (x : CompileDiag)
    (hx : ∀ f k l, x ≠ .missingTranslation f k l) :
    ((compilePass2 locales files st).2).count x = st.2.count x := by
  unfold compilePass2
  refine foldl_count_invariant _ x (fun st1 ff => ?_) files st
  refine foldl_count_invariant _ x (fun st2 kts => ?_) _ st1
  refine foldl_count_invariant _ x (fun st3 lid => ?_) _ st2
  split
  · rw [countD_append_one, if_neg (fun hh => hx ff.1 kts.1 lid hh.symm)]
    omega
  · rfl

theorem setKeyM_hasKey (st : CState) (f k : Str) (lidOpt : Option Str) (c l : Str) :
    JsMap.hasKey (setKeyM st f k lidOpt c).1 l = JsMap.hasKey st.1 l := by
  unfold JsMap.hasKey
  rw [setKeyM_tree]
  split
  · cases hx : JsMap.get st.1 l <;> simp [hx]
  · rfl

theorem compileEntry_hasKey (locales : List Str) (f k : Str) (ts : TranslationSet)
    (st : CState) (l : Str) :
    JsMap.hasKey (compileEntry locales f k ts st).1 l = JsMap.hasKey st.1 l := by
  unfold JsMap.hasKey
  rw [compileEntry_tree]
  cases hx : JsMap.get st.1 l <;> simp [hx]

theorem contentFold_hasKey (locales : List Str) (fname : Str)
    (content : JsMap Str TranslationSet) (st : CState) (l : Str) :
    JsMap.hasKey ((content.foldl (fun st kts =>
      compileEntry locales fname kts.1 kts.2 st) st).1) l = JsMap.hasKey st.1 l := by
  unfold JsMap.hasKey
  rw [contentFold_tree]
  cases hx : JsMap.get st.1 l <;> simp [hx]

theorem setKeyM_count_unknown (st : CState) (f k : Str) (lidOpt : Option Str)
    (c : Str) (f0 k0 l0 : Str) :
    ((setKeyM st f k lidOpt c).2).count (.unknownLocale f0 k0 (some l0))
      = st.2.count (.unknownLocale f0 k0 (some l0))
        + (if f = f0 ∧ k = k0 ∧ lidOpt = some l0 ∧ JsMap.hasKey st.1 l0 = false
           then 1 else 0) := by
  unfold setKeyM
  cases lidOpt with
  | none => simp [countD_append_one]
  | some lid =>
    cases hg : JsMap.get st.1 lid with
    | none =>
      simp only [hg]
      rw [countD_append_one]
      by_cases hm : f = f0 ∧ k = k0 ∧ lid = l0
      · obtain ⟨h1, h2, h3⟩ := hm
        subst h1
        subst h2
        subst h3
        have hk : JsMap.hasKey st.1 lid = false := by simp [JsMap.hasKey, hg]
        simp [hk]
      · have hne : CompileDiag.unknownLocale f k (some lid)
            ≠ CompileDiag.unknownLocale f0 k0 (some l0) := by
          intro hh
          injection hh with a b c
          exact hm ⟨a, b, Option.some.inj c⟩
        rw [if_neg hne,
          if_neg (fun hh => hm ⟨hh.1, hh.2.1, Option.some.inj hh.2.2.1⟩)]
    | some tree =>
      simp only [hg]
      have hcond : ¬ (f = f0 ∧ k = k0 ∧ some lid = some l0 ∧
          JsMap.hasKey st.1 l0 = false) := by
        rintro ⟨-, -, hsome, hkk⟩
        have hl : lid = l0 := Option.some.inj hsome
        subst hl
        rw [JsMap.hasKey, hg] at hkk
        simp at hkk
      rw [if_neg hcond]
      by_cases hr : (LocaleData.set tree k c).1 = true
      · simp [hr]
      · simp [hr, countD_append_one]

theorem transFold_count_unknown (f k : Str) (srcLM : Nat)
    (lts : List (Str × Translation)) (st : CState) (f0 k0 l0 : Str) :
    ((lts.foldl (fun st lt =>
      if srcLM ≤ lt.2.lastModified then setKeyM st f k (some lt.1) lt.2.content
      else (st.1, st.2 ++ [.outdatedTranslation f k lt.1])) st).2).count
        (.unknownLocale f0 k0 (some l0))
      = st.2.count (.unknownLocale f0 k0 (some l0))
        + (if JsMap.hasKey st.1 l0 = false then
            (lts.filter (fun lt => decide (f = f0 ∧ k = k0 ∧ lt.1 = l0 ∧
              srcLM ≤ lt.2.lastModified))).length
          else 0) := by
  induction lts generalizing st with
  | nil =>
    cases hkk : JsMap.hasKey st.1 l0 <;> simp [hkk]
  | cons lt rest ih =>
    obtain ⟨lid, tr⟩ := lt
    simp only [List.foldl_cons, List.filter_cons]
    by_cases hcur : srcLM ≤ tr.lastModified
    · rw [if_pos hcur, ih, setKeyM_count_unknown, setKeyM_hasKey]
      by_cases hkk : JsMap.hasKey st.1 l0 = false
      · by_cases hm : f = f0 ∧ k = k0 ∧ lid = l0
        · obtain ⟨h1, h2, h3⟩ := hm
          subst h1
          subst h2
          subst h3
          simp [hkk, hcur]
          omega
        · have h1 : ¬ (f = f0 ∧ k = k0 ∧ some lid = some l0 ∧
              JsMap.hasKey st.1 l0 = false) :=
            fun hh => hm ⟨hh.1, hh.2.1, Option.some.inj hh.2.2.1⟩
          have h2 : decide (f = f0 ∧ k = k0 ∧ lid = l0 ∧ srcLM ≤ tr.lastModified)
              = false := by
            simp only [decide_eq_false_iff_not]
            exact fun hh => hm ⟨hh.1, hh.2.1, hh.2.2.1⟩
          rw [if_neg h1, h2]
          simp [hkk]
      · have h1 : ¬ (f = f0 ∧ k = k0 ∧ some lid = some l0 ∧
            JsMap.hasKey st.1 l0 = false) := fun hh => hkk hh.2.2.2
        rw [if_neg h1]
        simp [hkk]
    · rw [if_neg hcur, ih]
      have h2 : decide (f = f0 ∧ k = k0 ∧ lid = l0 ∧ srcLM ≤ tr.lastModified)
          = false := by
        simp only [decide_eq_false_iff_not]
        exact fun hh => hcur hh.2.2.2
      rw [h2, countD_append_one,
        if_neg (fun hh : CompileDiag.outdatedTranslation f k lid
          = CompileDiag.unknownLocale f0 k0 (some l0) => CompileDiag.noConfusion hh)]
      simp

theorem compileEntry_count_unknown (locales : List Str) (f k : Str)
    (ts : TranslationSet) (st : CState) (f0 k0 l0 : Str) :
    ((compileEntry locales f k ts st).2).count (.unknownLocale f0 k0 (some l0))
      = st.2.count (.unknownLocale f0 k0 (some l0))
        + (if JsMap.hasKey st.1 l0 = false then
            ((if f = f0 ∧ k = k0 ∧ locales.head? = some l0 then 1 else 0)
              + (ts.translations.filter (fun lt => decide (f = f0 ∧ k = k0 ∧
                  lt.1 = l0 ∧ ts.source.lastModified ≤ lt.2.lastModified))).length)
          else 0) := by
  unfold compileEntry
  rw [transFold_count_unknown, setKeyM_hasKey, setKeyM_count_unknown]
  by_cases hkk : JsMap.hasKey st.1 l0 = false
  · by_cases hm : f = f0 ∧ k = k0 ∧ locales.head? = some l0
    · rw [if_pos ⟨hm.1, hm.2.1, hm.2.2, hkk⟩, if_pos hkk, if_pos hkk, if_pos hm]
      omega
    · rw [if_neg (fun hh => hm ⟨hh.1, hh.2.1, hh.2.2.1⟩), if_pos hkk, if_pos hkk,
        if_neg hm]
      omega
  · rw [if_neg (fun hh => hkk hh.2.2.2), if_neg hkk, if_neg hkk]

/-- Unknown-locale reports caused by current translations, claim-side count. -/
def transUnknownCount (files : JsMap Str TDFile) (f0 k0 l0 : Str) : Nat :=
  (files.flatMap (fun ff => ff.2.content.flatMap (fun kts =>
    kts.2.translations.filter (fun lt => decide (ff.1 = f0 ∧ kts.1 = k0 ∧ lt.1 = l0 ∧
      kts.2.source.lastModified ≤ lt.2.lastModified))))).length

/-- Unknown-locale reports caused by source-content writes (possible only
when the source locale itself is not in the tree map). -/
def srcUnknownCount (locales : List Str) (files : JsMap Str TDFile)
    (f0 k0 l0 : Str) : Nat :=
  (files.flatMap (fun ff => ff.2.content.filter (fun kts =>
    decide (ff.1 = f0 ∧ kts.1 = k0 ∧ locales.head? = some l0)))).length

theorem contentFold_count_unknown (locales : List Str) (fname : Str)
    (content : JsMap Str TranslationSet) (st : CState) (f0 k0 l0 : Str) :
    ((content.foldl (fun st kts => compileEntry locales fname kts.1 kts.2 st) st).2).count
        (.unknownLocale f0 k0 (some l0))
      = st.2.count (.unknownLocale f0 k0 (some l0))
        + (if JsMap.hasKey st.1 l0 = false then
            ((content.filter (fun kts => decide (fname = f0 ∧ kts.1 = k0 ∧
                locales.head? = some l0))).length
              + (content.flatMap (fun kts => kts.2.translations.filter (fun lt =>
                  decide (fname = f0 ∧ kts.1 = k0 ∧ lt.1 = l0 ∧
                    kts.2.source.lastModified ≤ lt.2.lastModified)))).length)
          else 0) := by
  induction content generalizing st with
  | nil => cases hkk : JsMap.hasKey st.1 l0 <;> simp [hkk]
  | cons kts rest ih =>
    simp only [List.foldl_cons, List.flatMap_cons, List.filter_cons]
    rw [ih, compileEntry_hasKey, compileEntry_count_unknown]
    by_cases hkk : JsMap.hasKey st.1 l0 = false
    · rw [if_pos hkk, if_pos hkk, if_pos hkk]
      by_cases hm : fname = f0 ∧ kts.1 = k0 ∧ locales.head? = some l0
      · rw [if_pos hm, if_pos (by simpa using hm)]
        simp [List.length_append]
        omega
      · rw [if_neg hm, if_neg (by simpa using hm)]
        simp [List.length_append]
        omega
    · rw [if_neg hkk, if_neg hkk, if_neg hkk]

theorem pass1_count_unknown (locales : List Str) (files : JsMap Str TDFile)
    (st : CState) (f0 k0 l0 : Str) :
    ((compilePass1 locales files st).2).count (.unknownLocale f0 k0 (some l0))
      = st.2.count (.unknownLocale f0 k0 (some l0))
        + (if JsMap.hasKey st.1 l0 = false then
            srcUnknownCount locales files f0 k0 l0 + transUnknownCount files f0 k0 l0
          else 0) := by
  unfold compilePass1 srcUnknownCount transUnknownCount
  induction files generalizing st with
  | nil => cases hkk : JsMap.hasKey st.1 l0 <;> simp [hkk]
  | cons ff rest ih =>
    simp only [List.foldl_cons, List.flatMap_cons]
    rw [ih, contentFold_hasKey, contentFold_count_unknown]
    by_cases hkk : JsMap.hasKey st.1 l0 = false
    · rw [if_pos hkk, if_pos hkk, if_pos hkk]
      simp [List.length_append]
      omega
    · rw [if_neg hkk, if_neg hkk, if_neg hkk]

theorem setKeyM_count_missing (st : CState) (f k : Str) (lidOpt : Option Str)
    (c : Str) (f0 k0 l0 : Str) :
    ((setKeyM st f k lidOpt c).2).count (.missingTranslation f0 k0 l0)
      = st.2.count (.missingTranslation f0 k0 l0) := by
  unfold setKeyM
  cases lidOpt with
  | none => simp [countD_append_one]
  | some lid =>
    cases hg : JsMap.get st.1 lid with
    | none => simp [hg, countD_append_one]
    | some tree =>
      simp only [hg]
      by_cases hr : (LocaleData.set tree k c).1 = true
      · simp [hr]
      · simp [hr, countD_append_one]

theorem compileEntry_count_missing (locales : List Str) (f k : Str)
    (ts : TranslationSet) (st : CState) (f0 k0 l0 : Str) :
    ((compileEntry locales f k ts st).2).count (.missingTranslation f0 k0 l0)
      = st.2.count (.missingTranslation f0 k0 l0) := by
  unfold compileEntry
  rw [show (setKeyM st f k locales.head? ts.source.content) =
    (setKeyM st f k locales.head? ts.source.content) from rfl]
  refine Eq.trans (foldl_count_invariant _ _ (fun st1 lt => ?_) _ _) ?_
  · split
    · rw [setKeyM_count_missing]
    · rw [countD_append_one,
        if_neg (fun hh : CompileDiag.outdatedTranslation f k lt.1
          = CompileDiag.missingTranslation f0 k0 l0 => CompileDiag.noConfusion hh)]
      omega
  · rw [setKeyM_count_missing]

theorem pass1_count_missing (locales : List Str) (files : JsMap Str TDFile)
    (st : CState) (f0 k0 l0 : Str) :
    ((compilePass1 locales files st).2).count (.missingTranslation f0 k0 l0)
      = st.2.count (.missingTranslation f0 k0 l0) := by
  unfold compilePass1
  refine foldl_count_invariant _ _ (fun st1 ff => ?_) files st
  refine foldl_count_invariant _ _ (fun st2 kts => ?_) _ st1
  exact compileEntry_count_missing locales ff.1 kts.1 kts.2 st2 f0 k0 l0

/-- Missing-translation reports, claim-side count: one per configured
non-source locale occurrence with no translation entry for the key. -/
def missingCount (locales : List Str) (files : JsMap Str TDFile)
    (f0 k0 l0 : Str) : Nat :=
  (files.flatMap (fun ff => ff.2.content.flatMap (fun kts =>
    locales.filter (fun lid => decide (ff.1 = f0 ∧ kts.1 = k0 ∧ lid = l0 ∧
      some lid ≠ locales.head? ∧ JsMap.hasKey kts.2.translations lid = false))))).length

theorem locFold_count_missing (hRef : Option Str) (fname kname : Str)
    (tm : JsMap Str Translation) (ls : List Str) (st : CState) (f0 k0 l0 : Str) :
    ((ls.foldl (fun st lid =>
      if some lid ≠ hRef ∧ ¬ JsMap.hasKey tm lid then
        (st.1, st.2 ++ [.missingTranslation fname kname lid])
      else st) st).2).count (.missingTranslation f0 k0 l0)
      = st.2.count (.missingTranslation f0 k0 l0)
        + (ls.filter (fun lid => decide (fname = f0 ∧ kname = k0 ∧ lid = l0 ∧
            some lid ≠ hRef ∧ JsMap.hasKey tm lid = false))).length := by
  induction ls generalizing st with
  | nil => simp
  | cons lid rest ih =>
    simp only [List.foldl_cons, List.filter_cons]
    by_cases hc : some lid ≠ hRef ∧ ¬ JsMap.hasKey tm lid
    · rw [if_pos hc, ih, countD_append_one]
      by_cases hm : fname = f0 ∧ kname = k0 ∧ lid = l0
      · obtain ⟨h1, h2, h3⟩ := hm
        subst h1
        subst h2
        subst h3
        have hd : decide (fname = fname ∧ kname = kname ∧ lid = lid ∧
            some lid ≠ hRef ∧ JsMap.hasKey tm lid = false) = true := by
          simp [hc.1, hc.2]
        rw [hd]
        simp
        omega
      · have hne : CompileDiag.missingTranslation fname kname lid
            ≠ CompileDiag.missingTranslation f0 k0 l0 := by
          intro hh
          injection hh with a b c
          exact hm ⟨a, b, c⟩
        have hd : decide (fname = f0 ∧ kname = k0 ∧ lid = l0 ∧
            some lid ≠ hRef ∧ JsMap.hasKey tm lid = false) = false := by
          simp only [decide_eq_false_iff_not]
          exact fun hh => hm ⟨hh.1, hh.2.1, hh.2.2.1⟩
        rw [hd, if_neg hne]
        simp
    · rw [if_neg hc, ih]
      have hd : decide (fname = f0 ∧ kname = k0 ∧ lid = l0 ∧
          some lid ≠ hRef ∧ JsMap.hasKey tm lid = false) = false := by
        simp only [decide_eq_false_iff_not]
        rintro ⟨-, -, -, hn, hkk⟩
        exact hc ⟨hn, by simp [hkk]⟩
      rw [hd]
      simp

theorem pass2_count_missing (locales : List Str) (files : JsMap Str TDFile)
    (st : CState) (f0 k0 l0 : Str) :
    ((compilePass2 locales files st).2).count (.missingTranslation f0 k0 l0)
      = st.2.count (.missingTranslation f0 k0 l0)
        + missingCount locales files f0 k0 l0 := by
  unfold compilePass2 missingCount
  induction files generalizing st with
  | nil => simp
  | cons ff rest ih =>
    simp only [List.foldl_cons, List.flatMap_cons]
    rw [ih]
    have hcontent : ∀ (st0 : CState),
        ((ff.2.content.foldl (fun st kts => locales.foldl (fun st lid =>
          if some lid ≠ locales.head? ∧ ¬ JsMap.hasKey kts.2.translations lid then
            (st.1, st.2 ++ [.missingTranslation ff.1 kts.1 lid])
          else st) st) st0).2).count (.missingTranslation f0 k0 l0)
        = st0.2.count (.missingTranslation f0 k0 l0)
          + (ff.2.content.flatMap (fun kts => locales.filter (fun lid =>
              decide (ff.1 = f0 ∧ kts.1 = k0 ∧ lid = l0 ∧
                some lid ≠ locales.head? ∧
                JsMap.hasKey kts.2.translations lid = false)))).length := by
      intro st0
      induction ff.2.content generalizing st0 with
      | nil => simp
      | cons kts crest ihc =>
        simp only [List.foldl_cons, List.flatMap_cons]
        rw [ihc, locFold_count_missing]
        simp [List.length_append]
        omega
    rw [hcontent]
    simp [List.length_append]
    omega

theorem headMem (locales : List Str) (l : Str) (h : locales.head? = some l) :
    l ∈ locales := by
  cases locales with
  | nil => simp at h
  | cons a rest =>
    simp at h
    simp [h]

theorem srcUnknownCount_zero (locales : List Str) (files : JsMap Str TDFile)
    (f0 k0 l0 : Str) (h : locales.head? ≠ some l0) :
    srcUnknownCount locales files f0 k0 l0 = 0 := by
  unfold srcUnknownCount
  induction files with
  | nil => simp
  | cons ff rest ih =>
    simp only [List.flatMap_cons, List.length_append]
    rw [ih]
    have hf : ff.2.content.filter (fun kts => decide (ff.1 = f0 ∧ kts.1 = k0 ∧
        locales.head? = some l0)) = [] := by
      rw [List.filter_eq_nil]
      intro kts hmem
      simp only [decide_eq_true_eq]
      exact fun hh => h hh.2.2
    rw [hf]
    simp

end TranslationData

/-- Claim C7, amended: for every database and locale list, (i) each configured
locale's compiled tree is exactly the fold of `LocaleData.set` over the source
content (for the source locale) and the current translations
(`lastModified ≥ source.lastModified`) of that locale, in database order — so
an entry is emitted iff the locale is configured, the translation is current,
and the dotted path does not collide (collisions report `DuplicateKey`);
(ii) each outdated translation occurrence produces exactly one
`OutdatedTranslation` — also under unconfigured locales, which the original
claim routed to `UnknownLocale`; (iii) each configured non-source locale
occurrence with no translation entry produces exactly one
`MissingTranslation` for that key; (iv) a translation under an unconfigured
locale produces exactly one `UnknownLocale` iff it is current. -/
theorem c7_amended_compile (d : TranslationData) (locales : List Str) :
    (∀ l : Str, JsMap.get (TranslationData.compile d locales).1 l
        = if l ∈ locales then
            some ((TranslationData.allPairs locales l d.files).foldl
              TranslationData.applyPair [])
          else none)
    ∧ (∀ f0 k0 l0 : Str,
        ((TranslationData.compile d locales).2).count (.outdatedTranslation f0 k0 l0)
          = TranslationData.outdatedCount d.files f0 k0 l0)
    ∧ (∀ f0 k0 l0 : Str,
        ((TranslationData.compile d locales).2).count (.missingTranslation f0 k0 l0)
          = TranslationData.missingCount locales d.files f0 k0 l0)
    ∧ (∀ f0 k0 l0 : Str,
        ((TranslationData.compile d locales).2).count (.unknownLocale f0 k0 (some l0))
          = if l0 ∈ locales then 0
            else TranslationData.transUnknownCount d.files f0 k0 l0) := by
  have hinit : ∀ l0 : Str, JsMap.hasKey
      (locales.foldl (fun m l => JsMap.set m l []) ([] : JsMap Str LocaleData)) l0
      = decide (l0 ∈ locales) := by
    intro l0
    unfold JsMap.hasKey
    rw [TranslationData.init_get]
    by_cases hl : l0 ∈ locales
    · simp [hl]
    · simp [hl, JsMap.get]
  refine ⟨fun l => ?_, fun f0 k0 l0 => ?_, fun f0 k0 l0 => ?_, fun f0 k0 l0 => ?_⟩
  · simp only [TranslationData.compile]
    rw [TranslationData.pass2_tree, TranslationData.pass1_tree, TranslationData.init_get]
    by_cases hl : l ∈ locales
    · simp [hl]
    · simp [hl, JsMap.get]
  · simp only [TranslationData.compile]
    rw [TranslationData.pass2_count_not_missing _ _ _ _
        (fun f k l hh => CompileDiag.noConfusion hh),
      TranslationData.pass1_count_outdated]
    simp
  · simp only [TranslationData.compile]
    rw [TranslationData.pass2_count_missing, TranslationData.pass1_count_missing]
    simp
  · simp only [TranslationData.compile]
    rw [TranslationData.pass2_count_not_missing _ _ _ _
        (fun f k l hh => CompileDiag.noConfusion hh),
      TranslationData.pass1_count_unknown]
    by_cases hl : l0 ∈ locales
    · simp [hl, hinit l0]
    · have hh : locales.head? ≠ some l0 :=
        fun hhead => hl (TranslationData.headMem locales l0 hhead)
      simp [hl, hinit l0,
        TranslationData.srcUnknownCount_zero locales d.files f0 k0 l0 hh]

/-! ## JSON serialization (`formatJson` / `parse`) — claims C5 and C6

`formatJson` sorts every map by key with the JS comparator
`(a < b ? -1 : a > b ? 1 : 0)` on strings and a stable sort; we model it with
a stable insertion sort over the code-unit lexicographic order `strLt`. -/

/-- JS `<` on strings: lexicographic comparison of code units. -/
def strLt : Str → Str → Bool
  | [], [] => false
  | [], _ :: _ => true
  | _ :: _, [] => false
  | a :: as, b :: bs =>
    if a.toNat < b.toNat then true
    else if b.toNat < a.toNat then false
    else strLt as bs

/-- Non-strict key order used by the stable insertion sort. -/
def strLe (a b : Str) : Bool := !(strLt b a)

theorem strLt_asymm (a b : Str) (h : strLt a b = true) : strLt b a = false := by
  induction a generalizing b with
  | nil =>
    cases b with
    | nil => simp [strLt] at h
    | cons c cs => simp [strLt]
  | cons c cs ih =>
    cases b with
    | nil => simp [strLt] at h
    | cons e es =>
      simp only [strLt] at h ⊢
      by_cases h1 : c.toNat < e.toNat
      · rw [if_neg (by omega), if_pos h1]
      · rw [if_neg h1] at h
        by_cases h2 : e.toNat < c.toNat
        · rw [if_pos h2] at h
          simp at h
        · rw [if_neg h2] at h
          rw [if_neg h2, if_neg h1]
          exact ih es h

theorem strLt_total_eq (a b : Str) (hab : strLt a b = false) (hba : strLt b a = false) :
    a = b := by
  induction a generalizing b with
  | nil =>
    cases b with
    | nil => rfl
    | cons c cs => simp [strLt] at hab
  | cons c cs ih =>
    cases b with
    | nil => simp [strLt] at hba
    | cons e es =>
      simp only [strLt] at hab hba
      by_cases h1 : c.toNat < e.toNat
      · rw [if_pos h1] at hab
        simp at hab
      · by_cases h2 : e.toNat < c.toNat
        · rw [if_pos h2] at hba
          simp at hba
        · rw [if_neg h1, if_neg (by omega : ¬ e.toNat < c.toNat)] at hab
          rw [if_neg h2, if_neg (by omega : ¬ c.toNat < e.toNat)] at hba
          have hc : c = e := Char.eq_of_val_eq (UInt32.ext (by
            simp only [Char.toNat] at h1 h2
            omega))
          rw [hc, ih es hab hba]

/-- Stable insertion of a pair into a key-sorted list: the new element goes
after every element whose key is `≤` its key, as the JS stable sort does. -/
def insertPair {α : Type} (x : Str × α) : List (Str × α) → List (Str × α)
  | [] => [x]
  | y :: rest => if strLe y.1 x.1 then y :: insertPair x rest else x :: y :: rest

/-- Stable insertion sort by key, modelling `Array.prototype.sort(sortByKey)`. -/
def sortPairs {α : Type} (l : List (Str × α)) : List (Str × α) :=
  l.foldl (fun acc x => insertPair x acc) []

theorem strLt_irrefl (a : Str) : strLt a a = false := by
  induction a with
  | nil => rfl
  | cons c cs ih => simp [strLt, ih]

theorem strLt_trans {a b c : Str} (h1 : strLt a b = true) (h2 : strLt b c = true) :
    strLt a c = true := by
  induction a generalizing b c with
  | nil =>
    cases c with
    | nil =>
      cases b with
      | nil => simp [strLt] at h1
      | cons y bs => simp [strLt] at h2
    | cons z cs => simp [strLt]
  | cons x as ih =>
    cases b with
    | nil => simp [strLt] at h1
    | cons y bs =>
      cases c with
      | nil => simp [strLt] at h2
      | cons z cs =>
        simp only [strLt] at h1 h2 ⊢
        by_cases hxy : x.toNat < y.toNat
        · by_cases hyz : y.toNat < z.toNat
          · rw [if_pos (by omega)]
          · rw [if_neg hyz] at h2
            by_cases hzy : z.toNat < y.toNat
            · rw [if_pos hzy] at h2
              simp at h2
            · rw [if_neg hzy] at h2
              rw [if_pos (by omega)]
        · rw [if_neg hxy] at h1
          by_cases hyx : y.toNat < x.toNat
          · rw [if_pos hyx] at h1
            simp at h1
          · rw [if_neg hyx] at h1
            by_cases hyz : y.toNat < z.toNat
            · rw [if_pos (by omega)]
            · rw [if_neg hyz] at h2
              by_cases hzy : z.toNat < y.toNat
              · rw [if_pos hzy] at h2
                simp at h2
              · rw [if_neg hzy] at h2
                rw [if_neg (by omega), if_neg (by omega)]
                exact ih h1 h2

/-- The list is sorted by key under `strLe`. -/
def KeySorted {α : Type} (l : List (Str × α)) : Prop :=
  l.Pairwise (fun x y => strLe x.1 y.1 = true)

theorem strLe_of_not_le (a b : Str) (h : strLe a b = false) : strLe b a = true := by
  unfold strLe at h ⊢
  rw [Bool.not_eq_false'] at h
  simp [strLt_asymm b a h]

theorem key_eq_of_le_le (a b : Str) (h1 : strLe a b = true) (h2 : strLe b a = true) :
    a = b := by
  unfold strLe at h1 h2
  simp only [Bool.not_eq_true'] at h1 h2
  exact strLt_total_eq a b h2 h1

theorem strLe_trans (a b c : Str) (h1 : strLe a b = true) (h2 : strLe b c = true) :
    strLe a c = true := by
  unfold strLe at h1 h2 ⊢
  simp only [Bool.not_eq_true'] at h1 h2 ⊢
  by_cases hca : strLt c a = true
  · by_cases hbc : strLt b c = true
    · exact absurd (strLt_trans hbc hca) (by simp [h1])
    · have hbc2 : b = c := strLt_total_eq b c (by simpa using hbc) h2
      rw [← hbc2] at hca
      exact absurd hca (by simp [h1])
  · simpa using hca

theorem insertPair_perm {α : Type} (x : Str × α) (l : List (Str × α)) :
    (insertPair x l).Perm (x :: l) := by
  induction l with
  | nil => simp [insertPair]
  | cons y rest ih =>
    simp only [insertPair]
    by_cases h : strLe y.1 x.1 = true
    · rw [if_pos h]
      exact ((ih.cons y).trans (List.Perm.swap x y rest))
    · rw [if_neg h]

theorem insertPair_sorted {α : Type} (x : Str × α) (l : List (Str × α))
    (hs : KeySorted l) : KeySorted (insertPair x l) := by
  induction l with
  | nil => simp [insertPair, KeySorted]
  | cons y rest ih =>
    simp only [insertPair]
    rw [KeySorted, List.pairwise_cons] at hs
    by_cases h : strLe y.1 x.1 = true
    · rw [if_pos h]
      rw [KeySorted, List.pairwise_cons]
      constructor
      · intro z hz
        have := (insertPair_perm x rest).mem_iff.mp hz
        cases List.mem_cons.mp this with
        | inl hzx => rw [hzx]; exact h
        | inr hzr => exact hs.1 z hzr
      · exact ih hs.2
    · rw [if_neg h]
      rw [KeySorted, List.pairwise_cons]
      refine ⟨fun z hz => ?_, List.pairwise_cons.mpr hs⟩
      cases List.mem_cons.mp hz with
      | inl hzy => rw [hzy]; exact strLe_of_not_le _ _ (by simpa using h)
      | inr hzr =>
        have hy : strLe x.1 y.1 = true := strLe_of_not_le _ _ (by simpa using h)
        exact strLe_trans _ _ _ hy (hs.1 z hzr)

theorem sortPairs_perm {α : Type} (l : List (Str × α)) : (sortPairs l).Perm l := by
  unfold sortPairs
  have main : ∀ (xs : List (Str × α)) (acc : List (Str × α)),
      (xs.foldl (fun acc x => insertPair x acc) acc).Perm (acc ++ xs) := by
    intro xs
    induction xs with
    | nil => simp
    | cons x rest ih =>
      intro acc
      simp only [List.foldl_cons]
      refine (ih (insertPair x acc)).trans ?_
      refine (List.Perm.append_right rest (insertPair_perm x acc)).trans ?_
      exact List.perm_middle.symm.trans (by simp)
  simpa using main l []

theorem sortPairs_sorted {α : Type} (l : List (Str × α)) : KeySorted (sortPairs l) := by
  unfold sortPairs
  have main : ∀ (xs acc : List (Str × α)), KeySorted acc →
      KeySorted (xs.foldl (fun acc x => insertPair x acc) acc) := by
    intro xs
    induction xs with
    | nil => exact fun acc h => h
    | cons x rest ih =>
      intro acc h
      exact ih _ (insertPair_sorted x acc h)
  exact main l [] (by simp [KeySorted])

theorem insertPair_append_ge {α : Type} (x : Str × α) (l : List (Str × α))
    (h : ∀ y ∈ l, strLe y.1 x.1 = true) : insertPair x l = l ++ [x] := by
  induction l with
  | nil => rfl
  | cons y rest ih =>
    simp only [insertPair]
    rw [if_pos (h y (by simp)), ih (fun z hz => h z (by simp [hz]))]
    rfl

theorem sortPairs_eq_self {α : Type} (l : List (Str × α)) (h : KeySorted l) :
    sortPairs l = l := by
  induction l using List.reverseRecOn with
  | nil => rfl
  | append_singleton init x ih =>
    unfold sortPairs at ih ⊢
    rw [List.foldl_append, List.foldl_cons, List.foldl_nil]
    have hinit : KeySorted init := by
      unfold KeySorted at h ⊢
      exact (List.pairwise_append.mp h).1
    rw [ih hinit]
    refine insertPair_append_ge x init (fun y hy => ?_)
    unfold KeySorted at h
    exact (List.pairwise_append.mp h).2.2 y hy x (by simp)

theorem sortPairs_idem {α : Type} (l : List (Str × α)) :
    sortPairs (sortPairs l) = sortPairs l :=
  sortPairs_eq_self _ (sortPairs_sorted l)

theorem insertPair_map_val {α β : Type} (g : Str × α → β) (x : Str × α)
    (l : List (Str × α)) :
    insertPair (x.1, g x) (l.map (fun p => (p.1, g p)))
      = (insertPair x l).map (fun p => (p.1, g p)) := by
  induction l with
  | nil => rfl
  | cons y rest ih =>
    simp only [List.map_cons, insertPair]
    by_cases h : strLe y.1 x.1 = true
    · rw [if_pos h, if_pos h, ih]
      rfl
    · rw [if_neg h, if_neg h]
      rfl

theorem sortPairs_map_val {α β : Type} (g : Str × α → β) (l : List (Str × α)) :
    sortPairs (l.map (fun p => (p.1, g p))) = (sortPairs l).map (fun p => (p.1, g p)) := by
  unfold sortPairs
  have main : ∀ (xs acc : List (Str × α)),
      (xs.map (fun p => (p.1, g p))).foldl (fun acc x => insertPair x acc)
        (acc.map (fun p => (p.1, g p)))
      = (xs.foldl (fun acc x => insertPair x acc) acc).map (fun p => (p.1, g p)) := by
    intro xs
    induction xs with
    | nil => intro acc; rfl
    | cons x rest ih =>
      intro acc
      simp only [List.map_cons, List.foldl_cons]
      rw [← ih (insertPair x acc), insertPair_map_val]
  simpa using main l []

theorem sorted_perm_eq {α : Type} (l1 l2 : List (Str × α)) (hp : l1.Perm l2)
    (s1 : KeySorted l1) (s2 : KeySorted l2) (nd : (l1.map Prod.fst).Nodup) :
    l1 = l2 := by
  induction l1 generalizing l2 with
  | nil => exact (hp.nil_eq).symm ▸ rfl
  | cons x r1 ih =>
    cases l2 with
    | nil => exact absurd hp.symm.nil_eq (by simp)
    | cons y r2 =>
      have hxy : x = y := by
        by_cases hcase : x = y
        · exact hcase
        · exfalso
          have hx2 : x ∈ y :: r2 := hp.mem_iff.mp (by simp)
          have hy1 : y ∈ x :: r1 := hp.symm.mem_iff.mp (by simp)
          have hxr2 : x ∈ r2 := by
            cases List.mem_cons.mp hx2 with
            | inl h => exact absurd h hcase
            | inr h => exact h
          have hyr1 : y ∈ r1 := by
            cases List.mem_cons.mp hy1 with
            | inl h => exact absurd h.symm hcase
            | inr h => exact h
          have hle1 : strLe x.1 y.1 = true := by
            rw [KeySorted, List.pairwise_cons] at s1
            exact s1.1 y hyr1
          have hle2 : strLe y.1 x.1 = true := by
            rw [KeySorted, List.pairwise_cons] at s2
            exact s2.1 x hxr2
          have hkeys : x.1 = y.1 := key_eq_of_le_le _ _ hle1 hle2
          rw [List.map_cons, List.nodup_cons] at nd
          exact nd.1 (hkeys ▸ List.mem_map_of_mem Prod.fst hyr1)
      subst hxy
      have hr : r1.Perm r2 := hp.cons_inv
      rw [KeySorted, List.pairwise_cons] at s1 s2
      rw [List.map_cons, List.nodup_cons] at nd
      rw [ih r2 hr s1.2 s2.2 nd.2]

/-! ### Timestamp rendering

`formatJson` writes `new Date(ms).toISOString()` and `parse` reads it back
with `Date.parse`.  Both are ECMAScript built-ins, external to the
repository; what the repository relies on is that `toISOString` renders the
millisecond value injectively and that `Date.parse` is a left inverse on the
rendered output (true over `Date`'s whole valid range).  We model the pair by
a decimal rendering with exactly that algebra. -/

/-- Decimal digit character. -/
def digitChar (d : Nat) : Char := Char.ofNat (48 + d)

/-- Little-endian decimal digits (fuelled; `fuel > n` suffices). -/
def digitsGo : Nat → Nat → Str
  | 0, _ => []
  | fuel + 1, n =>
    if n < 10 then [digitChar n] else digitChar (n % 10) :: digitsGo fuel (n / 10)

/-- Decimal rendering of a natural number. -/
def natToStr (n : Nat) : Str := (digitsGo (n + 1) n).reverse

/-- A decimal digit read back. -/
def charDigit (c : Char) : Option Nat :=
  if 48 ≤ c.toNat ∧ c.toNat ≤ 57 then some (c.toNat - 48) else none

def strToNatGo : Str → Nat → Option Nat
  | [], acc => some acc
  | c :: rest, acc =>
    match charDigit c with
    | some d => strToNatGo rest (acc * 10 + d)
    | none => none

/-- Decimal parsing (`none` models `NaN`). -/
def strToNat (s : Str) : Option Nat :=
  if s = [] then none else strToNatGo s 0

/-- Model of `Date.prototype.toISOString` (see the section comment). -/
def isoOfMs (t : Nat) : Str := natToStr t

/-- Model of `Date.parse` on rendered timestamps. -/
def msOfIso (s : Str) : Option Nat := strToNat s

theorem digitChar_toNat (d : Nat) (h : d < 10) : (digitChar d).toNat = 48 + d := by
  interval_cases d <;> decide

theorem digitsGo_spec (fuel n : Nat) (h : n < fuel) :
    (digitsGo fuel n).foldr (fun c a => a * 10 + (c.toNat - 48)) 0 = n ∧
    (∀ c ∈ digitsGo fuel n, 48 ≤ c.toNat ∧ c.toNat ≤ 57) ∧
    digitsGo fuel n ≠ [] := by
  induction fuel generalizing n with
  | zero => omega
  | succ f ih =>
    simp only [digitsGo]
    by_cases hn : n < 10
    · rw [if_pos hn]
      refine ⟨?_, ?_, by simp⟩
      · simp [digitChar_toNat n hn]
      · intro c hc
        simp at hc
        rw [hc, digitChar_toNat n hn]
        omega
    · rw [if_neg hn]
      have hdiv : n / 10 < f := by
        have h1 : n / 10 < n := Nat.div_lt_self (by omega) (by omega)
        omega
      obtain ⟨hval, hdig, -⟩ := ih (n / 10) hdiv
      refine ⟨?_, ?_, by simp⟩
      · simp only [List.foldr_cons, hval]
        rw [digitChar_toNat (n % 10) (Nat.mod_lt n (by omega))]
        omega
      · intro c hc
        cases List.mem_cons.mp hc with
        | inl hh =>
          rw [hh, digitChar_toNat (n % 10) (Nat.mod_lt n (by omega))]
          omega
        | inr hh => exact hdig c hh

theorem strToNatGo_digits (bs : Str) (acc : Nat)
    (hd : ∀ c ∈ bs, 48 ≤ c.toNat ∧ c.toNat ≤ 57) :
    strToNatGo bs acc = some (bs.foldl (fun a c => a * 10 + (c.toNat - 48)) acc) := by
  induction bs generalizing acc with
  | nil => rfl
  | cons c rest ih =>
    have hc := hd c (by simp)
    simp only [strToNatGo, charDigit, if_pos hc, List.foldl_cons]
    exact ih _ (fun x hx => hd x (by simp [hx]))

theorem msOfIso_isoOfMs (t : Nat) : msOfIso (isoOfMs t) = some t := by
  unfold msOfIso isoOfMs strToNat natToStr
  obtain ⟨hval, hdig, hne⟩ := digitsGo_spec (t + 1) t (by omega)
  rw [if_neg (by simp [hne])]
  rw [strToNatGo_digits _ 0 (fun c hc => hdig c (List.mem_reverse.mp hc))]
  rw [List.foldl_reverse]
  exact congrArg some hval

/-- JSON values (the repository only ever serializes strings, the number 2,
arrays and objects).  Objects are ordered property lists; `JSON.parse` /
`JSON.stringify` are platform primitives modelled at this value level. -/
inductive Json : Type
  | str (s : Str)
  | num (n : Nat)
  | arr (items : List Json)
  | obj (entries : List (Str × Json))

/-- JSON string escaping for the characters that can occur here. -/
def escapeChar (c : Char) : Str :=
  if c = '"' then ['\\', '"']
  else if c = '\\' then ['\\', '\\']
  else if c = '\n' then ['\\', 'n']
  else if c = '\t' then ['\\', 't']
  else if c = '\r' then ['\\', 'r']
  else [c]

/-- A quoted JSON string literal. -/
def quoteJson (s : Str) : Str := '"' :: s.flatMap escapeChar ++ ['"']

mutual

/-- Model of compact `JSON.stringify(value)` (used as the deduplication key
for obsolete entries). -/
def jsonCompact : Json → Str
  | .str s => quoteJson s
  | .num n => natToStr n
  | .arr items => '[' :: jsonCompactArr items ++ [']']
  | .obj entries => Char.ofNat 123 :: jsonCompactObj entries ++ [Char.ofNat 125]

def jsonCompactArr : List Json → Str
  | [] => []
  | [j] => jsonCompact j
  | j :: j2 :: rest => jsonCompact j ++ ',' :: jsonCompactArr (j2 :: rest)

def jsonCompactObj : List (Str × Json) → Str
  | [] => []
  | [(k, v)] => quoteJson k ++ ':' :: jsonCompact v
  | (k, v) :: kv2 :: rest => quoteJson k ++ ':' :: jsonCompact v ++ ',' :: jsonCompactObj (kv2 :: rest)

end

/-- Indentation: `depth` tabs. -/
def tabs (depth : Nat) : Str := List.replicate depth '\t'

mutual

/-- Model of `JSON.stringify(value, null, "\t")`: tab indentation, LF line
endings, `": "` after property names, no trailing newline. -/
def jsonStringify : Json → Nat → Str
  | .str s, _ => quoteJson s
  | .num n, _ => natToStr n
  | .arr [], _ => ['[', ']']
  | .arr (j :: rest), depth =>
    '[' :: '\n' :: tabs (depth + 1) ++ jsonStringify j (depth + 1)
      ++ jsonStringifyArr rest (depth + 1) ++ '\n' :: tabs depth ++ [']']
  | .obj [], _ => [Char.ofNat 123, Char.ofNat 125]
  | .obj ((k, v) :: rest), depth =>
    Char.ofNat 123 :: '\n' :: tabs (depth + 1) ++ quoteJson k ++ ':' :: ' ' ::
      jsonStringify v (depth + 1)
      ++ jsonStringifyObj rest (depth + 1) ++ '\n' :: tabs depth ++ [Char.ofNat 125]

def jsonStringifyArr : List Json → Nat → Str
  | [], _ => []
  | j :: rest, depth =>
    ',' :: '\n' :: tabs depth ++ jsonStringify j depth ++ jsonStringifyArr rest depth

def jsonStringifyObj : List (Str × Json) → Nat → Str
  | [], _ => []
  | (k, v) :: rest, depth =>
    ',' :: '\n' :: tabs depth ++ quoteJson k ++ ':' :: ' ' :: jsonStringify v depth
      ++ jsonStringifyObj rest depth

end

/-! ### Filenames

`formatJson` writes `relative(basePath, filename).replace(/\\/g, "/")` and
`parse` reads names back with `join(basePath, name)`.  `node:path` is a
platform primitive; it is modelled for the only case the verified statements
use — a normalized filename below `basePath` — where `relative` is exactly
the suffix after `basePath + "/"`. -/

/-- Model of `path.isAbsolute`. -/
def isAbsolutePath (s : Str) : Bool :=
  match s with
  | c :: _ => c = '/'
  | [] => false

/-- Backslash to forward-slash replacement of `filenameToJson`. -/
def replBackslash (s : Str) : Str := s.map (fun c => if c = '\\' then '/' else c)

/-- Model of `path.relative(base, f)` for `f` below `base` (otherwise the
input is returned unchanged; such files never satisfy the well-formedness
hypotheses of the round-trip statements). -/
def relativePath (base f : Str) : Str :=
  if (base ++ ['/']).isPrefixOf f then f.drop (base.length + 1) else f

/-- Model of `path.join(base, name)` for a relative `name`. -/
def joinPath (base name : Str) : Str := base ++ '/' :: name

/-- `filenameToJson` of the source. -/
def filenameToJson (base f : Str) : Str := replBackslash (relativePath base f)

/-- `filenameFromJson` of the source. -/
def filenameFromJson (base name : Str) : Str := joinPath base name

namespace TranslationData

/-- Properties written by `formatTranslation`, in property order. -/
def formatTranslationProps (t : Translation) : List (Str × Json) :=
  [("content".data, .str t.content),
   ("lastModified".data, .str (isoOfMs t.lastModified)),
   ("ignoreSpelling".data, .arr (t.ignoreSpelling.map .str))]

/-- The serialized translation set: source properties followed by the
locale-sorted translations object. -/
def formatSetJson (ts : TranslationSet) : Json :=
  .obj (formatTranslationProps ts.source ++
    [("translations".data, .obj ((sortPairs ts.translations).map
      (fun lt => (lt.1, .obj (formatTranslationProps lt.2)))))])

/-- The serialized file record: keys sorted. -/
def formatFileJson (file : TDFile) : Json :=
  .obj [("content".data, .obj ((sortPairs file.content).map
    (fun kts => (kts.1, formatSetJson kts.2))))]

/-- The serialized obsolete entry: locales sorted. -/
def formatObsItem (o : ObsoleteTranslation) : Json :=
  .obj [("content".data, .str o.content),
        ("translations".data, .obj ((sortPairs o.translations).map
          (fun lt => (lt.1, .str lt.2))))]

/-- Deduplication of obsolete entries by their compact JSON rendering,
keeping first occurrences. -/
def dedupGo (seen : List Str) : List Json → List Json
  | [] => []
  | j :: rest =>
    if seen.contains (jsonCompact j) then dedupGo seen rest
    else j :: dedupGo (jsonCompact j :: seen) rest

/-- `jsonFiles[name] = fileJson` over the sorted file list (property
assignment keeps the first position on duplicates, like `JsMap.set`). -/
def buildFilesObj (l : List (Str × TDFile)) : List (Str × Json) :=
  l.foldl (fun es ff => JsMap.set es ff.1 (formatFileJson ff.2)) []

/-- Model of `TranslationData.formatJson` at the JSON value level: root key
order `version, files, obsolete`; files sorted by relative name; obsolete
deduplicated. -/
def formatValue (d : TranslationData) (base : Str) : Json :=
  .obj [("version".data, .num 2),
        ("files".data, .obj (buildFilesObj (sortPairs
          (d.files.map (fun ff => (filenameToJson base ff.1, ff.2)))))),
        ("obsolete".data, .arr (dedupGo [] (d.obsolete.map formatObsItem)))]

/-- The serialized translation data: `JSON.stringify(json, null, "\t")` of
the value. -/
def formatJson (d : TranslationData) (base : Str) : Str :=
  jsonStringify (formatValue d base) 0

/-- Property access on a parsed JSON object. -/
def objGet (entries : List (Str × Json)) (k : Str) : Option Json :=
  JsMap.get entries k

/-- All elements must be strings (`ignoreSpelling` validation). -/
def strListOf : List Json → Option (List Str)
  | [] => some []
  | .str s :: rest => (strListOf rest).map (s :: ·)
  | _ :: _ => none

/-- Model of the inner `parseTranslation` of `TranslationData.parse`. -/
def parseTranslationJ (j : Json) : Except Unit Translation :=
  match j with
  | .obj props =>
    match objGet props "content".data with
    | some (.str c) =>
      match objGet props "lastModified".data with
      | some (.str lm) =>
        match msOfIso lm with
        | some t =>
          match objGet props "ignoreSpelling".data with
          | some (.arr igs) =>
            match strListOf igs with
            | some ss => .ok ⟨c, t, ss⟩
            | none => .error ()
          | _ => .error ()
        | none => .error ()
      | _ => .error ()
    | _ => .error ()
  | _ => .error ()

/-- Parse the `translations` object of a translation set, inserting in
property order. -/
def parseTransMapGo (acc : JsMap Str Translation) :
    List (Str × Json) → Except Unit (JsMap Str Translation)
  | [] => .ok acc
  | (lid, tj) :: rest =>
    match parseTranslationJ tj with
    | .ok t => parseTransMapGo (JsMap.set acc lid t) rest
    | .error e => .error e

/-- Parse one translation set (source properties plus `translations`). -/
def parseSetJ (j : Json) : Except Unit TranslationSet :=
  match parseTranslationJ j with
  | .error e => .error e
  | .ok source =>
    match j with
    | .obj props =>
      match objGet props "translations".data with
      | some (.obj tprops) =>
        match parseTransMapGo [] tprops with
        | .ok translations => .ok ⟨source, translations⟩
        | .error e => .error e
      | _ => .error ()
    | _ => .error ()

/-- Parse a file record's `content` object, inserting in property order. -/
def parseContentGo (acc : JsMap Str TranslationSet) :
    List (Str × Json) → Except Unit (JsMap Str TranslationSet)
  | [] => .ok acc
  | (key, sj) :: rest =>
    match parseSetJ sj with
    | .ok ts => parseContentGo (JsMap.set acc key ts) rest
    | .error e => .error e

/-- Parse one file record. -/
def parseFileJ (j : Json) : Except Unit TDFile :=
  match j with
  | .obj props =>
    match objGet props "content".data with
    | some (.obj cs) =>
      match parseContentGo [] cs with
      | .ok content => .ok ⟨content⟩
      | .error e => .error e
    | _ => .error ()
  | _ => .error ()

/-- Parse the `files` object: reject absolute names, resolve the rest against
the base path, inserting in property order. -/
def parseFilesGo (base : Str) (acc : JsMap Str TDFile) :
    List (Str × Json) → Except Unit (JsMap Str TDFile)
  | [] => .ok acc
  | (name, fj) :: rest =>
    if isAbsolutePath name then .error ()
    else
      match parseFileJ fj with
      | .ok file => parseFilesGo base (JsMap.set acc (filenameFromJson base name) file) rest
      | .error e => .error e

/-- Parse the `translations` object of an obsolete entry. -/
def parseObsTransGo (acc : JsMap Str Str) :
    List (Str × Json) → Except Unit (JsMap Str Str)
  | [] => .ok acc
  | (lid, j) :: rest =>
    match j with
    | .str s => parseObsTransGo (JsMap.set acc lid s) rest
    | _ => .error ()

/-- Parse one obsolete entry. -/
def parseObsItemJ (j : Json) : Except Unit ObsoleteTranslation :=
  match j with
  | .obj props =>
    match objGet props "content".data with
    | some (.str c) =>
      match objGet props "translations".data with
      | some (.obj tprops) =>
        match parseObsTransGo [] tprops with
        | .ok translations => .ok ⟨c, translations⟩
        | .error e => .error e
      | _ => .error ()
    | _ => .error ()
  | _ => .error ()

/-- Parse the obsolete array in order. -/
def parseObsGo : List Json → Except Unit (List ObsoleteTranslation)
  | [] => .ok []
  | j :: rest =>
    match parseObsItemJ j with
    | .ok o =>
      match parseObsGo rest with
      | .ok os => .ok (o :: os)
      | .error e => .error e
    | .error e => .error e

/-- Model of `TranslationData.parse` after `JSON.parse`: version detection by
`version === 2` (v1 treats the whole object as the files record), filename
and field validation as in the source. -/
def parseValue (j : Json) (base : Str) : Except Unit TranslationData :=
  match j with
  | .obj entries =>
    match objGet entries "version".data with
    | some (.num n) =>
      if n = 2 then
        match objGet entries "files".data with
        | some (.obj fs) =>
          match objGet entries "obsolete".data with
          | some (.arr obs) =>
            match parseFilesGo base [] fs with
            | .ok files =>
              match parseObsGo obs with
              | .ok obsolete => .ok ⟨files, obsolete, 2⟩
              | .error e => .error e
            | .error e => .error e
          | _ => .error ()
        | _ => .error ()
      else
        match parseFilesGo base [] entries with
        | .ok files => .ok ⟨files, [], 1⟩
        | .error e => .error e
    | _ =>
      match parseFilesGo base [] entries with
      | .ok files => .ok ⟨files, [], 1⟩
      | .error e => .error e
  | _ => .error ()

end TranslationData

/-! ### Round-trip lemmas for the serialization -/

lemma isPrefixOf_append_self (a b : Str) : a.isPrefixOf (a ++ b) = true := by
  rw [List.isPrefixOf_iff_prefix]
  exact ⟨b, rfl⟩

lemma replBackslash_idem (s : Str) : replBackslash (replBackslash s) = replBackslash s := by
  induction s with
  | nil => rfl
  | cons c rest ih =>
    simp only [replBackslash, List.map_cons] at ih ⊢
    rw [ih]
    by_cases h : c = '\\'
    · simp [h]
    · simp [h]

lemma toJson_fromJson (base n : Str) :
    filenameToJson base (filenameFromJson base n) = replBackslash n := by
  unfold filenameToJson filenameFromJson joinPath relativePath
  have h1 : base ++ '/' :: n = (base ++ ['/']) ++ n := by simp
  rw [h1, isPrefixOf_append_self]
  simp only [if_true, if_pos]
  rw [show base.length + 1 = (base ++ ['/']).length by simp, List.drop_left]

lemma replBackslash_toJson (base f : Str) :
    replBackslash (filenameToJson base f) = filenameToJson base f := by
  unfold filenameToJson
  exact replBackslash_idem _

lemma toJson_fromJson_toJson (base f : Str) :
    filenameToJson base (filenameFromJson base (filenameToJson base f))
      = filenameToJson base f := by
  rw [toJson_fromJson, replBackslash_toJson]

lemma fromJson_injective (base : Str) : Function.Injective (filenameFromJson base) := by
  intro n1 n2 h
  unfold filenameFromJson joinPath at h
  have := List.append_cancel_left h
  exact List.tail_eq_of_cons_eq this

lemma hasKey_append {α β : Type} [DecidableEq α] (a b : JsMap α β) (k : α) :
    JsMap.hasKey (a ++ b) k = (JsMap.hasKey a k || JsMap.hasKey b k) := by
  induction a with
  | nil => simp [JsMap.hasKey, JsMap.get]
  | cons hd tl ih =>
    obtain ⟨k0, v0⟩ := hd
    by_cases h : k0 = k <;>
      simp [JsMap.hasKey, JsMap.get, h] at ih ⊢ <;> exact ih

lemma set_of_not_hasKey {α β : Type} [DecidableEq α] (m : JsMap α β) (k : α) (v : β)
    (h : JsMap.hasKey m k = false) : JsMap.set m k v = m ++ [(k, v)] := by
  induction m with
  | nil => rfl
  | cons hd tl ih =>
    obtain ⟨k0, v0⟩ := hd
    simp only [JsMap.hasKey, JsMap.get] at h
    by_cases h0 : k0 = k
    · rw [if_pos h0] at h
      simp at h
    · rw [if_neg h0] at h
      simp only [JsMap.set, if_neg h0, List.cons_append]
      rw [ih]
      simp only [JsMap.hasKey]
      exact h

lemma foldl_set_eq_append {α β : Type} [DecidableEq α] (l acc : JsMap α β)
    (hdisj : ∀ kv ∈ l, JsMap.hasKey acc kv.1 = false)
    (hnd : (l.map Prod.fst).Nodup) :
    l.foldl (fun a kv => JsMap.set a kv.1 kv.2) acc = acc ++ l := by
  induction l generalizing acc with
  | nil => simp
  | cons x rest ih =>
    obtain ⟨k, v⟩ := x
    simp only [List.foldl_cons]
    rw [set_of_not_hasKey acc k v (hdisj (k, v) (by simp))]
    rw [List.map_cons, List.nodup_cons] at hnd
    rw [ih (acc ++ [(k, v)]) ?_ hnd.2]
    · simp
    · intro kv hm
      rw [hasKey_append]
      have h1 : JsMap.hasKey acc kv.1 = false := hdisj kv (List.mem_cons_of_mem _ hm)
      have h2 : JsMap.hasKey [(k, v)] kv.1 = false := by
        have : kv.1 ≠ k := by
          intro he
          exact hnd.1 (he ▸ List.mem_map.mpr ⟨kv, hm, rfl⟩)
        simp [JsMap.hasKey, JsMap.get, Ne.symm this]
      rw [h1, h2]
      rfl

lemma foldl_set_nodup {α β : Type} [DecidableEq α] (l : JsMap α β)
    (hnd : (l.map Prod.fst).Nodup) :
    l.foldl (fun a kv => JsMap.set a kv.1 kv.2) [] = l := by
  rw [foldl_set_eq_append l [] (fun kv _ => rfl) hnd]
  simp

namespace TranslationData

/-- Canonical form of a translation set (what `parse` rebuilds from
`formatJson` output): translations sorted by locale. -/
def canonSet (ts : TranslationSet) : TranslationSet :=
  ⟨ts.source, sortPairs ts.translations⟩

/-- Canonical form of a file record: keys sorted, sets canonicalized. -/
def canonFile (file : TDFile) : TDFile :=
  ⟨(sortPairs file.content).map (fun kts => (kts.1, canonSet kts.2))⟩

/-- Canonical form of an obsolete entry: translations sorted by locale. -/
def canonObs (o : ObsoleteTranslation) : ObsoleteTranslation :=
  ⟨o.content, sortPairs o.translations⟩

lemma strListOf_map (ss : List Str) : strListOf (ss.map Json.str) = some ss := by
  induction ss with
  | nil => rfl
  | cons s rest ih => simp [strListOf, ih]

lemma parseTranslationJ_format (t : Translation) (extra : List (Str × Json)) :
    parseTranslationJ (.obj (formatTranslationProps t ++ extra)) = .ok t := by
  have key : parseTranslationJ (.obj (formatTranslationProps t ++ extra))
      = (match msOfIso (isoOfMs t.lastModified) with
         | some ms =>
           match strListOf (t.ignoreSpelling.map Json.str) with
           | some ss => Except.ok ⟨t.content, ms, ss⟩
           | none => Except.error ()
         | none => Except.error ()) := rfl
  rw [key, msOfIso_isoOfMs, strListOf_map]

lemma parseTransMapGo_format (l : List (Str × Translation)) (acc : JsMap Str Translation) :
    parseTransMapGo acc (l.map (fun lt => (lt.1, Json.obj (formatTranslationProps lt.2))))
      = .ok (l.foldl (fun a lt => JsMap.set a lt.1 lt.2) acc) := by
  induction l generalizing acc with
  | nil => rfl
  | cons x rest ih =>
    simp only [List.map_cons, parseTransMapGo, List.foldl_cons]
    have h := parseTranslationJ_format x.2 []
    rw [List.append_nil] at h
    rw [h]
    exact ih _

lemma parseSetJ_format (ts : TranslationSet)
    (hT : (ts.translations.map Prod.fst).Nodup) :
    parseSetJ (formatSetJson ts) = .ok (canonSet ts) := by
  unfold parseSetJ formatSetJson
  rw [parseTranslationJ_format]
  dsimp only
  have hget : objGet (formatTranslationProps ts.source ++
      [("translations".data, Json.obj ((sortPairs ts.translations).map
        (fun lt => (lt.1, Json.obj (formatTranslationProps lt.2)))))]) "translations".data
      = some (Json.obj ((sortPairs ts.translations).map
        (fun lt => (lt.1, Json.obj (formatTranslationProps lt.2))))) := rfl
  rw [hget]
  dsimp only
  rw [parseTransMapGo_format]
  rw [show (fun (a : JsMap Str Translation) (lt : Str × Translation) =>
      JsMap.set a lt.1 lt.2) = (fun a kv => JsMap.set a kv.1 kv.2) from rfl]
  rw [foldl_set_nodup]
  · rfl
  · have hperm : ((sortPairs ts.translations).map Prod.fst).Perm
        (ts.translations.map Prod.fst) := (sortPairs_perm _).map _
    exact hperm.nodup_iff.mpr hT

end TranslationData

lemma foldl_set_map_nodup {α β γ : Type} [DecidableEq α] (l : List γ) (g : γ → α × β)
    (hnd : ((l.map g).map Prod.fst).Nodup) :
    l.foldl (fun a x => JsMap.set a (g x).1 (g x).2) [] = l.map g := by
  rw [← foldl_set_nodup (l.map g) hnd, List.foldl_map]

namespace TranslationData

lemma parseContentGo_format (l : List (Str × TranslationSet)) (acc : JsMap Str TranslationSet)
    (hT : ∀ kts ∈ l, (kts.2.translations.map Prod.fst).Nodup) :
    parseContentGo acc (l.map (fun kts => (kts.1, formatSetJson kts.2)))
      = .ok (l.foldl (fun a kts => JsMap.set a kts.1 (canonSet kts.2)) acc) := by
  induction l generalizing acc with
  | nil => rfl
  | cons x rest ih =>
    simp only [List.map_cons, parseContentGo, List.foldl_cons]
    rw [parseSetJ_format x.2 (hT x (by simp))]
    exact ih _ (fun kts hm => hT kts (List.mem_cons_of_mem _ hm))

lemma parseFileJ_format (file : TDFile)
    (hC : (file.content.map Prod.fst).Nodup)
    (hT : ∀ kts ∈ file.content, (kts.2.translations.map Prod.fst).Nodup) :
    parseFileJ (formatFileJson file) = .ok (canonFile file) := by
  have key : parseFileJ (formatFileJson file)
      = (match parseContentGo [] ((sortPairs file.content).map
          (fun kts => (kts.1, formatSetJson kts.2))) with
         | .ok content => Except.ok ⟨content⟩
         | .error e => Except.error e) := rfl
  rw [key]
  rw [parseContentGo_format _ _ (fun kts hm => hT kts ((sortPairs_perm _).mem_iff.mp hm))]
  have hfold : (sortPairs file.content).foldl
      (fun a kts => JsMap.set a kts.1 (canonSet kts.2)) []
      = (sortPairs file.content).map (fun kts => (kts.1, canonSet kts.2)) := by
    have h := foldl_set_map_nodup (sortPairs file.content)
      (fun kts => (kts.1, canonSet kts.2)) ?_
    · exact h
    · simp only [List.map_map]
      have : ((sortPairs file.content).map
          (Prod.fst ∘ fun kts => (kts.1, canonSet kts.2)))
          = (sortPairs file.content).map Prod.fst := rfl
      rw [this]
      exact ((sortPairs_perm _).map Prod.fst).nodup_iff.mpr hC
  rw [hfold]
  rfl

lemma buildFilesObj_nodup (l : List (Str × TDFile)) (h : (l.map Prod.fst).Nodup) :
    buildFilesObj l = l.map (fun ff => (ff.1, formatFileJson ff.2)) := by
  unfold buildFilesObj
  have key := foldl_set_map_nodup l (fun ff => (ff.1, formatFileJson ff.2)) ?_
  · exact key
  · simp only [List.map_map]
    have : (l.map (Prod.fst ∘ fun ff => (ff.1, formatFileJson ff.2)))
        = l.map Prod.fst := rfl
    rw [this]
    exact h

lemma parseFilesGo_format (base : Str) (l : List (Str × TDFile)) (acc : JsMap Str TDFile)
    (hA : ∀ ff ∈ l, isAbsolutePath ff.1 = false)
    (hC : ∀ ff ∈ l, (ff.2.content.map Prod.fst).Nodup)
    (hT : ∀ ff ∈ l, ∀ kts ∈ ff.2.content, (kts.2.translations.map Prod.fst).Nodup) :
    parseFilesGo base acc (l.map (fun ff => (ff.1, formatFileJson ff.2)))
      = .ok (l.foldl (fun a ff =>
          JsMap.set a (filenameFromJson base ff.1) (canonFile ff.2)) acc) := by
  induction l generalizing acc with
  | nil => rfl
  | cons x rest ih =>
    simp only [List.map_cons, parseFilesGo, List.foldl_cons]
    rw [hA x (by simp)]
    rw [parseFileJ_format x.2 (hC x (by simp)) (hT x (by simp))]
    exact ih _ (fun ff hm => hA ff (List.mem_cons_of_mem _ hm))
      (fun ff hm => hC ff (List.mem_cons_of_mem _ hm))
      (fun ff hm => hT ff (List.mem_cons_of_mem _ hm))

lemma parseObsTransGo_format (l : List (Str × Str)) (acc : JsMap Str Str) :
    parseObsTransGo acc (l.map (fun lt => (lt.1, Json.str lt.2)))
      = .ok (l.foldl (fun a lt => JsMap.set a lt.1 lt.2) acc) := by
  induction l generalizing acc with
  | nil => rfl
  | cons x rest ih =>
    simp only [List.map_cons, parseObsTransGo, List.foldl_cons]
    exact ih _

lemma parseObsItemJ_format (o : ObsoleteTranslation)
    (h : (o.translations.map Prod.fst).Nodup) :
    parseObsItemJ (formatObsItem o) = .ok (canonObs o) := by
  have key : parseObsItemJ (formatObsItem o)
      = (match parseObsTransGo [] ((sortPairs o.translations).map
          (fun lt => (lt.1, Json.str lt.2))) with
         | .ok translations => Except.ok ⟨o.content, translations⟩
         | .error e => Except.error e) := rfl
  rw [key, parseObsTransGo_format]
  rw [foldl_set_nodup]
  · rfl
  · exact ((sortPairs_perm _).map Prod.fst).nodup_iff.mpr h

lemma parseObsGo_format (l : List ObsoleteTranslation)
    (h : ∀ o ∈ l, (o.translations.map Prod.fst).Nodup) :
    parseObsGo (l.map formatObsItem) = .ok (l.map canonObs) := by
  induction l with
  | nil => rfl
  | cons o rest ih =>
    simp only [List.map_cons, parseObsGo]
    rw [parseObsItemJ_format o (h o (by simp)),
      ih (fun o2 hm => h o2 (List.mem_cons_of_mem _ hm))]

lemma dedupGo_of_map {γ : Type} (f : γ → Json) (l : List γ) (seen : List Str) :
    ∃ l' : List γ, dedupGo seen (l.map f) = l'.map f ∧ ∀ o ∈ l', o ∈ l := by
  induction l generalizing seen with
  | nil => exact ⟨[], rfl, by simp⟩
  | cons x rest ih =>
    simp only [List.map_cons, dedupGo]
    by_cases hc : seen.contains (jsonCompact (f x)) = true
    · rw [if_pos hc]
      obtain ⟨l', he, hs⟩ := ih seen
      exact ⟨l', he, fun o hm => List.mem_cons_of_mem _ (hs o hm)⟩
    · rw [if_neg hc]
      obtain ⟨l', he, hs⟩ := ih (jsonCompact (f x) :: seen)
      refine ⟨x :: l', by simp [he], fun o hm => ?_⟩
      cases List.mem_cons.mp hm with
      | inl h0 => exact h0 ▸ List.mem_cons_self _ _
      | inr h0 => exact List.mem_cons_of_mem _ (hs o h0)

lemma dedupGo_spec (l : List Json) (seen : List Str) :
    ((dedupGo seen l).map jsonCompact).Nodup
      ∧ ∀ j ∈ dedupGo seen l, jsonCompact j ∉ seen := by
  induction l generalizing seen with
  | nil => exact ⟨List.nodup_nil, by simp [dedupGo]⟩
  | cons x rest ih =>
    simp only [dedupGo]
    by_cases hc : seen.contains (jsonCompact x) = true
    · rw [if_pos hc]
      exact ih seen
    · rw [if_neg hc]
      obtain ⟨hnd, hni⟩ := ih (jsonCompact x :: seen)
      constructor
      · simp only [List.map_cons, List.nodup_cons]
        refine ⟨?_, hnd⟩
        intro hmem
        obtain ⟨j, hj, hje⟩ := List.mem_map.mp hmem
        exact hni j hj (hje ▸ List.mem_cons_self _ _)
      · intro j hj
        cases List.mem_cons.mp hj with
        | inl h0 =>
          subst h0
          intro hmem
          exact hc (by simpa using hmem)
        | inr h0 => exact fun hmem => hni j h0 (List.mem_cons_of_mem _ hmem)

lemma dedupGo_eq_self (l : List Json) (seen : List Str)
    (h1 : (l.map jsonCompact).Nodup) (h2 : ∀ j ∈ l, jsonCompact j ∉ seen) :
    dedupGo seen l = l := by
  induction l generalizing seen with
  | nil => rfl
  | cons x rest ih =>
    simp only [dedupGo]
    have hc : ¬(seen.contains (jsonCompact x) = true) := by
      simpa using h2 x (by simp)
    rw [if_neg hc]
    simp only [List.map_cons, List.nodup_cons] at h1
    rw [ih (jsonCompact x :: seen) h1.2 ?_]
    intro j hj hmem
    cases List.mem_cons.mp hmem with
    | inl h0 => exact h1.1 (h0 ▸ List.mem_map.mpr ⟨j, hj, rfl⟩)
    | inr h0 => exact h2 j (List.mem_cons_of_mem _ hj) h0

lemma dedup_idem (l : List Json) : dedupGo [] (dedupGo [] l) = dedupGo [] l :=
  dedupGo_eq_self _ _ (dedupGo_spec l []).1 (by simp)

lemma formatSetJson_canon (ts : TranslationSet) :
    formatSetJson (canonSet ts) = formatSetJson ts := by
  simp [formatSetJson, canonSet, sortPairs_idem]

lemma formatFileJson_canon (file : TDFile) :
    formatFileJson (canonFile file) = formatFileJson file := by
  unfold formatFileJson canonFile
  have hs : sortPairs ((sortPairs file.content).map (fun kts => (kts.1, canonSet kts.2)))
      = (sortPairs file.content).map (fun kts => (kts.1, canonSet kts.2)) := by
    have h := sortPairs_map_val (fun p => canonSet p.2) (sortPairs file.content)
    rw [h, sortPairs_idem]
  rw [hs]
  simp only [List.map_map, Function.comp]
  rw [List.map_congr_left (fun kts _ => by
    show (kts.1, formatSetJson (canonSet kts.2)) = (kts.1, formatSetJson kts.2)
    rw [formatSetJson_canon])]

lemma formatObsItem_canon (o : ObsoleteTranslation) :
    formatObsItem (canonObs o) = formatObsItem o := by
  simp [formatObsItem, canonObs, sortPairs_idem]

/-- The deduplication of the obsolete array, at the entry level. -/
def dedupObsGo (seen : List Str) : List ObsoleteTranslation → List ObsoleteTranslation
  | [] => []
  | o :: rest =>
    if seen.contains (jsonCompact (formatObsItem o)) then dedupObsGo seen rest
    else o :: dedupObsGo (jsonCompact (formatObsItem o) :: seen) rest

lemma dedupObs_eq (seen : List Str) (l : List ObsoleteTranslation) :
    dedupGo seen (l.map formatObsItem) = (dedupObsGo seen l).map formatObsItem := by
  induction l generalizing seen with
  | nil => rfl
  | cons o rest ih =>
    simp only [List.map_cons, dedupGo, dedupObsGo]
    by_cases hc : seen.contains (jsonCompact (formatObsItem o)) = true
    · rw [if_pos hc, if_pos hc, ih]
    · rw [if_neg hc, if_neg hc, List.map_cons, ih]

lemma dedupObsGo_mem (seen : List Str) (l : List ObsoleteTranslation) :
    ∀ o ∈ dedupObsGo seen l, o ∈ l := by
  induction l generalizing seen with
  | nil => intro o hm; exact absurd hm (by simp [dedupObsGo])
  | cons x rest ih =>
    intro o hm
    simp only [dedupObsGo] at hm
    by_cases hc : seen.contains (jsonCompact (formatObsItem x)) = true
    · rw [if_pos hc] at hm
      exact List.mem_cons_of_mem _ (ih seen o hm)
    · rw [if_neg hc] at hm
      cases List.mem_cons.mp hm with
      | inl h0 => exact h0 ▸ List.mem_cons_self _ _
      | inr h0 => exact List.mem_cons_of_mem _ (ih _ o h0)

/-- The canonical database rebuilt by `parse` from `formatJson` output:
files keyed by the round-tripped filename in sorted order, records and sets
canonicalized, obsolete entries deduplicated and canonicalized. -/
def canonDb (d : TranslationData) (base : Str) : TranslationData :=
  ⟨(sortPairs (d.files.map (fun ff => (filenameToJson base ff.1, ff.2)))).map
     (fun ff => (filenameFromJson base ff.1, canonFile ff.2)),
   (dedupObsGo [] d.obsolete).map canonObs, 2⟩

lemma parse_format (d : TranslationData) (base : Str)
    (hN : (d.files.map (fun ff => filenameToJson base ff.1)).Nodup)
    (hA : ∀ ff ∈ d.files, isAbsolutePath (filenameToJson base ff.1) = false)
    (hC : ∀ ff ∈ d.files, (ff.2.content.map Prod.fst).Nodup)
    (hT : ∀ ff ∈ d.files, ∀ kts ∈ ff.2.content, (kts.2.translations.map Prod.fst).Nodup)
    (hO : ∀ o ∈ d.obsolete, (o.translations.map Prod.fst).Nodup) :
    parseValue (formatValue d base) base = .ok (canonDb d base) := by
  have key : parseValue (formatValue d base) base
      = (match parseFilesGo base [] (buildFilesObj (sortPairs
            (d.files.map (fun ff => (filenameToJson base ff.1, ff.2))))) with
         | .ok files =>
           match parseObsGo (dedupGo [] (d.obsolete.map formatObsItem)) with
           | .ok obsolete => Except.ok ⟨files, obsolete, 2⟩
           | .error e => Except.error e
         | .error e => Except.error e) := rfl
  rw [key]
  have hLkeys : ((d.files.map (fun ff => (filenameToJson base ff.1, ff.2))).map Prod.fst)
      = d.files.map (fun ff => filenameToJson base ff.1) := by
    simp only [List.map_map]
    rfl
  have hNL : (((sortPairs (d.files.map (fun ff => (filenameToJson base ff.1, ff.2)))).map
      Prod.fst)).Nodup := by
    refine ((sortPairs_perm _).map Prod.fst).nodup_iff.mpr ?_
    rw [hLkeys]
    exact hN
  have hmemL : ∀ ff ∈ sortPairs (d.files.map (fun ff => (filenameToJson base ff.1, ff.2))),
      ∃ orig ∈ d.files, ff = (filenameToJson base orig.1, orig.2) := by
    intro ff hm
    have hm2 := (sortPairs_perm _).mem_iff.mp hm
    obtain ⟨orig, ho, he⟩ := List.mem_map.mp hm2
    exact ⟨orig, ho, he.symm⟩
  rw [buildFilesObj_nodup _ hNL]
  rw [parseFilesGo_format base _ []
    (fun ff hm => by
      obtain ⟨orig, ho, he⟩ := hmemL ff hm
      rw [he]
      exact hA orig ho)
    (fun ff hm => by
      obtain ⟨orig, ho, he⟩ := hmemL ff hm
      rw [he]
      exact hC orig ho)
    (fun ff hm => by
      obtain ⟨orig, ho, he⟩ := hmemL ff hm
      rw [he]
      exact hT orig ho)]
  rw [dedupObs_eq]
  rw [parseObsGo_format _ (fun o hm => hO o (dedupObsGo_mem [] d.obsolete o hm))]
  have hfold : (sortPairs (d.files.map (fun ff => (filenameToJson base ff.1, ff.2)))).foldl
      (fun a ff => JsMap.set a (filenameFromJson base ff.1) (canonFile ff.2)) []
      = (sortPairs (d.files.map (fun ff => (filenameToJson base ff.1, ff.2)))).map
          (fun ff => (filenameFromJson base ff.1, canonFile ff.2)) := by
    refine foldl_set_map_nodup _
      (fun (ff : Str × TDFile) => (filenameFromJson base ff.1, canonFile ff.2)) ?_
    simp only [List.map_map]
    have hcomp : ((sortPairs (d.files.map (fun ff => (filenameToJson base ff.1, ff.2)))).map
        (Prod.fst ∘ fun ff => (filenameFromJson base ff.1, canonFile ff.2)))
        = ((sortPairs (d.files.map (fun ff => (filenameToJson base ff.1, ff.2)))).map
            Prod.fst).map (filenameFromJson base) := by
      simp only [List.map_map]
      rfl
    rw [hcomp]
    exact hNL.map (fromJson_injective base)
  rw [hfold]
  rfl

lemma format_canonDb (d : TranslationData) (base : Str)
    (hN : (d.files.map (fun ff => filenameToJson base ff.1)).Nodup) :
    formatValue (canonDb d base) base = formatValue d base := by
  unfold formatValue canonDb
  have hLkeys : ((d.files.map (fun ff => (filenameToJson base ff.1, ff.2))).map Prod.fst)
      = d.files.map (fun ff => filenameToJson base ff.1) := by
    simp only [List.map_map]
    rfl
  have hNL : (((sortPairs (d.files.map (fun ff => (filenameToJson base ff.1, ff.2)))).map
      Prod.fst)).Nodup := by
    refine ((sortPairs_perm _).map Prod.fst).nodup_iff.mpr ?_
    rw [hLkeys]
    exact hN
  have hmemL : ∀ ff ∈ sortPairs (d.files.map (fun ff => (filenameToJson base ff.1, ff.2))),
      ∃ orig ∈ d.files, ff = (filenameToJson base orig.1, orig.2) := by
    intro ff hm
    have hm2 := (sortPairs_perm _).mem_iff.mp hm
    obtain ⟨orig, ho, he⟩ := List.mem_map.mp hm2
    exact ⟨orig, ho, he.symm⟩
  have hback : (((sortPairs (d.files.map (fun ff => (filenameToJson base ff.1, ff.2)))).map
      (fun ff => (filenameFromJson base ff.1, canonFile ff.2))).map
      (fun ff => (filenameToJson base ff.1, ff.2)))
      = (sortPairs (d.files.map (fun ff => (filenameToJson base ff.1, ff.2)))).map
          (fun ff => (ff.1, canonFile ff.2)) := by
    simp only [List.map_map]
    refine List.map_congr_left ?_
    intro ff hm
    show (filenameToJson base (filenameFromJson base ff.1), canonFile ff.2)
      = (ff.1, canonFile ff.2)
    obtain ⟨orig, _, he⟩ := hmemL ff hm
    rw [toJson_fromJson, he]
    rw [show (filenameToJson base orig.1, orig.2).1 = filenameToJson base orig.1 from rfl,
      replBackslash_toJson]
  rw [hback]
  have hsorted : sortPairs ((sortPairs (d.files.map
      (fun ff => (filenameToJson base ff.1, ff.2)))).map (fun ff => (ff.1, canonFile ff.2)))
      = (sortPairs (d.files.map (fun ff => (filenameToJson base ff.1, ff.2)))).map
          (fun ff => (ff.1, canonFile ff.2)) := by
    rw [sortPairs_map_val (fun p => canonFile p.2), sortPairs_idem]
  rw [hsorted]
  have hNL2 : ((((sortPairs (d.files.map (fun ff => (filenameToJson base ff.1, ff.2)))).map
      (fun ff => (ff.1, canonFile ff.2)))).map Prod.fst).Nodup := by
    have hcomp : ((((sortPairs (d.files.map (fun ff => (filenameToJson base ff.1, ff.2)))).map
        (fun ff => (ff.1, canonFile ff.2)))).map Prod.fst)
        = ((sortPairs (d.files.map (fun ff => (filenameToJson base ff.1, ff.2)))).map
            Prod.fst) := by
      simp only [List.map_map]
      rfl
    rw [hcomp]
    exact hNL
  rw [buildFilesObj_nodup _ hNL2, buildFilesObj_nodup _ hNL]
  have hfiles : (((sortPairs (d.files.map (fun ff => (filenameToJson base ff.1, ff.2)))).map
      (fun ff => (ff.1, canonFile ff.2))).map (fun ff => (ff.1, formatFileJson ff.2)))
      = (sortPairs (d.files.map (fun ff => (filenameToJson base ff.1, ff.2)))).map
          (fun ff => (ff.1, formatFileJson ff.2)) := by
    simp only [List.map_map]
    refine List.map_congr_left ?_
    intro ff _
    show (ff.1, formatFileJson (canonFile ff.2)) = (ff.1, formatFileJson ff.2)
    rw [formatFileJson_canon]
  rw [hfiles]
  have hobs : (((dedupObsGo [] d.obsolete).map canonObs).map formatObsItem)
      = (dedupObsGo [] d.obsolete).map formatObsItem := by
    simp only [List.map_map]
    refine List.map_congr_left ?_
    intro o _
    exact formatObsItem_canon o
  rw [hobs, ← dedupObs_eq, dedup_idem]

end TranslationData

/-- **C5.** For every translation database `d` and base path `base` such that
the `Map` representation invariants hold (no duplicate keys in any content,
translations or obsolete-translations map, and no two files serializing to
the same relative name) and every file serializes to a relative name (the
regime in which `node:path` is modelled), parsing the output of
`formatJson d base` with `parse(·, base)` succeeds and yields a database
whose own `formatJson` output is byte-identical to the first serialization. -/
theorem c5_parse_format_roundtrip (d : TranslationData) (base : Str)
    (hN : (d.files.map (fun ff => filenameToJson base ff.1)).Nodup)
    (hA : ∀ ff ∈ d.files, isAbsolutePath (filenameToJson base ff.1) = false)
    (hC : ∀ ff ∈ d.files, (ff.2.content.map Prod.fst).Nodup)
    (hT : ∀ ff ∈ d.files, ∀ kts ∈ ff.2.content, (kts.2.translations.map Prod.fst).Nodup)
    (hO : ∀ o ∈ d.obsolete, (o.translations.map Prod.fst).Nodup) :
    ∃ d2 : TranslationData,
      TranslationData.parseValue (TranslationData.formatValue d base) base = .ok d2
        ∧ TranslationData.formatJson d2 base = TranslationData.formatJson d base :=
  ⟨TranslationData.canonDb d base, TranslationData.parse_format d base hN hA hC hT hO, by
    unfold TranslationData.formatJson
    rw [TranslationData.format_canonDb d base hN]⟩

/-- A concrete database exercising every serialized shape: one file with one
key, a source value, one translation, one obsolete entry. -/
def c5exDb : TranslationData :=
  ⟨[("proj/a.html".data,
     ⟨[("app.k".data,
        ⟨⟨"Hello".data, 5, ["Foo".data]⟩,
         [("de".data, ⟨"Hallo".data, 7, []⟩)]⟩)]⟩)],
   [⟨"Old".data, [("de".data, "Alt".data)]⟩],
   2⟩

theorem c5_parse_format_roundtrip_witness :
    ((c5exDb.files.map (fun ff => filenameToJson "proj".data ff.1)).Nodup
      ∧ (∀ ff ∈ c5exDb.files, isAbsolutePath (filenameToJson "proj".data ff.1) = false)
      ∧ (∀ ff ∈ c5exDb.files, (ff.2.content.map Prod.fst).Nodup)
      ∧ (∀ ff ∈ c5exDb.files, ∀ kts ∈ ff.2.content,
          (kts.2.translations.map Prod.fst).Nodup)
      ∧ (∀ o ∈ c5exDb.obsolete, (o.translations.map Prod.fst).Nodup))
    ∧ (∃ d2 : TranslationData,
        TranslationData.parseValue (TranslationData.formatValue c5exDb "proj".data)
            "proj".data = .ok d2
          ∧ TranslationData.formatJson d2 "proj".data
              = TranslationData.formatJson c5exDb "proj".data) :=
  ⟨⟨by decide, by decide, by decide, by decide, by decide⟩,
   c5_parse_format_roundtrip c5exDb "proj".data
     (by decide) (by decide) (by decide) (by decide) (by decide)⟩

namespace TranslationData

lemma buildFilesObj_sorted_eq (d1 d2 : TranslationData) (base : Str)
    (hN1 : (d1.files.map (fun ff => filenameToJson base ff.1)).Nodup)
    (hp : (d1.files.map (fun ff => (filenameToJson base ff.1, canonFile ff.2))).Perm
          (d2.files.map (fun ff => (filenameToJson base ff.1, canonFile ff.2)))) :
    buildFilesObj (sortPairs (d1.files.map (fun ff => (filenameToJson base ff.1, ff.2))))
      = buildFilesObj (sortPairs (d2.files.map
          (fun ff => (filenameToJson base ff.1, ff.2)))) := by
  have hN2 : (d2.files.map (fun ff => filenameToJson base ff.1)).Nodup := by
    have hk := hp.map Prod.fst
    simp only [List.map_map] at hk
    exact (hk.nodup_iff).mp (by simpa [List.map_map] using hN1)
  have hNLi : ∀ (d : TranslationData),
      (d.files.map (fun ff => filenameToJson base ff.1)).Nodup →
      ((sortPairs (d.files.map (fun ff => (filenameToJson base ff.1, ff.2)))).map
        Prod.fst).Nodup := by
    intro d hN
    refine ((sortPairs_perm _).map Prod.fst).nodup_iff.mpr ?_
    simpa [List.map_map] using hN
  rw [buildFilesObj_nodup _ (hNLi d1 hN1), buildFilesObj_nodup _ (hNLi d2 hN2)]
  rw [← sortPairs_map_val (fun p => formatFileJson p.2),
    ← sortPairs_map_val (fun p => formatFileJson p.2)]
  have hmapped : ∀ (d : TranslationData),
      ((d.files.map (fun ff => (filenameToJson base ff.1, ff.2))).map
        (fun p => (p.1, formatFileJson p.2)))
      = ((d.files.map (fun ff => (filenameToJson base ff.1, canonFile ff.2))).map
          (fun p => (p.1, formatFileJson p.2))) := by
    intro d
    simp only [List.map_map]
    refine List.map_congr_left ?_
    intro ff _
    show (filenameToJson base ff.1, formatFileJson ff.2)
      = (filenameToJson base ff.1, formatFileJson (canonFile ff.2))
    rw [formatFileJson_canon]
  rw [hmapped d1, hmapped d2]
  refine sorted_perm_eq _ _ ?_ (sortPairs_sorted _) (sortPairs_sorted _) ?_
  · exact ((sortPairs_perm _).trans (hp.map _)).trans (sortPairs_perm _).symm
  · refine ((sortPairs_perm _).map Prod.fst).nodup_iff.mpr ?_
    simpa [List.map_map] using hN1

end TranslationData

/-- **C6.** Serialization is insertion-order independent: if two databases
hold the same facts — their file lists agree as multisets after
canonicalizing each record (same serialized name, same keys, locales,
contents, timestamps and spelling ignores regardless of map insertion
order), and their obsolete arrays agree entrywise up to inner map order —
and the first database's serialized names are duplicate-free (the `Map`
invariant), then `formatJson` produces byte-identical output for both. -/
theorem c6_format_insertion_order_independent (d1 d2 : TranslationData) (base : Str)
    (hN1 : (d1.files.map (fun ff => filenameToJson base ff.1)).Nodup)
    (hp : (d1.files.map (fun ff => (filenameToJson base ff.1,
            TranslationData.canonFile ff.2))).Perm
          (d2.files.map (fun ff => (filenameToJson base ff.1,
            TranslationData.canonFile ff.2))))
    (hobs : d1.obsolete.map TranslationData.canonObs
          = d2.obsolete.map TranslationData.canonObs) :
    TranslationData.formatJson d1 base = TranslationData.formatJson d2 base := by
  unfold TranslationData.formatJson
  have hval : TranslationData.formatValue d1 base = TranslationData.formatValue d2 base := by
    unfold TranslationData.formatValue
    rw [TranslationData.buildFilesObj_sorted_eq d1 d2 base hN1 hp]
    have hobs2 : d1.obsolete.map TranslationData.formatObsItem
        = d2.obsolete.map TranslationData.formatObsItem := by
      have h1 : ∀ (d : TranslationData), d.obsolete.map TranslationData.formatObsItem
          = (d.obsolete.map TranslationData.canonObs).map TranslationData.formatObsItem := by
        intro d
        simp only [List.map_map]
        refine List.map_congr_left ?_
        intro o _
        exact (TranslationData.formatObsItem_canon o).symm
      rw [h1 d1, h1 d2, hobs]
    rw [hobs2]
  rw [hval]

/-- A database holding the same facts as `c5exDb`, populated in a different
order: the translations map of the obsolete entry gets a second locale in
both, inserted in opposite orders, and the file list is reversed. -/
def c6exDb1 : TranslationData :=
  ⟨[("proj/a.html".data, ⟨[("app.k".data,
      ⟨⟨"A".data, 5, []⟩, [("de".data, ⟨"De".data, 7, []⟩),
        ("en".data, ⟨"En".data, 8, []⟩)]⟩)]⟩),
    ("proj/b.html".data, ⟨[]⟩)],
   [⟨"Old".data, [("de".data, "Alt".data), ("en".data, "Old".data)]⟩],
   2⟩

def c6exDb2 : TranslationData :=
  ⟨[("proj/b.html".data, ⟨[]⟩),
    ("proj/a.html".data, ⟨[("app.k".data,
      ⟨⟨"A".data, 5, []⟩, [("en".data, ⟨"En".data, 8, []⟩),
        ("de".data, ⟨"De".data, 7, []⟩)]⟩)]⟩)],
   [⟨"Old".data, [("en".data, "Old".data), ("de".data, "Alt".data)]⟩],
   2⟩

theorem c6_format_insertion_order_independent_witness :
    ((c6exDb1.files.map (fun ff => filenameToJson "proj".data ff.1)).Nodup
      ∧ (c6exDb1.files.map (fun ff => (filenameToJson "proj".data ff.1,
          TranslationData.canonFile ff.2))).Perm
        (c6exDb2.files.map (fun ff => (filenameToJson "proj".data ff.1,
          TranslationData.canonFile ff.2)))
      ∧ c6exDb1.obsolete.map TranslationData.canonObs
          = c6exDb2.obsolete.map TranslationData.canonObs
      ∧ c6exDb1 ≠ c6exDb2)
    ∧ TranslationData.formatJson c6exDb1 "proj".data
        = TranslationData.formatJson c6exDb2 "proj".data :=
  ⟨⟨by decide, by decide, by decide, by decide⟩,
   c6_format_insertion_order_independent c6exDb1 c6exDb2 "proj".data
     (by decide) (by decide) (by decide)⟩

/-! ## Key justification (`src/aurelia-template-file.ts`, `justifyKeys`)

`justifyKeys` first collects every candidate element (those with a localized
element configuration) together with its parsed original `t` attribute, adds
all original i18n keys to `knownKeys`, then rebuilds each candidate's
attribute with `getUniqueKey`.  We model a candidate abstractly (content
configuration, text presence, configured attribute list, original attribute,
attribute values) and the key-state mutation explicitly.  The generation
do-while loop gets explicit fuel (in JS an adversarial `isReserved` can make
it diverge); all statements are about runs that return. -/

/-- `ElementContentLocalizationType` of the configuration. -/
inductive ElemContent : Type
  | cnone
  | chtml
  | ctext
deriving DecidableEq

/-- The attribute target name written for localized content. -/
def contentName : ElemContent → Str
  | .cnone => []
  | .chtml => htmlS
  | .ctext => textS

/-- One justification candidate: an element with a localized element
configuration. -/
structure JElem where
  hasText : Bool
  contentType : ElemContent
  cfgAttrs : List Str
  originalAttr : Option (JsMap Str Str)
  attrValues : JsMap Str Str
deriving DecidableEq

/-- JS truthiness of a string that may be `undefined`. -/
def isTruthy : Option Str → Bool
  | some s => !s.isEmpty
  | none => false

/-- JS `a || b` on possibly-undefined strings. -/
def jsOrS (a b : Option Str) : Option Str :=
  if isTruthy a then a else b

/-- `Set.prototype.add` on an insertion-ordered set. -/
def addSet (l : List Str) (k : Str) : List Str :=
  if l.contains k then l else l ++ [k]

/-- The mutable state captured by `justifyKeys`'s closures. -/
structure KState where
  knownKeys : List Str
  nextPostfix : Nat
  generatedKeys : List Str
  replacedKeys : JsMap Str (List Str)
deriving DecidableEq

/-- `mustBeReplaced` of `getUniqueKey`. -/
def mustBeReplaced (pfx : Str) (isReserved : Str → Bool) (k : Str) : Bool :=
  !(pfx.isPrefixOf k) || isReserved k

/-- The `do { key = prefix + "t" + nextPostfix++ } while (...)` loop, with
fuel. -/
def genKeyLoop (pfx : Str) (isReserved : Str → Bool) (known : List Str) :
    Nat → Nat → Option (Str × Nat)
  | 0, _ => none
  | fuel + 1, n =>
    let k := pfx ++ 't' :: natToStr n
    if known.contains k || mustBeReplaced pfx isReserved k then
      genKeyLoop pfx isReserved known fuel (n + 1)
    else some (k, n + 1)

/-- Model of `getUniqueKey`: keep a preferred key that is truthy, not yet
generated, correctly prefixed and unreserved; otherwise generate a fresh
one; record it as known and generated, and as a replacement when the
preferred key was rejected for prefix or reservation. -/
def getUniqueKey (fuel : Nat) (pfx : Str) (isReserved : Str → Bool) (st : KState)
    (preferred : Option Str) : Option (Str × KState) :=
  let replace := isTruthy preferred
      && mustBeReplaced pfx isReserved (preferred.getD [])
  let needGen := !isTruthy preferred
      || st.generatedKeys.contains (preferred.getD []) || replace
  let keyRes : Option (Str × Nat) :=
    if needGen then genKeyLoop pfx isReserved st.knownKeys fuel st.nextPostfix
    else some (preferred.getD [], st.nextPostfix)
  match keyRes with
  | none => none
  | some (k, n2) =>
    let rep : JsMap Str (List Str) :=
      if replace then
        match JsMap.get st.replacedKeys (preferred.getD []) with
        | some ks => JsMap.set st.replacedKeys (preferred.getD []) (addSet ks k)
        | none => JsMap.set st.replacedKeys (preferred.getD []) [k]
      else st.replacedKeys
    some (k, ⟨addSet st.knownKeys k, n2, addSet st.generatedKeys k, rep⟩)

/-- The `for (const attributeName of elementConfig.attributes)` loop. -/
def attrLoop (fuel : Nat) (pfx : Str) (isReserved ignoreVal : Str → Bool) (c : JElem)
    (attr : JsMap Str Str) (st : KState) :
    List Str → Option (JsMap Str Str × KState)
  | [] => some (attr, st)
  | name :: rest =>
    match JsMap.get c.attrValues name with
    | some v =>
      if ignoreVal v then attrLoop fuel pfx isReserved ignoreVal c attr st rest
      else
        match getUniqueKey fuel pfx isReserved st
            (c.originalAttr.bind (fun m => JsMap.get m name)) with
        | some (k, st2) =>
          attrLoop fuel pfx isReserved ignoreVal c (attrSet attr name k) st2 rest
        | none => none
    | none => attrLoop fuel pfx isReserved ignoreVal c attr st rest

/-- Rebuild one candidate's attribute: content key first (preserved verbatim
for `content: none`, justified otherwise), then the configured attributes. -/
def processCandidate (fuel : Nat) (pfx : Str) (isReserved ignoreVal : Str → Bool)
    (st : KState) (c : JElem) : Option (JsMap Str Str × KState) :=
  let htmlKey := c.originalAttr.bind (fun m => JsMap.get m htmlS)
  let textKey := c.originalAttr.bind (fun m => JsMap.get m textS)
  let step1 : Option (JsMap Str Str × KState) :=
    match c.contentType with
    | .cnone =>
      if isTruthy htmlKey then some (attrSet [] htmlS (htmlKey.getD []), st)
      else if isTruthy textKey then some (attrSet [] textS (textKey.getD []), st)
      else some ([], st)
    | ct =>
      if c.hasText || isTruthy htmlKey || isTruthy textKey then
        match getUniqueKey fuel pfx isReserved st (jsOrS htmlKey textKey) with
        | some (k, st2) => some (attrSet [] (contentName ct) k, st2)
        | none => none
      else some ([], st)
  match step1 with
  | none => none
  | some (attr1, st1) => attrLoop fuel pfx isReserved ignoreVal c attr1 st1 c.cfgAttrs

/-- One element of the traversal in document order.  An element whose tag
has a localized-element configuration becomes a justification candidate; an
element without one is left untouched by the commit loop — it only receives
`UnlocalizedText` / `DisallowedTAttribute` diagnostics, and whatever `t`
attribute it carries (here: its parsed key map, `none` when absent or
unparseable) survives verbatim. -/
inductive PageElem : Type
  | localized (c : JElem)
  | unlocalized (originalAttr : Option (JsMap Str Str))
deriving DecidableEq

/-- The candidates pushed by the discovery pass, in document order. -/
def candidatesOf : List PageElem → List JElem
  | [] => []
  | .localized c :: rest => c :: candidatesOf rest
  | .unlocalized _ :: rest => candidatesOf rest

/-- `knownKeys` after the discovery pass: every i18n key of every parsed
original attribute of a candidate (`attribute.keys()` iterates the map's
values; keys of non-candidate elements are not collected). -/
def initKnown (cands : List JElem) : List Str :=
  cands.foldl (fun acc c =>
    match c.originalAttr with
    | some m => m.foldl (fun a kv => addSet a kv.2) acc
    | none => acc) []

/-- The commit loop in document order: candidates get a rebuilt attribute
and mutate the key state; unlocalized elements keep their original
attribute and leave the state alone. -/
def pageLoop (fuel : Nat) (pfx : Str) (isReserved ignoreVal : Str → Bool)
    (st : KState) : List PageElem → Option (List (JsMap Str Str) × KState)
  | [] => some ([], st)
  | .localized c :: rest =>
    match processCandidate fuel pfx isReserved ignoreVal st c with
    | some (attr, st2) =>
      match pageLoop fuel pfx isReserved ignoreVal st2 rest with
      | some (results, st3) => some (attr :: results, st3)
      | none => none
    | none => none
  | .unlocalized a :: rest =>
    match pageLoop fuel pfx isReserved ignoreVal st rest with
    | some (results, st3) => some (a.getD [] :: results, st3)
    | none => none

/-- Model of `justifyKeys` over the whole element list: discovery pass
(candidates and known keys), then the commit loop.  The returned list holds
each element's resulting `t` attribute map, in document order. -/
def justifyPageModel (fuel : Nat) (pfx : Str) (isReserved ignoreVal : Str → Bool)
    (elems : List PageElem) : Option (List (JsMap Str Str) × KState) :=
  pageLoop fuel pfx isReserved ignoreVal ⟨initKnown (candidatesOf elems), 0, [], []⟩ elems

/-- A candidate that does not hit the `content: none` verbatim-preservation
branch: either its content is localized, or its original attribute carries
neither an `html` nor a `text` key. -/
def SafeCandidate (c : JElem) : Prop :=
  c.contentType = ElemContent.cnone →
    isTruthy (c.originalAttr.bind (fun m => JsMap.get m htmlS)) = false
      ∧ isTruthy (c.originalAttr.bind (fun m => JsMap.get m textS)) = false

instance (c : JElem) : Decidable (SafeCandidate c) := by
  unfold SafeCandidate
  infer_instance

/-- An element that does not preserve any original key verbatim: a localized
element outside the `content: none` carve-out, or an unlocalized element
whose `t` attribute carries no keys. -/
def SafePageElem : PageElem → Prop
  | .localized c => SafeCandidate c
  | .unlocalized a => a.getD [] = []

instance (e : PageElem) : Decidable (SafePageElem e) := by
  cases e with
  | localized c => exact inferInstanceAs (Decidable (SafeCandidate c))
  | unlocalized a => exact inferInstanceAs (Decidable (a.getD [] = []))

lemma mem_addSet (l : List Str) (k x : Str) : x ∈ addSet l k ↔ x ∈ l ∨ x = k := by
  unfold addSet
  by_cases hc : l.contains k = true
  · rw [if_pos hc]
    have hk : k ∈ l := by simpa using hc
    constructor
    · exact fun h => Or.inl h
    · intro h
      cases h with
      | inl h => exact h
      | inr h => exact h ▸ hk
  · rw [if_neg hc]
    simp

lemma genKeyLoop_fresh (pfx : Str) (res : Str → Bool) (known : List Str) :
    ∀ (fuel n : Nat) (k : Str) (n2 : Nat),
      genKeyLoop pfx res known fuel n = some (k, n2) → k ∉ known := by
  intro fuel
  induction fuel with
  | zero => intro n k n2 h; exact absurd h (by simp [genKeyLoop])
  | succ f ih =>
    intro n k n2 h
    simp only [genKeyLoop] at h
    by_cases hc : (known.contains (pfx ++ 't' :: natToStr n)
        || mustBeReplaced pfx res (pfx ++ 't' :: natToStr n)) = true
    · rw [if_pos hc] at h
      exact ih _ _ _ h
    · rw [if_neg hc] at h
      cases h
      intro hmem
      have hcon : known.contains (pfx ++ 't' :: natToStr n) = true := by simpa using hmem
      exact hc (by rw [hcon]; simp)

lemma getUniqueKey_spec (fuel : Nat) (pfx : Str) (res : Str → Bool) (st : KState)
    (pref : Option Str) (k : Str) (st2 : KState)
    (h : getUniqueKey fuel pfx res st pref = some (k, st2))
    (hsub : ∀ x ∈ st.generatedKeys, x ∈ st.knownKeys) :
    k ∉ st.generatedKeys
      ∧ st2.generatedKeys = addSet st.generatedKeys k
      ∧ st2.knownKeys = addSet st.knownKeys k := by
  simp only [getUniqueKey] at h
  by_cases hng : (!isTruthy pref || st.generatedKeys.contains (pref.getD [])
      || (isTruthy pref && mustBeReplaced pfx res (pref.getD []))) = true
  · rw [if_pos hng] at h
    cases hgl : genKeyLoop pfx res st.knownKeys fuel st.nextPostfix with
    | none => rw [hgl] at h; exact absurd h (by simp)
    | some p =>
      obtain ⟨k0, n0⟩ := p
      rw [hgl] at h
      cases h
      refine ⟨?_, rfl, rfl⟩
      intro hm
      exact genKeyLoop_fresh _ _ _ _ _ _ _ hgl (hsub _ hm)
  · rw [if_neg hng] at h
    cases h
    refine ⟨?_, rfl, rfl⟩
    intro hm
    have hcon : st.generatedKeys.contains (pref.getD []) = true := by simpa using hm
    exact hng (by rw [hcon]; simp)

lemma values_set (m : JsMap Str Str) (n k : Str) :
    ∀ v ∈ (JsMap.set m n k).map Prod.snd, v ∈ m.map Prod.snd ∨ v = k := by
  induction m with
  | nil => intro v hv; simp [JsMap.set] at hv; exact Or.inr hv
  | cons hd tl ih =>
    obtain ⟨k0, v0⟩ := hd
    intro v hv
    by_cases h0 : k0 = n
    · simp only [JsMap.set, if_pos h0, List.map_cons, List.mem_cons] at hv
      cases hv with
      | inl h => exact Or.inr h
      | inr h =>
        refine Or.inl ?_
        rw [List.map_cons]
        exact List.mem_cons.mpr (Or.inr h)
    · simp only [JsMap.set, if_neg h0, List.map_cons, List.mem_cons] at hv
      cases hv with
      | inl h =>
        refine Or.inl ?_
        rw [List.map_cons]
        exact List.mem_cons.mpr (Or.inl h)
      | inr h =>
        cases ih v h with
        | inl h2 =>
          refine Or.inl ?_
          rw [List.map_cons]
          exact List.mem_cons.mpr (Or.inr h2)
        | inr h2 => exact Or.inr h2

lemma values_del (m : JsMap Str Str) (n : Str) :
    ∀ v ∈ (JsMap.del m n).map Prod.snd, v ∈ m.map Prod.snd := by
  induction m with
  | nil => intro v hv; simp [JsMap.del] at hv
  | cons hd tl ih =>
    obtain ⟨k0, v0⟩ := hd
    intro v hv
    by_cases h0 : k0 = n
    · simp only [JsMap.del, if_pos h0] at hv
      rw [List.map_cons]
      exact List.mem_cons.mpr (Or.inr hv)
    · simp only [JsMap.del, if_neg h0, List.map_cons, List.mem_cons] at hv
      rw [List.map_cons]
      cases hv with
      | inl h => exact List.mem_cons.mpr (Or.inl h)
      | inr h => exact List.mem_cons.mpr (Or.inr (ih v h))

lemma values_attrSet (m : JsMap Str Str) (n k : Str) :
    ∀ v ∈ (attrSet m n k).map Prod.snd, v ∈ m.map Prod.snd ∨ v = k := by
  intro v hv
  unfold attrSet at hv
  by_cases h1 : n = textS
  · simp only [if_pos h1] at hv
    exact values_set m n k v (values_del _ _ v hv)
  · simp only [if_neg h1] at hv
    by_cases h2 : n = htmlS
    · simp only [if_pos h2] at hv
      exact values_set m n k v (values_del _ _ v hv)
    · simp only [if_neg h2] at hv
      exact values_set m n k v hv

lemma attrLoop_spec (fuel : Nat) (pfx : Str) (res ign : Str → Bool) (c : JElem)
    (names : List Str) :
    ∀ (attr : JsMap Str Str) (st : KState) (out : JsMap Str Str) (stOut : KState),
      attrLoop fuel pfx res ign c attr st names = some (out, stOut) →
      (∀ x ∈ st.generatedKeys, x ∈ st.knownKeys) →
      ((∀ v ∈ out.map Prod.snd, v ∈ attr.map Prod.snd
          ∨ (v ∈ stOut.generatedKeys ∧ v ∉ st.generatedKeys))
        ∧ (∀ x ∈ st.generatedKeys, x ∈ stOut.generatedKeys)
        ∧ (∀ x ∈ stOut.generatedKeys, x ∈ stOut.knownKeys)) := by
  induction names with
  | nil =>
    intro attr st out stOut h hsub
    cases h
    exact ⟨fun v hv => Or.inl hv, fun x hx => hx, hsub⟩
  | cons name rest ih =>
    intro attr st out stOut h hsub
    simp only [attrLoop] at h
    cases hv : JsMap.get c.attrValues name with
    | none =>
      rw [hv] at h
      exact ih attr st out stOut h hsub
    | some v0 =>
      rw [hv] at h
      dsimp only at h
      by_cases hig : ign v0 = true
      · rw [if_pos hig] at h
        exact ih attr st out stOut h hsub
      · rw [if_neg hig] at h
        cases hgk : getUniqueKey fuel pfx res st
            (c.originalAttr.bind (fun m => JsMap.get m name)) with
        | none => rw [hgk] at h; exact absurd h (by simp)
        | some p =>
          obtain ⟨k2, st2⟩ := p
          rw [hgk] at h
          obtain ⟨hfresh, hgen2, hknown2⟩ := getUniqueKey_spec _ _ _ _ _ _ _ hgk hsub
          have hsub2 : ∀ x ∈ st2.generatedKeys, x ∈ st2.knownKeys := by
            rw [hgen2, hknown2]
            intro x hx
            rw [mem_addSet] at hx ⊢
            cases hx with
            | inl h0 => exact Or.inl (hsub x h0)
            | inr h0 => exact Or.inr h0
          obtain ⟨hout, hmono, hsubO⟩ := ih (attrSet attr name k2) st2 out stOut h hsub2
          have hmono1 : ∀ x ∈ st.generatedKeys, x ∈ stOut.generatedKeys := by
            intro x hx
            exact hmono x (by rw [hgen2]; exact (mem_addSet _ _ _).mpr (Or.inl hx))
          refine ⟨?_, hmono1, hsubO⟩
          intro v hv2
          cases hout v hv2 with
          | inl hin =>
            cases values_attrSet attr name k2 v hin with
            | inl h0 => exact Or.inl h0
            | inr h0 =>
              subst h0
              refine Or.inr ⟨?_, hfresh⟩
              exact hmono v (by rw [hgen2]; exact (mem_addSet _ _ _).mpr (Or.inr rfl))
          | inr h0 =>
            refine Or.inr ⟨h0.1, fun hm => h0.2 ?_⟩
            rw [hgen2]
            exact (mem_addSet _ _ _).mpr (Or.inl hm)

lemma step1_then_loop (fuel : Nat) (pfx : Str) (res ign : Str → Bool) (c : JElem)
    (nm k2 : Str) (st st2 stOut : KState) (attr : JsMap Str Str)
    (hfresh : k2 ∉ st.generatedKeys)
    (hgen2 : st2.generatedKeys = addSet st.generatedKeys k2)
    (hknown2 : st2.knownKeys = addSet st.knownKeys k2)
    (hsub : ∀ x ∈ st.generatedKeys, x ∈ st.knownKeys)
    (h : attrLoop fuel pfx res ign c (attrSet [] nm k2) st2 c.cfgAttrs
      = some (attr, stOut)) :
    (∀ v ∈ attr.map Prod.snd, v ∈ stOut.generatedKeys ∧ v ∉ st.generatedKeys)
      ∧ (∀ x ∈ st.generatedKeys, x ∈ stOut.generatedKeys)
      ∧ (∀ x ∈ stOut.generatedKeys, x ∈ stOut.knownKeys) := by
  have hsub2 : ∀ x ∈ st2.generatedKeys, x ∈ st2.knownKeys := by
    rw [hgen2, hknown2]
    intro x hx
    rw [mem_addSet] at hx ⊢
    cases hx with
    | inl h0 => exact Or.inl (hsub x h0)
    | inr h0 => exact Or.inr h0
  obtain ⟨hout, hmono, hsubO⟩ := attrLoop_spec fuel pfx res ign c c.cfgAttrs _ _ _ _ h hsub2
  have hk2out : k2 ∈ stOut.generatedKeys :=
    hmono k2 (by rw [hgen2]; exact (mem_addSet _ _ _).mpr (Or.inr rfl))
  refine ⟨?_, ?_, hsubO⟩
  · intro v hv
    cases hout v hv with
    | inl hin =>
      cases values_attrSet [] nm k2 v hin with
      | inl h0 => exact absurd h0 (by simp)
      | inr h0 => exact h0 ▸ ⟨hk2out, hfresh⟩
    | inr h0 =>
      refine ⟨h0.1, fun hm => h0.2 ?_⟩
      rw [hgen2]
      exact (mem_addSet _ _ _).mpr (Or.inl hm)
  · intro x hx
    exact hmono x (by rw [hgen2]; exact (mem_addSet _ _ _).mpr (Or.inl hx))

lemma processCandidate_spec (fuel : Nat) (pfx : Str) (res ign : Str → Bool)
    (st : KState) (c : JElem) (attr : JsMap Str Str) (stOut : KState)
    (h : processCandidate fuel pfx res ign st c = some (attr, stOut))
    (hsub : ∀ x ∈ st.generatedKeys, x ∈ st.knownKeys)
    (hsafe : SafeCandidate c) :
    (∀ v ∈ attr.map Prod.snd, v ∈ stOut.generatedKeys ∧ v ∉ st.generatedKeys)
      ∧ (∀ x ∈ st.generatedKeys, x ∈ stOut.generatedKeys)
      ∧ (∀ x ∈ stOut.generatedKeys, x ∈ stOut.knownKeys) := by
  simp only [processCandidate] at h
  cases hct : c.contentType with
  | cnone =>
    rw [hct] at h
    dsimp only at h
    obtain ⟨hh, ht⟩ := hsafe hct
    rw [if_neg (by simp [hh]), if_neg (by simp [ht])] at h
    obtain ⟨hout, hmono, hsubO⟩ := attrLoop_spec fuel pfx res ign c c.cfgAttrs _ _ _ _ h hsub
    refine ⟨?_, hmono, hsubO⟩
    intro v hv
    cases hout v hv with
    | inl hin => exact absurd hin (by simp)
    | inr h0 => exact h0
  | chtml =>
    rw [hct] at h
    dsimp only at h
    by_cases hcond : (c.hasText
        || isTruthy (c.originalAttr.bind (fun m => JsMap.get m htmlS))
        || isTruthy (c.originalAttr.bind (fun m => JsMap.get m textS))) = true
    · rw [if_pos hcond] at h
      cases hgk : getUniqueKey fuel pfx res st
          (jsOrS (c.originalAttr.bind (fun m => JsMap.get m htmlS))
            (c.originalAttr.bind (fun m => JsMap.get m textS))) with
      | none => rw [hgk] at h; exact absurd h (by simp)
      | some p =>
        obtain ⟨k2, st2⟩ := p
        rw [hgk] at h
        obtain ⟨hfresh, hgen2, hknown2⟩ := getUniqueKey_spec _ _ _ _ _ _ _ hgk hsub
        exact step1_then_loop fuel pfx res ign c _ k2 st st2 stOut attr
          hfresh hgen2 hknown2 hsub h
    · rw [if_neg hcond] at h
      obtain ⟨hout, hmono, hsubO⟩ := attrLoop_spec fuel pfx res ign c c.cfgAttrs _ _ _ _ h hsub
      refine ⟨?_, hmono, hsubO⟩
      intro v hv
      cases hout v hv with
      | inl hin => exact absurd hin (by simp)
      | inr h0 => exact h0
  | ctext =>
    rw [hct] at h
    dsimp only at h
    by_cases hcond : (c.hasText
        || isTruthy (c.originalAttr.bind (fun m => JsMap.get m htmlS))
        || isTruthy (c.originalAttr.bind (fun m => JsMap.get m textS))) = true
    · rw [if_pos hcond] at h
      cases hgk : getUniqueKey fuel pfx res st
          (jsOrS (c.originalAttr.bind (fun m => JsMap.get m htmlS))
            (c.originalAttr.bind (fun m => JsMap.get m textS))) with
      | none => rw [hgk] at h; exact absurd h (by simp)
      | some p =>
        obtain ⟨k2, st2⟩ := p
        rw [hgk] at h
        obtain ⟨hfresh, hgen2, hknown2⟩ := getUniqueKey_spec _ _ _ _ _ _ _ hgk hsub
        exact step1_then_loop fuel pfx res ign c _ k2 st st2 stOut attr
          hfresh hgen2 hknown2 hsub h
    · rw [if_neg hcond] at h
      obtain ⟨hout, hmono, hsubO⟩ := attrLoop_spec fuel pfx res ign c c.cfgAttrs _ _ _ _ h hsub
      refine ⟨?_, hmono, hsubO⟩
      intro v hv
      cases hout v hv with
      | inl hin => exact absurd hin (by simp)
      | inr h0 => exact h0

lemma pageLoop_spec (fuel : Nat) (pfx : Str) (res ign : Str → Bool)
    (elems : List PageElem) :
    ∀ (st : KState) (results : List (JsMap Str Str)) (stOut : KState),
      pageLoop fuel pfx res ign st elems = some (results, stOut) →
      (∀ x ∈ st.generatedKeys, x ∈ st.knownKeys) →
      (∀ e ∈ elems, SafePageElem e) →
      ((∀ a ∈ results, ∀ v ∈ a.map Prod.snd,
          v ∈ stOut.generatedKeys ∧ v ∉ st.generatedKeys)
        ∧ (∀ x ∈ st.generatedKeys, x ∈ stOut.generatedKeys)
        ∧ (∀ x ∈ stOut.generatedKeys, x ∈ stOut.knownKeys)
        ∧ List.Pairwise (fun a b => ∀ k ∈ a.map Prod.snd, k ∉ b.map Prod.snd) results) := by
  induction elems with
  | nil =>
    intro st results stOut h hsub _
    cases h
    exact ⟨by simp, fun x hx => hx, hsub, List.Pairwise.nil⟩
  | cons e rest ih =>
    intro st results stOut h hsub hsafe
    cases e with
    | localized c =>
      simp only [pageLoop] at h
      cases hpc : processCandidate fuel pfx res ign st c with
      | none => rw [hpc] at h; exact absurd h (by simp)
      | some p =>
        obtain ⟨attr, st2⟩ := p
        rw [hpc] at h
        dsimp only at h
        cases hjl : pageLoop fuel pfx res ign st2 rest with
        | none => rw [hjl] at h; exact absurd h (by simp)
        | some q =>
          obtain ⟨results2, st3⟩ := q
          rw [hjl] at h
          cases h
          obtain ⟨hattr, hmono1, hsub2⟩ :=
            processCandidate_spec fuel pfx res ign st c attr st2 hpc hsub
              (hsafe (.localized c) (by simp))
          obtain ⟨hrest, hmono2, hsub3, hpair⟩ := ih st2 results2 stOut hjl hsub2
            (fun e2 hm => hsafe e2 (List.mem_cons_of_mem _ hm))
          refine ⟨?_, fun x hx => hmono2 x (hmono1 x hx), hsub3, ?_⟩
          · intro a ha v hv
            cases List.mem_cons.mp ha with
            | inl h0 =>
              subst h0
              exact ⟨hmono2 v (hattr v hv).1, (hattr v hv).2⟩
            | inr h0 =>
              obtain ⟨h1, h2⟩ := hrest a h0 v hv
              exact ⟨h1, fun hm => h2 (hmono1 v hm)⟩
          · refine List.Pairwise.cons ?_ hpair
            intro b hb k hk
            intro hkb
            obtain ⟨_, hnot⟩ := hrest b hb k hkb
            exact hnot (hattr k hk).1
    | unlocalized a =>
      simp only [pageLoop] at h
      cases hjl : pageLoop fuel pfx res ign st rest with
      | none => rw [hjl] at h; exact absurd h (by simp)
      | some q =>
        obtain ⟨results2, st3⟩ := q
        rw [hjl] at h
        cases h
        have hempty : a.getD [] = [] := hsafe (.unlocalized a) (by simp)
        obtain ⟨hrest, hmono2, hsub3, hpair⟩ := ih st results2 stOut hjl hsub
          (fun e2 hm => hsafe e2 (List.mem_cons_of_mem _ hm))
        refine ⟨?_, hmono2, hsub3, ?_⟩
        · intro b hb v hv
          cases List.mem_cons.mp hb with
          | inl h0 =>
            subst h0
            rw [hempty] at hv
            exact absurd hv (by simp)
          | inr h0 => exact hrest b h0 v hv
        · refine List.Pairwise.cons ?_ hpair
          intro b hb k hk
          rw [hempty] at hk
          exact absurd hk (by simp)

/-- A candidate whose element configuration localizes no content but whose
original attribute carries an `html` key. -/
def c2exNone : JElem :=
  ⟨false, .cnone, [], some [(htmlS, "app.x".data)], []⟩

/-- **C2 counterexample.** Two distinct elements configured with
`content: none` that both carry `t="[html]app.x"` keep the key `app.x`
verbatim (the `content: none` branch of `justifyKeys` copies the original
`html`/`text` key without calling `getUniqueKey`), so after justification
two distinct elements carry the same key. -/
theorem c2_counterexample_content_none_shared_key :
    (justifyPageModel 5 "app.".data (fun _ => false) (fun _ => false)
        [.localized c2exNone, .localized c2exNone]).map Prod.fst
      = some [[(htmlS, "app.x".data)], [(htmlS, "app.x".data)]]
    ∧ ¬ List.Pairwise (fun a b => ∀ k ∈ a.map Prod.snd, k ∉ b.map Prod.snd)
        [[(htmlS, "app.x".data)], ([(htmlS, "app.x".data)] : JsMap Str Str)] := by
  constructor
  · decide
  · decide

/-- **C2 (amended).** After `justifyKeys` completes on a run in which no
element preserves an original key verbatim — every localized element is
outside the `content: none` carve-out (it localizes content or carries no
original `html`/`text` key), and every element without a localized-element
configuration carries no `t`-attribute keys (such elements are skipped by
the commit loop and keep their attribute unchanged, receiving only a
`DisallowedTAttribute` diagnostic) — no two distinct elements carry the
same key in their resulting `t` attributes: every written key then comes
from `getUniqueKey`, which never returns a key it has generated before. -/
theorem c2_amended_justify_unique (fuel : Nat) (pfx : Str)
    (isReserved ignoreVal : Str → Bool) (elems : List PageElem)
    (results : List (JsMap Str Str)) (stOut : KState)
    (hrun : justifyPageModel fuel pfx isReserved ignoreVal elems = some (results, stOut))
    (hsafe : ∀ e ∈ elems, SafePageElem e) :
    List.Pairwise (fun a b => ∀ k ∈ a.map Prod.snd, k ∉ b.map Prod.snd) results :=
  (pageLoop_spec fuel pfx isReserved ignoreVal elems _ results stOut hrun
    (fun x hx => absurd hx (List.not_mem_nil x)) hsafe).2.2.2

/-- A content-localized element with an original preferred key and one
configured attribute. -/
def c2exA : JElem :=
  ⟨true, .chtml, ["title".data], some [(htmlS, "app.x".data)],
   [("title".data, "T".data)]⟩

/-- A text-localized element with no original attribute and one configured
attribute. -/
def c2exB : JElem :=
  ⟨true, .ctext, ["alt".data], none, [("alt".data, "A".data)]⟩

/-- The final key state of the witness run. -/
def c2exSt : KState :=
  ⟨["app.x".data, "app.t0".data, "app.t1".data, "app.t2".data], 3,
   ["app.x".data, "app.t0".data, "app.t1".data, "app.t2".data], []⟩

theorem c2_amended_justify_unique_witness :
    (justifyPageModel 9 "app.".data (fun _ => false) (fun _ => false)
        [.localized c2exA, .unlocalized none, .localized c2exB]
        = some ([[(htmlS, "app.x".data), ("title".data, "app.t0".data)],
                 [],
                 [(textS, "app.t1".data), ("alt".data, "app.t2".data)]], c2exSt))
      ∧ (∀ e ∈ ([.localized c2exA, .unlocalized none, .localized c2exB] :
          List PageElem), SafePageElem e)
      ∧ List.Pairwise (fun a b => ∀ k ∈ a.map Prod.snd, k ∉ b.map Prod.snd)
          [[(htmlS, "app.x".data), ("title".data, "app.t0".data)],
           [],
           [(textS, "app.t1".data), ("alt".data, "app.t2".data)]] :=
  ⟨by decide, by decide,
   c2_amended_justify_unique 9 "app.".data (fun _ => false) (fun _ => false)
     [.localized c2exA, .unlocalized none, .localized c2exB]
     [[(htmlS, "app.x".data), ("title".data, "app.t0".data)],
      [],
      [(textS, "app.t1".data), ("alt".data, "app.t2".data)]]
     c2exSt (by decide) (by decide)⟩

/-! ## Project pipeline (`Project`: `updateSource` / `processSources`)

The orchestrator holds sources, a filename/key pair set, the unprocessed
set and the translation database.  Source-type-specific behavior
(`extractKeys`, `justifyKeys`) is passed in as opaque functions of the
filename and current bytes; the pipeline statements below concern runs in
which those functions are never consulted. -/

/-- The outcome of a `justifyKeys` call on a source: whether the source was
modified, its new bytes, and the replaced-keys map. -/
structure JustifyOutcome where
  modified : Bool
  newBytes : Str
  replacedKeys : List (Str × List Str)
deriving DecidableEq

/-- The project state mutated by `updateSource` and `processSources`. -/
structure ProjState where
  sources : JsMap Str Str
  unprocessed : List Str
  knownKeys : List (Str × Str)
  db : TranslationData
  dbModified : Bool
  modifiedSources : List Str
deriving DecidableEq

/-- `PairSet.add`. -/
def pairAdd (ps : List (Str × Str)) (f k : Str) : List (Str × Str) :=
  if ps.contains (f, k) then ps else ps ++ [(f, k)]

/-- `PairSet.deleteKey`. -/
def pairDeleteKey (ps : List (Str × Str)) (f : Str) : List (Str × Str) :=
  ps.filter (fun p => !(p.1 == f))

/-- `PairSet.getKeys`: the filenames holding a given key. -/
def pairGetKeys (ps : List (Str × Str)) (k : Str) : List Str :=
  (ps.filter (fun p => p.2 == k)).map Prod.fst

/-- `Project`'s private `extractKeys`: extract, replace the file's known
keys, and apply `updateKeys` to the database. -/
def extractKeysP (keysOf : Str → Str → JsMap Str Str) (now : Nat) (st : ProjState)
    (filename bytes : Str) : ProjState :=
  let keys := keysOf filename bytes
  let kk := keys.foldl (fun a kv => pairAdd a filename kv.1)
    (pairDeleteKey st.knownKeys filename)
  let md := TranslationData.updateKeys st.db filename keys now
  { st with
    knownKeys := kk
    db := md.2
    dbModified := st.dbModified || md.1 }

/-- `Project.updateSource`: store the source, and only when it is new or its
bytes differ, mark it unprocessed and extract its keys. -/
def updateSourceP (keysOf : Str → Str → JsMap Str Str) (now : Nat) (st : ProjState)
    (filename bytes : Str) : ProjState :=
  let stS := { st with sources := JsMap.set st.sources filename bytes }
  match JsMap.get st.sources filename with
  | some ob =>
    if ob = bytes then stS
    else extractKeysP keysOf now
      { stS with unprocessed := addSet stS.unprocessed filename } filename bytes
  | none => extractKeysP keysOf now
      { stS with unprocessed := addSet stS.unprocessed filename } filename bytes

/-- The seeding loop at the start of `processSources`: every database key
becomes a known key of its file. -/
def seedKnownP (st : ProjState) : ProjState :=
  { st with knownKeys := (st.db.files.foldl
      (fun kk ff => ff.2.content.foldl (fun a kv => pairAdd a ff.1 kv.1) kk)
      st.knownKeys) }

/-- One `copyTranslations` call for a replaced key. -/
def copyStep (now : Nat) (filename oldKey : Str) (st : ProjState) (newKey : Str) :
    ProjState :=
  let hints := pairGetKeys st.knownKeys oldKey
  let hf : Option (List Str) := if hints.isEmpty then none else some hints
  let bd := TranslationData.copyTranslations st.db filename oldKey newKey hf now
  { st with
    db := bd.2
    dbModified := st.dbModified || bd.1 }

/-- One iteration of the justification loop of `processSources`. -/
def justifyStepP (keysOf : Str → Str → JsMap Str Str)
    (justifyOf : Str → Str → Option JustifyOutcome) (now : Nat)
    (st : ProjState) (filename : Str) : ProjState :=
  match JsMap.get st.sources filename with
  | none => st
  | some bytes =>
    match justifyOf filename bytes with
    | none => st
    | some jr =>
      if jr.modified then
        let stc := jr.replacedKeys.foldl
          (fun s ok => ok.2.foldl (copyStep now filename ok.1) s) st
        let ste := extractKeysP keysOf now
          { stc with sources := JsMap.set stc.sources filename jr.newBytes }
          filename jr.newBytes
        { ste with modifiedSources := addSet ste.modifiedSources filename }
      else st

/-- The sweep at the end of `processSources`: delete every record whose
source is gone or whose content is empty. -/
def sweepGoP (sources : JsMap Str Str) :
    TranslationData × Bool → List (Str × TDFile) → TranslationData × Bool
  | acc, [] => acc
  | (db, m), ff :: rest =>
    if !JsMap.hasKey sources ff.1 || ff.2.content.isEmpty then
      sweepGoP sources (TranslationData.deleteFile db ff.1, true) rest
    else sweepGoP sources (db, m) rest

/-- Apply the sweep to the project state. -/
def sweepP (st : ProjState) : ProjState :=
  let dm := sweepGoP st.sources (st.db, st.dbModified) st.db.files
  { st with
    db := dm.1
    dbModified := dm.2 }

/-- `Project.processSources`: seed known keys from the database, justify all
unprocessed sources, then sweep. -/
def processSourcesP (keysOf : Str → Str → JsMap Str Str)
    (justifyOf : Str → Str → Option JustifyOutcome) (now : Nat)
    (st : ProjState) : ProjState :=
  let st1 := seedKnownP st
  let st2 := st1.unprocessed.foldl (justifyStepP keysOf justifyOf now)
    { st1 with unprocessed := [] }
  sweepP st2

/-- One full pipeline run: `updateSource` for every supplied file, then
`processSources`. -/
def runPipeline (keysOf : Str → Str → JsMap Str Str)
    (justifyOf : Str → Str → Option JustifyOutcome) (now : Nat)
    (st : ProjState) (inputs : List (Str × Str)) : ProjState :=
  processSourcesP keysOf justifyOf now
    (inputs.foldl (fun s fb => updateSourceP keysOf now s fb.1 fb.2) st)

lemma updateSourceP_same (keysOf : Str → Str → JsMap Str Str) (now : Nat)
    (st : ProjState) (filename bytes : Str)
    (h : JsMap.get st.sources filename = some bytes) :
    updateSourceP keysOf now st filename bytes = st := by
  unfold updateSourceP
  rw [h]
  dsimp only
  rw [if_pos rfl, JsMap.set_get_self st.sources filename bytes h]

lemma updateFold_same (keysOf : Str → Str → JsMap Str Str) (now : Nat)
    (inputs : List (Str × Str)) (st : ProjState)
    (h : ∀ fb ∈ inputs, JsMap.get st.sources fb.1 = some fb.2) :
    inputs.foldl (fun s fb => updateSourceP keysOf now s fb.1 fb.2) st = st := by
  induction inputs with
  | nil => rfl
  | cons fb rest ih =>
    rw [List.foldl_cons, updateSourceP_same _ _ _ _ _ (h fb (by simp))]
    exact ih (fun fb2 hm => h fb2 (List.mem_cons_of_mem _ hm))

lemma sweepGoP_noop (sources : JsMap Str Str) (l : List (Str × TDFile))
    (db : TranslationData) (m : Bool)
    (h : ∀ ff ∈ l, JsMap.hasKey sources ff.1 = true ∧ ff.2.content.isEmpty = false) :
    sweepGoP sources (db, m) l = (db, m) := by
  induction l with
  | nil => rfl
  | cons ff rest ih =>
    simp only [sweepGoP]
    obtain ⟨h1, h2⟩ := h ff (by simp)
    rw [if_neg (by simp [h1, h2])]
    exact ih (fun ff2 hm => h ff2 (List.mem_cons_of_mem _ hm))

/-- **C9.** A second pipeline run with no external change is a no-op: from a
completed project state (no unprocessed sources; every database record has a
live source and nonempty content — what the previous run's sweep
establishes), re-supplying every source's current bytes through
`updateSource` and running `processSources` leaves the sources, the
translation database, the database-modified flag and the modified-source set
unchanged.  In such a run `justifyKeys` and `updateKeys` are never invoked
at all (the unchanged-bytes check short-circuits `updateSource` and the
unprocessed set stays empty), and the sweep deletes nothing. -/
theorem c9_second_run_noop (keysOf : Str → Str → JsMap Str Str)
    (justifyOf : Str → Str → Option JustifyOutcome) (now : Nat)
    (st : ProjState) (inputs : List (Str × Str))
    (hup : st.unprocessed = [])
    (hGood : ∀ ff ∈ st.db.files, JsMap.hasKey st.sources ff.1 = true
      ∧ ff.2.content.isEmpty = false)
    (hre : ∀ fb ∈ inputs, JsMap.get st.sources fb.1 = some fb.2) :
    (runPipeline keysOf justifyOf now st inputs).sources = st.sources
      ∧ (runPipeline keysOf justifyOf now st inputs).db = st.db
      ∧ (runPipeline keysOf justifyOf now st inputs).dbModified = st.dbModified
      ∧ (runPipeline keysOf justifyOf now st inputs).modifiedSources
          = st.modifiedSources := by
  unfold runPipeline
  rw [updateFold_same keysOf now inputs st hre]
  simp only [processSourcesP]
  rw [show (seedKnownP st).unprocessed = [] from hup]
  rw [List.foldl_nil]
  simp only [sweepP]
  rw [show ({ seedKnownP st with unprocessed := [] } : ProjState).db.files
    = st.db.files from rfl]
  rw [show ({ seedKnownP st with unprocessed := [] } : ProjState).sources
    = st.sources from rfl]
  rw [show (seedKnownP st).db = st.db from rfl,
    show (seedKnownP st).dbModified = st.dbModified from rfl,
    show (seedKnownP st).modifiedSources = st.modifiedSources from rfl]
  rw [sweepGoP_noop st.sources st.db.files st.db st.dbModified hGood]
  exact ⟨rfl, rfl, rfl, rfl⟩

lemma get_isSome_of_mem {α β : Type} [DecidableEq α] (m : JsMap α β) (ff : α × β)
    (h : ff ∈ m) : (JsMap.get m ff.1).isSome = true := by
  induction m with
  | nil => exact absurd h (List.not_mem_nil ff)
  | cons hd tl ih =>
    obtain ⟨k0, v0⟩ := hd
    by_cases h0 : k0 = ff.1
    · simp [JsMap.get, h0]
    · simp only [JsMap.get, if_neg h0]
      cases List.mem_cons.mp h with
      | inl he => exact absurd (by rw [he]) h0
      | inr hm => exact ih hm

lemma mem_del_subset {α β : Type} [DecidableEq α] (m : JsMap α β) (k : α) :
    ∀ ff ∈ JsMap.del m k, ff ∈ m := by
  induction m with
  | nil => intro ff hm; exact absurd hm (by simp [JsMap.del])
  | cons hd tl ih =>
    obtain ⟨k0, v0⟩ := hd
    intro ff hm
    simp only [JsMap.del] at hm
    by_cases h0 : k0 = k
    · rw [if_pos h0] at hm
      exact List.mem_cons_of_mem _ hm
    · rw [if_neg h0] at hm
      cases List.mem_cons.mp hm with
      | inl he => exact he ▸ List.mem_cons_self _ _
      | inr hr => exact List.mem_cons_of_mem _ (ih ff hr)

lemma mem_del_keyne {α β : Type} [DecidableEq α] (m : JsMap α β) (k : α)
    (hN : (m.map Prod.fst).Nodup) : ∀ ff ∈ JsMap.del m k, ff.1 ≠ k := by
  induction m with
  | nil => intro ff hm; exact absurd hm (by simp [JsMap.del])
  | cons hd tl ih =>
    obtain ⟨k0, v0⟩ := hd
    rw [List.map_cons, List.nodup_cons] at hN
    intro ff hm he
    simp only [JsMap.del] at hm
    by_cases h0 : k0 = k
    · rw [if_pos h0] at hm
      exact hN.1 (List.mem_map.mpr ⟨ff, hm, by rw [he, h0]⟩)
    · rw [if_neg h0] at hm
      cases List.mem_cons.mp hm with
      | inl hh => exact h0 (by rw [← he, hh])
      | inr hh => exact ih hN.2 ff hh he

lemma nodup_del {α β : Type} [DecidableEq α] (m : JsMap α β) (k : α)
    (hN : (m.map Prod.fst).Nodup) : ((JsMap.del m k).map Prod.fst).Nodup := by
  induction m with
  | nil => simp [JsMap.del]
  | cons hd tl ih =>
    obtain ⟨k0, v0⟩ := hd
    rw [List.map_cons, List.nodup_cons] at hN
    simp only [JsMap.del]
    by_cases h0 : k0 = k
    · rw [if_pos h0]
      exact hN.2
    · rw [if_neg h0, List.map_cons, List.nodup_cons]
      refine ⟨?_, ih hN.2⟩
      intro hmem
      obtain ⟨ff, hff, he⟩ := List.mem_map.mp hmem
      exact hN.1 (List.mem_map.mpr ⟨ff, mem_del_subset tl k ff hff, he⟩)

lemma sweepGoP_good (sources : JsMap Str Str) (l : List (Str × TDFile)) :
    ∀ (db : TranslationData) (m : Bool),
      (db.files.map Prod.fst).Nodup →
      (∀ ff ∈ db.files, (JsMap.hasKey sources ff.1 = true
        ∧ ff.2.content.isEmpty = false) ∨ ff ∈ l) →
      ∀ ff ∈ (sweepGoP sources (db, m) l).1.files,
        JsMap.hasKey sources ff.1 = true ∧ ff.2.content.isEmpty = false := by
  induction l with
  | nil =>
    intro db m _ hsub ff hm
    cases hsub ff hm with
    | inl h => exact h
    | inr h => exact absurd h (List.not_mem_nil ff)
  | cons ff0 rest ih =>
    intro db m hN hsub
    simp only [sweepGoP]
    by_cases hbad : (!JsMap.hasKey sources ff0.1 || ff0.2.content.isEmpty) = true
    · rw [if_pos hbad]
      cases hdf : JsMap.get db.files ff0.1 with
      | none =>
        have hdel : TranslationData.deleteFile db ff0.1 = db := by
          simp [TranslationData.deleteFile, hdf]
        rw [hdel]
        refine ih db true hN ?_
        intro ff hm
        cases hsub ff hm with
        | inl h => exact Or.inl h
        | inr h =>
          cases List.mem_cons.mp h with
          | inl he =>
            exfalso
            rw [he] at hm
            have hw := get_isSome_of_mem db.files ff0 hm
            rw [hdf] at hw
            exact absurd hw (by simp)
          | inr hr => exact Or.inr hr
      | some file =>
        have hdel : (TranslationData.deleteFile db ff0.1).files
            = JsMap.del db.files ff0.1 := by
          simp [TranslationData.deleteFile, hdf]
        refine ih (TranslationData.deleteFile db ff0.1) true ?_ ?_
        · rw [hdel]
          exact nodup_del _ _ hN
        · intro ff hm
          rw [hdel] at hm
          have hmem := mem_del_subset db.files ff0.1 ff hm
          have hne := mem_del_keyne db.files ff0.1 hN ff hm
          cases hsub ff hmem with
          | inl h => exact Or.inl h
          | inr h =>
            cases List.mem_cons.mp h with
            | inl he => exact absurd (by rw [he]) hne
            | inr hr => exact Or.inr hr
    · rw [if_neg hbad]
      refine ih db m hN ?_
      intro ff hm
      cases hsub ff hm with
      | inl h => exact Or.inl h
      | inr h =>
        cases List.mem_cons.mp h with
        | inl he =>
          refine Or.inl (he ▸ ?_)
          simp only [Bool.or_eq_true, not_or, Bool.not_eq_true, Bool.not_eq_true',
            Bool.not_eq_false] at hbad
          exact ⟨hbad.1, hbad.2⟩
        | inr hr => exact Or.inr hr

lemma foldl_unprocessed {γ : Type} (g : ProjState → γ → ProjState)
    (hg : ∀ s x, (g s x).unprocessed = s.unprocessed) :
    ∀ (l : List γ) (s : ProjState), (l.foldl g s).unprocessed = s.unprocessed := by
  intro l
  induction l with
  | nil => intro s; rfl
  | cons x rest ih =>
    intro s
    rw [List.foldl_cons, ih, hg]

lemma justifyStepP_unprocessed (keysOf : Str → Str → JsMap Str Str)
    (justifyOf : Str → Str → Option JustifyOutcome) (now : Nat)
    (st : ProjState) (f : Str) :
    (justifyStepP keysOf justifyOf now st f).unprocessed = st.unprocessed := by
  simp only [justifyStepP]
  cases hg : JsMap.get st.sources f with
  | none => rfl
  | some bytes =>
    dsimp only
    cases hj : justifyOf f bytes with
    | none => rfl
    | some jr =>
      dsimp only
      by_cases hm : jr.modified = true
      · rw [if_pos hm]
        exact foldl_unprocessed _
          (fun s ok => foldl_unprocessed (copyStep now f ok.1) (fun s2 x => rfl) ok.2 s)
          jr.replacedKeys st
      · rw [if_neg hm]

lemma processSourcesP_completed (keysOf : Str → Str → JsMap Str Str)
    (justifyOf : Str → Str → Option JustifyOutcome) (now : Nat) (st1 : ProjState) :
    (processSourcesP keysOf justifyOf now st1).unprocessed = [] := by
  simp only [processSourcesP, sweepP]
  rw [foldl_unprocessed (justifyStepP keysOf justifyOf now)
    (fun s x => justifyStepP_unprocessed keysOf justifyOf now s x)]

lemma processSourcesP_good (keysOf : Str → Str → JsMap Str Str)
    (justifyOf : Str → Str → Option JustifyOutcome) (now : Nat) (st1 : ProjState)
    (hN : (((seedKnownP st1).unprocessed.foldl (justifyStepP keysOf justifyOf now)
      { seedKnownP st1 with unprocessed := [] }).db.files.map Prod.fst).Nodup) :
    ∀ ff ∈ (processSourcesP keysOf justifyOf now st1).db.files,
      JsMap.hasKey (processSourcesP keysOf justifyOf now st1).sources ff.1 = true
        ∧ ff.2.content.isEmpty = false := by
  simp only [processSourcesP, sweepP]
  intro ff hm
  exact sweepGoP_good _ _ _ _ hN (fun ff2 h2 => Or.inr h2) ff hm

/-- A completed single-file project state. -/
def c9exDb : TranslationData :=
  ⟨[("f".data, ⟨[("k".data, ⟨⟨"X".data, 1, []⟩, []⟩)]⟩)], [], 2⟩

def c9exSt : ProjState :=
  ⟨[("f".data, "B".data)], [], [], c9exDb, false, []⟩

theorem c9_second_run_noop_witness :
    (c9exSt.unprocessed = []
      ∧ (∀ ff ∈ c9exSt.db.files, JsMap.hasKey c9exSt.sources ff.1 = true
          ∧ ff.2.content.isEmpty = false)
      ∧ (∀ fb ∈ [("f".data, "B".data)],
          JsMap.get c9exSt.sources fb.1 = some fb.2))
    ∧ ((runPipeline (fun _ _ => []) (fun _ _ => none) 9 c9exSt
          [("f".data, "B".data)]).sources = c9exSt.sources
      ∧ (runPipeline (fun _ _ => []) (fun _ _ => none) 9 c9exSt
          [("f".data, "B".data)]).db = c9exSt.db
      ∧ (runPipeline (fun _ _ => []) (fun _ _ => none) 9 c9exSt
          [("f".data, "B".data)]).dbModified = c9exSt.dbModified
      ∧ (runPipeline (fun _ _ => []) (fun _ _ => none) 9 c9exSt
          [("f".data, "B".data)]).modifiedSources = c9exSt.modifiedSources) :=
  ⟨⟨by decide, by decide, by decide⟩,
   c9_second_run_noop (fun _ _ => []) (fun _ _ => none) 9 c9exSt
     [("f".data, "B".data)] (by decide) (by decide) (by decide)⟩

end I18nTools
